import Mathlib

/-!
# LogScanner: the concurrent scanning engine (`internal/analyzer`)

A shallow embedding of `analyzer.go` / `types.go` as an interleaving transition
system.  Every goroutine of `Start` is a small program-counter machine; one
step of the system is one shared-memory operation of one goroutine (an atomic
load/store/add, a mutex operation, a channel operation), together with the
goroutine-local computation that follows it.  Line numbers are those of
`internal/analyzer/analyzer.go`.

* `int64` counters are `Int` reduced by `wrapInt64`, the `uint64` sequence
  counter is `Nat` reduced by `wrapUint64`; `int` is taken to be 64 bits wide.
* A channel of `struct{}` that is only ever closed (the pause gate, `jobs`
  apart from its rendezvous, `done`) is a Boolean "closed" flag; the gate
  channels live in a heap `gates`, addressed by their allocation number.
* `out` is the list of events sent so far plus the number the consumer has
  already received; a send needs room in the 256-slot buffer.
* `jobs` is unbuffered: a job changes hands in one step of the dispatcher and
  a worker together.
* The ticker may fire whenever the owner of `out` stands at its `select`.
* A run-time panic (send on a closed channel, close of a closed channel,
  negative `WaitGroup` counter) sets `panicked`, after which nothing moves.
  The panic of `wg.Add` (line 68) strikes the goroutine that owns `out` while
  its only deferred call is the `close(out)` of line 56, which runs as the
  panic unwinds: that step closes `out` as well.  No goroutine with another
  deferred call ever panics (`panic_sites`).
* The consumer receives events and calls `pauseFn` at any time, from any
  number of goroutines.

The file has the model first (data, shared memory, the goroutines, the step
function `step`, runs `exec` and `Reachable`), then the observations and
invariants the proofs use, then the theorems: the transition relations that
`step` refines, the invariants of all runs, and the claims `C1` to `C10` with
their concrete runs.
-/

namespace LogScanner

/-! ## Data model (`types.go`) -/

/-- Go `error` values, identified by their message; `nil` is `none`. -/
abbrev GoError := String

/-- The `Totals` event. -/
structure Totals where
  FilesTotal : Int
  FilesDone : Int
  LinesTotal : Int
  MatchesTotal : Int
  Done : Bool
  Err : Option GoError
deriving DecidableEq

/-- The `FileUpdate` event; `Status` is one of `WAIT`, `DONE`, `FAIL`. -/
structure FileUpdate where
  File : String
  Lines : Int
  Matches : Int
  Status : String
  Err : Option GoError
deriving DecidableEq

/-- The `MatchLine` event. -/
structure MatchLine where
  Seq : Nat
  File : String
  Line : String
deriving DecidableEq

/-- The `Event` interface: the three types that implement `isEvent`. -/
inductive Event where
  | totals (t : Totals)
  | fileUpdate (u : FileUpdate)
  | matchLine (m : MatchLine)
deriving DecidableEq

/-! ## Machine integers -/

/-- Two's complement reduction to `int64`. -/
def wrapInt64 (x : Int) : Int :=
  (x + 9223372036854775808) % 18446744073709551616 - 9223372036854775808

/-- Reduction to `uint64`. -/
def wrapUint64 (n : Nat) : Nat := n % 18446744073709551616

/-! ## The environment of a run -/

/-- What `os.Open` + `bufio.Scanner` make of a file that opens: the tokens
`scanner.Scan()` yields, in order, and the value of `scanner.Err()` once
`Scan` has returned false (`none` at a clean end of file, an error for a read
error or a line longer than the 8 MiB buffer bound). -/
structure FileData where
  lines : List String
  readErr : Option GoError

/-- The arguments of `Start` and the file system the run reads. -/
structure Config where
  files : List String
  re : String → Bool
  concurrent : Int
  fs : String → Except GoError FileData

/-! ## Shared memory -/

/-- The `PauseController` struct: the atomic flag, the mutex (held or not) and
the current gate channel. -/
structure PauseController where
  paused : Int
  chMu : Bool
  ch : Nat

/-- Everything the goroutines of one run share. -/
structure Shared where
  /-- events sent on `out`, oldest first -/
  out : List Event
  /-- how many of them the consumer has received -/
  outRecv : Nat
  outClosed : Bool
  filesDone : Int
  linesTotal : Int
  matchesTotal : Int
  seq : Nat
  pc : PauseController
  /-- heap of gate channels: `true` when closed -/
  gates : List Bool
  jobsClosed : Bool
  /-- the `WaitGroup` counter -/
  wg : Int
  doneClosed : Bool
  panicked : Bool

/-- `NewPauseController`: a running controller with a fresh open gate. -/
def NewPauseController (gates : List Bool) : PauseController × List Bool :=
  ({ paused := 0, chMu := false, ch := gates.length }, gates ++ [false])

/-- Whether gate channel `ch` is closed (a receive from it succeeds). -/
def gateClosed (gates : List Bool) (ch : Nat) : Bool := gates.getD ch false

/-- `out <- e`: panics on a closed channel, blocks (`none`) while the
256-slot buffer is full. -/
def sendOut (sh : Shared) (e : Event) : Option Shared :=
  if sh.outClosed then some { sh with panicked := true }
  else if sh.out.length - sh.outRecv < 256 then some { sh with out := sh.out ++ [e] }
  else none

/-! ## `PauseController.WaitIfPaused` -/

/-- Program counter inside one call of `WaitIfPaused`. -/
inductive WaitPc where
  /-- line 40, before the atomic load -/
  | load
  /-- line 43, before `chMu.Lock()` -/
  | lock
  /-- line 44, holding the mutex, before `ch := p.ch` -/
  | read
  /-- line 45, holding the mutex, before `chMu.Unlock()` -/
  | unlock (ch : Nat)
  /-- line 46, before `<-ch` -/
  | recv (ch : Nat)
deriving DecidableEq

/-- One step of `WaitIfPaused`; the second component is `none` once the call
has returned. -/
def WaitIfPaused (sh : Shared) : WaitPc → Option (Shared × Option WaitPc)
  | .load => if sh.pc.paused = 0 then some (sh, none) else some (sh, some .lock)
  | .lock =>
      if sh.pc.chMu then none
      else some ({ sh with pc := { sh.pc with chMu := true } }, some .read)
  | .read => some (sh, some (.unlock sh.pc.ch))
  | .unlock ch => some ({ sh with pc := { sh.pc with chMu := false } }, some (.recv ch))
  | .recv ch => if gateClosed sh.gates ch then some (sh, none) else none

/-! ## `PauseController.SetPaused` -/

/-- Program counter of a call `SetPaused(false)` after its atomic store. -/
inductive CtlPc where
  /-- line 29, before `chMu.Lock()` -/
  | lock
  /-- line 30, holding the mutex, at the `select` -/
  | select
  /-- line 33, in the `default` branch, before `close(p.ch)` -/
  | close
  /-- line 35, before `p.ch = make(chan struct{})` -/
  | make
  /-- line 36, before `chMu.Unlock()` -/
  | unlock
  | returned
deriving DecidableEq

/-- `close(ch)` on the gate heap: `none` is the run-time panic "close of
closed channel". -/
def closeGate (gates : List Bool) (ch : Nat) : Option (List Bool) :=
  if gateClosed gates ch then none else some (gates.set ch true)

/-- One step of a `SetPaused(false)` call past its store. -/
def SetPaused (sh : Shared) : CtlPc → Option (Shared × CtlPc)
  | .lock =>
      if sh.pc.chMu then none
      else some ({ sh with pc := { sh.pc with chMu := true } }, .select)
  | .select => if gateClosed sh.gates sh.pc.ch then some (sh, .make) else some (sh, .close)
  | .close =>
      match closeGate sh.gates sh.pc.ch with
      | none => some ({ sh with panicked := true }, .close)
      | some g => some ({ sh with gates := g }, .make)
  | .make =>
      some ({ sh with gates := sh.gates ++ [false],
                      pc := { sh.pc with ch := sh.gates.length } }, .unlock)
  | .unlock => some ({ sh with pc := { sh.pc with chMu := false } }, .returned)
  | .returned => none

/-- The atomic store that opens every `SetPaused(v)` call (lines 24 and 27). -/
def storePaused (sh : Shared) (v : Bool) : Shared :=
  { sh with pc := { sh.pc with paused := if v then 1 else 0 } }

/-! ## `scanFileOnce` -/

/-- The locals of `scanFileOnce` inside its loop (`matched` is the local the
source calls matches, a reserved word here). -/
structure ScanLocals where
  path : String
  /-- tokens the scanner has yet to yield -/
  rest : List String
  /-- what `scanner.Err()` will be when the tokens are used up -/
  rerr : Option GoError
  lines : Int
  matched : Int
deriving DecidableEq

/-- Program counter of one call of `scanFileOnce`. -/
inductive ScanPc where
  /-- line 132, before `os.Open` -/
  | openFile (path : String)
  /-- line 146, before `scanner.Scan()` -/
  | scan (l : ScanLocals)
  /-- line 147, inside `pc.WaitIfPaused()`; `txt` is the token just scanned -/
  | wait (l : ScanLocals) (txt : String) (w : WaitPc)
  /-- line 153, before the atomic add on `seq` -/
  | addSeq (l : ScanLocals) (txt : String)
  /-- line 154, before the send of the `MatchLine` -/
  | send (l : ScanLocals) (txt : String) (id : Nat)
  /-- returned with the values of `lines`, of the match counter and of `err` -/
  | ret (lines matched : Int) (err : Option GoError)
deriving DecidableEq

/-- Lines 149-152 once `WaitIfPaused` has returned: count the line, test it. -/
def afterWait (re : String → Bool) (l : ScanLocals) (txt : String) : ScanPc :=
  let l1 := { l with lines := wrapInt64 (l.lines + 1) }
  if re txt then .addSeq { l1 with matched := wrapInt64 (l1.matched + 1) } txt
  else .scan l1

/-- One step of `scanFileOnce`. -/
def scanFileOnce (cfg : Config) (sh : Shared) : ScanPc → Option (Shared × ScanPc)
  | .openFile path =>
      match cfg.fs path with
      | .error e => some (sh, .ret 0 0 (some e))
      | .ok fd =>
          some (sh, .scan { path := path, rest := fd.lines, rerr := fd.readErr,
                            lines := 0, matched := 0 })
  | .scan l =>
      match l.rest with
      | txt :: rest => some (sh, .wait { l with rest := rest } txt .load)
      | [] => some (sh, .ret l.lines l.matched l.rerr)
  | .wait l txt w =>
      match WaitIfPaused sh w with
      | none => none
      | some (sh1, some w1) => some (sh1, .wait l txt w1)
      | some (sh1, none) => some (sh1, afterWait cfg.re l txt)
  | .addSeq l txt =>
      let id := wrapUint64 (sh.seq + 1)
      some ({ sh with seq := id }, .send l txt id)
  | .send l txt id =>
      match sendOut sh (.matchLine { Seq := id, File := l.path, Line := txt }) with
      | none => none
      | some sh1 => some (sh1, .scan l)
  | .ret _ _ _ => none

/-! ## The goroutines of `Start` -/

/-- Program counter of a worker (lines 71-86). -/
inductive WorkerPc where
  /-- line 73, receiving from `jobs` -/
  | recvJob
  /-- line 74, inside `pc.WaitIfPaused()` -/
  | waitJob (path : String) (w : WaitPc)
  /-- line 76, inside `scanFileOnce`; at `ScanPc.ret`, before the send of the
  `FileUpdate` (lines 78 and 80) -/
  | scanning (path : String) (p : ScanPc)
  /-- line 81 -/
  | addLines (lines matched : Int)
  /-- line 82 -/
  | addMatches (matched : Int)
  /-- line 84 -/
  | addFilesDone
  /-- after the deferred `wg.Done()` -/
  | exited
deriving DecidableEq

/-- One step of a worker, the rendezvous on `jobs` apart. -/
def workerStep (cfg : Config) (sh : Shared) : WorkerPc → Option (Shared × WorkerPc)
  | .recvJob =>
      if sh.jobsClosed then some ({ sh with wg := sh.wg - 1 }, .exited) else none
  | .waitJob path w =>
      match WaitIfPaused sh w with
      | none => none
      | some (sh1, some w1) => some (sh1, .waitJob path w1)
      | some (sh1, none) => some (sh1, .scanning path (.openFile path))
  | .scanning path (.ret lines matched err) =>
      match err with
      | some e =>
          match sendOut sh (.fileUpdate { File := path, Lines := lines, Matches := matched,
                                           Status := "FAIL", Err := some e }) with
          | none => none
          | some sh1 => some (sh1, .addFilesDone)
      | none =>
          match sendOut sh (.fileUpdate { File := path, Lines := lines, Matches := matched,
                                           Status := "DONE", Err := none }) with
          | none => none
          | some sh1 => some (sh1, .addLines lines matched)
  | .scanning path p =>
      match scanFileOnce cfg sh p with
      | none => none
      | some (sh1, p1) => some (sh1, .scanning path p1)
  | .addLines lines matched =>
      some ({ sh with linesTotal := wrapInt64 (sh.linesTotal + lines) }, .addMatches matched)
  | .addMatches matched =>
      some ({ sh with matchesTotal := wrapInt64 (sh.matchesTotal + matched) }, .addFilesDone)
  | .addFilesDone =>
      some ({ sh with filesDone := wrapInt64 (sh.filesDone + 1) }, .recvJob)
  | .exited => none

/-- Program counter of the dispatcher (lines 89-95). -/
inductive DispPc where
  | idle
  /-- line 90, with the files still to be announced -/
  | loop (rest : List String)
  /-- line 92, sending `f` on `jobs` -/
  | sendJob (f : String) (rest : List String)
  | finished
deriving DecidableEq

/-- One step of the dispatcher, the rendezvous on `jobs` apart. -/
def dispStep (sh : Shared) : DispPc → Option (Shared × DispPc)
  | .loop (f :: rest) =>
      match sendOut sh (.fileUpdate { File := f, Lines := 0, Matches := 0,
                                       Status := "WAIT", Err := none }) with
      | none => none
      | some sh1 => some (sh1, .sendJob f rest)
  | .loop [] => some ({ sh with jobsClosed := true }, .finished)
  | _ => none

/-- Program counter of the goroutine that owns `out` (lines 55-126). -/
inductive MainPc where
  /-- line 64 -/
  | start
  /-- lines 66-104: `wg.Add`, the `go` statements -/
  | spawn
  /-- line 107 -/
  | select
  /-- lines 111 / 118 -/
  | loadFilesDone (term : Bool)
  /-- lines 112 / 119 -/
  | loadLinesTotal (term : Bool) (fd : Int)
  /-- lines 113 / 120 -/
  | loadMatchesTotal (term : Bool) (fd lt : Int)
  /-- lines 109 / 116, the send -/
  | send (term : Bool) (fd lt mt : Int)
  /-- line 123, the deferred `close(out)` -/
  | close
  | finished
deriving DecidableEq

/-- Program counter of the goroutine of lines 101-104. -/
inductive JoinPc where
  | idle
  | waiting
  | finished
deriving DecidableEq

/-- The state of a run. -/
structure State where
  sh : Shared
  main : MainPc
  disp : DispPc
  join : JoinPc
  workers : List WorkerPc
  /-- the calls of `pauseFn(false)` made so far -/
  ctls : List CtlPc

/-- Who moves. -/
inductive Label where
  /-- the goroutine that owns `out`; at the `select` it takes the `done` case -/
  | main
  /-- at the `select`, the ticker case -/
  | tick
  | disp
  /-- the dispatcher hands its job to worker `i` -/
  | handoff (i : Nat)
  | join
  | worker (i : Nat)
  /-- somebody calls `pauseFn(v)`; the step is the atomic store -/
  | setPaused (v : Bool)
  /-- call number `j` of `pauseFn(false)` goes on -/
  | ctl (j : Nat)
  /-- the consumer receives an event -/
  | consume
deriving DecidableEq

/-- The `Totals` literal of lines 109-114 and 116-122. -/
def mkTotals (cfg : Config) (term : Bool) (fd lt mt : Int) : Totals :=
  { FilesTotal := cfg.files.length, FilesDone := fd, LinesTotal := lt, MatchesTotal := mt,
    Done := term, Err := none }

/-- One step of the goroutine that owns `out`.  A negative `concurrent` makes
`wg.Add` panic (line 68); the deferred `close(out)` of line 56 runs before the
program dies. -/
def mainStep (cfg : Config) (s : State) (tick : Bool) : Option State :=
  match s.main with
  | .start =>
      match sendOut s.sh (.totals { FilesTotal := cfg.files.length, FilesDone := 0,
                                     LinesTotal := 0, MatchesTotal := 0, Done := false,
                                     Err := none }) with
      | none => none
      | some sh1 => if tick then none else some { s with sh := sh1, main := .spawn }
  | .spawn =>
      if tick then none
      else if cfg.concurrent < 0 then
        some { s with sh := { s.sh with outClosed := true, panicked := true } }
      else some { s with sh := { s.sh with wg := cfg.concurrent },
                         workers := List.replicate cfg.concurrent.toNat .recvJob,
                         disp := .loop cfg.files, join := .waiting, main := .select }
  | .select =>
      if tick then some { s with main := .loadFilesDone false }
      else if s.sh.doneClosed then some { s with main := .loadFilesDone true } else none
  | .loadFilesDone term =>
      if tick then none else some { s with main := .loadLinesTotal term s.sh.filesDone }
  | .loadLinesTotal term fd =>
      if tick then none else some { s with main := .loadMatchesTotal term fd s.sh.linesTotal }
  | .loadMatchesTotal term fd lt =>
      if tick then none else some { s with main := .send term fd lt s.sh.matchesTotal }
  | .send term fd lt mt =>
      if tick then none
      else match sendOut s.sh (.totals (mkTotals cfg term fd lt mt)) with
        | none => none
        | some sh1 => some { s with sh := sh1, main := if term then .close else .select }
  | .close =>
      if tick then none
      else if s.sh.outClosed then some { s with sh := { s.sh with panicked := true } }
      else some { s with sh := { s.sh with outClosed := true }, main := .finished }
  | .finished => none

/-- One step of the system. -/
def step (cfg : Config) (s : State) (l : Label) : Option State :=
  if s.sh.panicked then none
  else match l with
    | .main => mainStep cfg s false
    | .tick => mainStep cfg s true
    | .disp =>
        match dispStep s.sh s.disp with
        | none => none
        | some (sh1, d1) => some { s with sh := sh1, disp := d1 }
    | .handoff i =>
        match s.disp, s.workers[i]? with
        | .sendJob f rest, some .recvJob =>
            if s.sh.jobsClosed then none
            else some { s with disp := .loop rest,
                               workers := s.workers.set i (.waitJob f .load) }
        | _, _ => none
    | .join =>
        match s.join with
        | .waiting =>
            if s.sh.wg = 0 then
              some { s with sh := { s.sh with doneClosed := true }, join := .finished }
            else none
        | _ => none
    | .worker i =>
        match s.workers[i]? with
        | none => none
        | some w =>
            match workerStep cfg s.sh w with
            | none => none
            | some (sh1, w1) => some { s with sh := sh1, workers := s.workers.set i w1 }
    | .setPaused v =>
        some { s with sh := storePaused s.sh v,
                      ctls := if v then s.ctls else s.ctls ++ [.lock] }
    | .ctl j =>
        match s.ctls[j]? with
        | none => none
        | some c =>
            match SetPaused s.sh c with
            | none => none
            | some (sh1, c1) => some { s with sh := sh1, ctls := s.ctls.set j c1 }
    | .consume =>
        if s.sh.outRecv < s.sh.out.length then
          some { s with sh := { s.sh with outRecv := s.sh.outRecv + 1 } }
        else none

/-- The state in which `Start` returns: `out` and the pause controller exist,
the goroutine of line 55 has not run yet. -/
def Start (_cfg : Config) : State :=
  let p := NewPauseController []
  { sh := { out := [], outRecv := 0, outClosed := false, filesDone := 0, linesTotal := 0,
            matchesTotal := 0, seq := 0, pc := p.1, gates := p.2, jobsClosed := false,
            wg := 0, doneClosed := false, panicked := false },
    main := .start, disp := .idle, join := .idle, workers := [], ctls := [] }

/-- Run a schedule; `none` when one of its steps is not enabled. -/
def exec (cfg : Config) (s : State) : List Label → Option State
  | [] => some s
  | l :: ls =>
      match step cfg s l with
      | none => none
      | some s1 => exec cfg s1 ls

/-- States some schedule leads to from the state `Start` returns in. -/
def Reachable (cfg : Config) (s : State) : Prop :=
  ∃ ls, exec cfg (Start cfg) ls = some s

/-! ## Observations on workers and calls -/

/-- The `WaitIfPaused` call a worker is inside, if any. -/
def WorkerPc.waitPc : WorkerPc → Option WaitPc
  | .waitJob _ w => some w
  | .scanning _ (.wait _ _ w) => some w
  | _ => none

/-- The gate channel a waiter has read from `p.ch`. -/
def WaitPc.held : WaitPc → Option Nat
  | .unlock ch => some ch
  | .recv ch => some ch
  | _ => none

/-- Whether a waiter holds the mutex. -/
def WaitPc.crit : WaitPc → Nat
  | .read => 1
  | .unlock _ => 1
  | _ => 0

/-- Whether a worker holds the mutex. -/
def WorkerPc.crit (w : WorkerPc) : Nat :=
  match w.waitPc with
  | some p => p.crit
  | none => 0

/-- Whether a `SetPaused(false)` call holds the mutex. -/
def CtlPc.crit : CtlPc → Nat
  | .select => 1
  | .close => 1
  | .make => 1
  | .unlock => 1
  | _ => 0

/-- Whether a call stands between its `close` and its `make`. -/
def CtlPc.atMake : CtlPc → Nat
  | .make => 1
  | _ => 0

/-- Whether a worker has not exited yet. -/
def WorkerPc.live : WorkerPc → Nat
  | .exited => 0
  | _ => 1

/-- The sequence number a worker has drawn and not sent yet. -/
def WorkerPc.pendSeq : WorkerPc → Multiset Nat
  | .scanning _ (.send _ _ id) => {id}
  | _ => 0

/-- The job a worker has received and not reported yet. -/
def WorkerPc.inflight : WorkerPc → Multiset String
  | .waitJob path _ => {path}
  | .scanning path _ => {path}
  | _ => 0

/-- Lines a worker has reported as DONE and not added to `linesTotal` yet. -/
def WorkerPc.pendLines : WorkerPc → Int
  | .addLines l _ => l
  | _ => 0

/-- Matches a worker has reported as DONE and not added to `matchesTotal` yet. -/
def WorkerPc.pendMatches : WorkerPc → Int
  | .addLines _ m => m
  | .addMatches m => m
  | _ => 0

/-- Files a worker has reported and not added to `filesDone` yet. -/
def WorkerPc.pendFiles : WorkerPc → Int
  | .addLines _ _ => 1
  | .addMatches _ => 1
  | .addFilesDone => 1
  | _ => 0

/-! ## Observations on the trace -/

/-- The `Seq` of a `MatchLine` event. -/
def Event.seqs : Event → Multiset Nat
  | .matchLine m => {m.Seq}
  | _ => 0

/-- Whether an event is a `FileUpdate` with status DONE or FAIL. -/
def Event.isReport : Event → Bool
  | .fileUpdate u => u.Status = "DONE" || u.Status = "FAIL"
  | _ => false

/-- Whether an event is a `FileUpdate` with status WAIT. -/
def Event.isQueued : Event → Bool
  | .fileUpdate u => u.Status = "WAIT"
  | _ => false

/-- Whether an event is a `MatchLine`. -/
def Event.isMatch : Event → Bool
  | .matchLine _ => true
  | _ => false

/-- Whether an event is a `Totals` with `Done` set. -/
def Event.isTerminal : Event → Bool
  | .totals t => t.Done
  | _ => false

/-- The file of a DONE or FAIL `FileUpdate`. -/
def Event.reported : Event → Multiset String
  | .fileUpdate u => if u.Status = "DONE" || u.Status = "FAIL" then {u.File} else 0
  | _ => 0

/-- The file of a WAIT `FileUpdate`. -/
def Event.queued : Event → Multiset String
  | .fileUpdate u => if u.Status = "WAIT" then {u.File} else 0
  | _ => 0

/-- The `Lines` of a DONE `FileUpdate`, zero for every other event. -/
def Event.doneLines : Event → Int
  | .fileUpdate u => if u.Status = "DONE" then u.Lines else 0
  | _ => 0

/-- The `Matches` of a DONE `FileUpdate`, zero for every other event. -/
def Event.doneMatches : Event → Int
  | .fileUpdate u => if u.Status = "DONE" then u.Matches else 0
  | _ => 0

/-- One for a DONE or FAIL `FileUpdate`, zero for every other event. -/
def Event.reportCount : Event → Int
  | .fileUpdate u => if u.Status = "DONE" || u.Status = "FAIL" then 1 else 0
  | _ => 0

/-! ## The steps of the goroutines as relations -/

/-- The two outcomes of a send on `out` that does not block. -/
inductive Sent : Shared → Event → Shared → Prop where
  | crash (sh : Shared) (e : Event) (h : sh.outClosed = true) :
      Sent sh e { sh with panicked := true }
  | ok (sh : Shared) (e : Event) (h : sh.outClosed = false)
      (hroom : sh.out.length - sh.outRecv < 256) :
      Sent sh e { sh with out := sh.out ++ [e] }

/-- The steps of `WaitIfPaused`. -/
inductive WaitTrans : Shared → WaitPc → Shared → Option WaitPc → Prop where
  | running (sh : Shared) (h : sh.pc.paused = 0) : WaitTrans sh .load sh none
  | paused (sh : Shared) (h : sh.pc.paused ≠ 0) : WaitTrans sh .load sh (some .lock)
  | lock (sh : Shared) (h : sh.pc.chMu = false) :
      WaitTrans sh .lock { sh with pc := { sh.pc with chMu := true } } (some .read)
  | read (sh : Shared) : WaitTrans sh .read sh (some (.unlock sh.pc.ch))
  | unlock (sh : Shared) (ch : Nat) :
      WaitTrans sh (.unlock ch) { sh with pc := { sh.pc with chMu := false } } (some (.recv ch))
  | recv (sh : Shared) (ch : Nat) (h : gateClosed sh.gates ch = true) :
      WaitTrans sh (.recv ch) sh none

/-- The steps of a `SetPaused(false)` call past its store. -/
inductive CtlTrans : Shared → CtlPc → Shared → CtlPc → Prop where
  | lock (sh : Shared) (h : sh.pc.chMu = false) :
      CtlTrans sh .lock { sh with pc := { sh.pc with chMu := true } } .select
  | closed (sh : Shared) (h : gateClosed sh.gates sh.pc.ch = true) :
      CtlTrans sh .select sh .make
  | dflt (sh : Shared) (h : gateClosed sh.gates sh.pc.ch = false) :
      CtlTrans sh .select sh .close
  | crash (sh : Shared) (h : gateClosed sh.gates sh.pc.ch = true) :
      CtlTrans sh .close { sh with panicked := true } .close
  | close (sh : Shared) (h : gateClosed sh.gates sh.pc.ch = false) :
      CtlTrans sh .close { sh with gates := sh.gates.set sh.pc.ch true } .make
  | make (sh : Shared) :
      CtlTrans sh .make { sh with gates := sh.gates ++ [false],
                                  pc := { sh.pc with ch := sh.gates.length } } .unlock
  | unlock (sh : Shared) :
      CtlTrans sh .unlock { sh with pc := { sh.pc with chMu := false } } .returned

/-- The steps of a worker. -/
inductive WorkerTrans (cfg : Config) : Shared → WorkerPc → Shared → WorkerPc → Prop where
  | exit (sh : Shared) (h : sh.jobsClosed = true) :
      WorkerTrans cfg sh .recvJob { sh with wg := sh.wg - 1 } .exited
  | waitJob (sh sh1 : Shared) (path : String) (w w1 : WaitPc)
      (h : WaitTrans sh w sh1 (some w1)) :
      WorkerTrans cfg sh (.waitJob path w) sh1 (.waitJob path w1)
  | startScan (sh sh1 : Shared) (path : String) (w : WaitPc) (h : WaitTrans sh w sh1 none) :
      WorkerTrans cfg sh (.waitJob path w) sh1 (.scanning path (.openFile path))
  | openErr (sh : Shared) (path p : String) (e : GoError) (h : cfg.fs p = .error e) :
      WorkerTrans cfg sh (.scanning path (.openFile p)) sh (.scanning path (.ret 0 0 (some e)))
  | openOk (sh : Shared) (path p : String) (fd : FileData) (h : cfg.fs p = .ok fd) :
      WorkerTrans cfg sh (.scanning path (.openFile p)) sh
        (.scanning path (.scan { path := p, rest := fd.lines, rerr := fd.readErr,
                                 lines := 0, matched := 0 }))
  | scanNext (sh : Shared) (path : String) (l : ScanLocals) (txt : String)
      (rest : List String) (h : l.rest = txt :: rest) :
      WorkerTrans cfg sh (.scanning path (.scan l)) sh
        (.scanning path (.wait { l with rest := rest } txt .load))
  | scanEnd (sh : Shared) (path : String) (l : ScanLocals) (h : l.rest = []) :
      WorkerTrans cfg sh (.scanning path (.scan l)) sh
        (.scanning path (.ret l.lines l.matched l.rerr))
  | waitLine (sh sh1 : Shared) (path : String) (l : ScanLocals) (txt : String)
      (w w1 : WaitPc) (h : WaitTrans sh w sh1 (some w1)) :
      WorkerTrans cfg sh (.scanning path (.wait l txt w)) sh1 (.scanning path (.wait l txt w1))
  | lineDone (sh sh1 : Shared) (path : String) (l : ScanLocals) (txt : String) (w : WaitPc)
      (h : WaitTrans sh w sh1 none) :
      WorkerTrans cfg sh (.scanning path (.wait l txt w)) sh1
        (.scanning path (afterWait cfg.re l txt))
  | addSeq (sh : Shared) (path : String) (l : ScanLocals) (txt : String) :
      WorkerTrans cfg sh (.scanning path (.addSeq l txt))
        { sh with seq := wrapUint64 (sh.seq + 1) }
        (.scanning path (.send l txt (wrapUint64 (sh.seq + 1))))
  | sendMatch (sh sh1 : Shared) (path : String) (l : ScanLocals) (txt : String) (id : Nat)
      (h : Sent sh (.matchLine { Seq := id, File := l.path, Line := txt }) sh1) :
      WorkerTrans cfg sh (.scanning path (.send l txt id)) sh1 (.scanning path (.scan l))
  | sendFail (sh sh1 : Shared) (path : String) (lines matched : Int) (e : GoError)
      (h : Sent sh (.fileUpdate { File := path, Lines := lines, Matches := matched,
                                      Status := "FAIL", Err := some e }) sh1) :
      WorkerTrans cfg sh (.scanning path (.ret lines matched (some e))) sh1 .addFilesDone
  | sendDone (sh sh1 : Shared) (path : String) (lines matched : Int)
      (h : Sent sh (.fileUpdate { File := path, Lines := lines, Matches := matched,
                                      Status := "DONE", Err := none }) sh1) :
      WorkerTrans cfg sh (.scanning path (.ret lines matched none)) sh1
        (.addLines lines matched)
  | addLines (sh : Shared) (lines matched : Int) :
      WorkerTrans cfg sh (.addLines lines matched)
        { sh with linesTotal := wrapInt64 (sh.linesTotal + lines) } (.addMatches matched)
  | addMatches (sh : Shared) (matched : Int) :
      WorkerTrans cfg sh (.addMatches matched)
        { sh with matchesTotal := wrapInt64 (sh.matchesTotal + matched) } .addFilesDone
  | addFilesDone (sh : Shared) :
      WorkerTrans cfg sh .addFilesDone
        { sh with filesDone := wrapInt64 (sh.filesDone + 1) } .recvJob

/-- The initial `Totals` of line 64. -/
def initialTotals (cfg : Config) : Event :=
  .totals { FilesTotal := cfg.files.length, FilesDone := 0, LinesTotal := 0,
            MatchesTotal := 0, Done := false, Err := none }

/-- The WAIT `FileUpdate` of line 91. -/
def queuedUpdate (f : String) : Event :=
  .fileUpdate { File := f, Lines := 0, Matches := 0, Status := "WAIT", Err := none }

/-- The steps of the system. -/
inductive Trans (cfg : Config) : State → Label → State → Prop where
  | start (s : State) (sh1 : Shared) (h : s.main = .start)
      (hs : Sent s.sh (initialTotals cfg) sh1) :
      Trans cfg s .main { s with sh := sh1, main := .spawn }
  | spawnCrash (s : State) (h : s.main = .spawn) (hc : cfg.concurrent < 0) :
      Trans cfg s .main { s with sh := { s.sh with outClosed := true, panicked := true } }
  | spawn (s : State) (h : s.main = .spawn) (hc : 0 ≤ cfg.concurrent) :
      Trans cfg s .main
        { s with sh := { s.sh with wg := cfg.concurrent },
                 workers := List.replicate cfg.concurrent.toNat .recvJob,
                 disp := .loop cfg.files, join := .waiting, main := .select }
  | tick (s : State) (h : s.main = .select) :
      Trans cfg s .tick { s with main := .loadFilesDone false }
  | joined (s : State) (h : s.main = .select) (hd : s.sh.doneClosed = true) :
      Trans cfg s .main { s with main := .loadFilesDone true }
  | loadFilesDone (s : State) (term : Bool) (h : s.main = .loadFilesDone term) :
      Trans cfg s .main { s with main := .loadLinesTotal term s.sh.filesDone }
  | loadLinesTotal (s : State) (term : Bool) (fd : Int) (h : s.main = .loadLinesTotal term fd) :
      Trans cfg s .main { s with main := .loadMatchesTotal term fd s.sh.linesTotal }
  | loadMatchesTotal (s : State) (term : Bool) (fd lt : Int)
      (h : s.main = .loadMatchesTotal term fd lt) :
      Trans cfg s .main { s with main := .send term fd lt s.sh.matchesTotal }
  | sendTotals (s : State) (term : Bool) (fd lt mt : Int) (sh1 : Shared)
      (h : s.main = .send term fd lt mt)
      (hs : Sent s.sh (.totals (mkTotals cfg term fd lt mt)) sh1) :
      Trans cfg s .main { s with sh := sh1, main := if term then .close else .select }
  | closeCrash (s : State) (h : s.main = .close) (hc : s.sh.outClosed = true) :
      Trans cfg s .main { s with sh := { s.sh with panicked := true } }
  | close (s : State) (h : s.main = .close) (hc : s.sh.outClosed = false) :
      Trans cfg s .main { s with sh := { s.sh with outClosed := true }, main := .finished }
  | announce (s : State) (f : String) (rest : List String) (sh1 : Shared)
      (h : s.disp = .loop (f :: rest)) (hs : Sent s.sh (queuedUpdate f) sh1) :
      Trans cfg s .disp { s with sh := sh1, disp := .sendJob f rest }
  | closeJobs (s : State) (h : s.disp = .loop []) :
      Trans cfg s .disp { s with sh := { s.sh with jobsClosed := true }, disp := .finished }
  | handoff (s : State) (i : Nat) (f : String) (rest : List String)
      (h : s.disp = .sendJob f rest) (hw : s.workers[i]? = some .recvJob)
      (hj : s.sh.jobsClosed = false) :
      Trans cfg s (.handoff i)
        { s with disp := .loop rest, workers := s.workers.set i (.waitJob f .load) }
  | join (s : State) (h : s.join = .waiting) (hw : s.sh.wg = 0) :
      Trans cfg s .join { s with sh := { s.sh with doneClosed := true }, join := .finished }
  | worker (s : State) (i : Nat) (w w1 : WorkerPc) (sh1 : Shared)
      (hw : s.workers[i]? = some w) (h : WorkerTrans cfg s.sh w sh1 w1) :
      Trans cfg s (.worker i) { s with sh := sh1, workers := s.workers.set i w1 }
  | pause (s : State) :
      Trans cfg s (.setPaused true) { s with sh := storePaused s.sh true }
  | resume (s : State) :
      Trans cfg s (.setPaused false)
        { s with sh := storePaused s.sh false, ctls := s.ctls ++ [.lock] }
  | ctl (s : State) (j : Nat) (c c1 : CtlPc) (sh1 : Shared)
      (hc : s.ctls[j]? = some c) (h : CtlTrans s.sh c sh1 c1) :
      Trans cfg s (.ctl j) { s with sh := sh1, ctls := s.ctls.set j c1 }
  | consume (s : State) (h : s.sh.outRecv < s.sh.out.length) :
      Trans cfg s .consume { s with sh := { s.sh with outRecv := s.sh.outRecv + 1 } }

/-! ## Reachability -/

/-- Whether the goroutine that owns `out` has taken the `done` case. -/
def MainPc.isTerm : MainPc → Bool
  | .loadFilesDone t => t
  | .loadLinesTotal t _ => t
  | .loadMatchesTotal t _ _ => t
  | .send t _ _ _ => t
  | .close => true
  | .finished => true
  | _ => false

/-- Whether the goroutine that owns `out` has not reached its `go` statements. -/
def MainPc.isPre : MainPc → Bool
  | .start => true
  | .spawn => true
  | _ => false

/-- The control skeleton of a run, over the parts of the state it speaks of. -/
structure CtrlOn (cfg : Config) (main : MainPc) (disp : DispPc) (join : JoinPc)
    (workers : List WorkerPc) (wg : Int) (jobsClosed doneClosed outClosed : Bool) : Prop where
  pre : main.isPre = true → workers = [] ∧ disp = .idle ∧ join = .idle ∧
    wg = 0 ∧ jobsClosed = false
  post : main.isPre = false → 0 ≤ cfg.concurrent ∧
    workers.length = cfg.concurrent.toNat ∧ disp ≠ .idle ∧ join ≠ .idle
  count : wg = ((workers.map WorkerPc.live).sum : Nat)
  joinFin : doneClosed = true ↔ join = .finished
  doneZero : doneClosed = true → wg = 0
  term : main.isTerm = true → doneClosed = true
  closed : outClosed = true ↔ main = .finished
  jobs : jobsClosed = true ↔ disp = .finished
  exited : ∀ w ∈ workers, w = .exited → jobsClosed = true

/-- The control skeleton of a run. -/
def Ctrl (cfg : Config) (s : State) : Prop :=
  CtrlOn cfg s.main s.disp s.join s.workers s.sh.wg s.sh.jobsClosed s.sh.doneClosed
    s.sh.outClosed

/-! ## Sequence numbers -/

/-- The `Seq` values of the `MatchLine` events of a trace, in trace order. -/
def matchSeqs : List Event → List Nat
  | [] => []
  | .matchLine m :: es => m.Seq :: matchSeqs es
  | _ :: es => matchSeqs es

/-- The sequence numbers on the trace, as a multiset. -/
def seqsOf (out : List Event) : Multiset Nat := (out.map Event.seqs).sum

/-- The sequence numbers drawn and not sent yet. -/
def pendSeqs (workers : List WorkerPc) : Multiset Nat := (workers.map WorkerPc.pendSeq).sum

/-- The numbers `1, ..., k` as `uint64` values. -/
def firstSeqs (k : Nat) : Multiset Nat := (Multiset.range k).map (fun j => wrapUint64 (j + 1))

/-- The sequence numbers handed out so far are the first `k` ones. -/
def SeqOn (out : List Event) (seq : Nat) (workers : List WorkerPc) : Prop :=
  ∃ k, seq = wrapUint64 k ∧ seqsOf out + pendSeqs workers = firstSeqs k

/-- The `uint64` values of `1, ..., n`, in order. -/
def seqRange (n : Nat) : List Nat := (List.range' 1 n).map wrapUint64

/-! ## Every job is announced once and reported once -/

/-- The files of the WAIT events of a trace. -/
def queuedOf (out : List Event) : Multiset String := (out.map Event.queued).sum

/-- The files of the DONE and FAIL events of a trace. -/
def reportedOf (out : List Event) : Multiset String := (out.map Event.reported).sum

/-- The jobs the workers hold. -/
def inflightOf (workers : List WorkerPc) : Multiset String := (workers.map WorkerPc.inflight).sum

/-- The files the dispatcher has not announced yet. -/
def DispPc.unannounced (files : List String) : DispPc → Multiset String
  | .idle => ↑files
  | .loop rest => ↑rest
  | .sendJob _ rest => ↑rest
  | .finished => 0

/-- The files the dispatcher has not handed to a worker yet. -/
def DispPc.undelivered (files : List String) : DispPc → Multiset String
  | .idle => ↑files
  | .loop rest => ↑rest
  | .sendJob f rest => f ::ₘ ↑rest
  | .finished => 0

/-- Conservation of the jobs. -/
structure JobsOn (files : List String) (out : List Event) (disp : DispPc)
    (workers : List WorkerPc) : Prop where
  queued : queuedOf out + disp.unannounced files = ↑files
  reported : reportedOf out + inflightOf workers + disp.undelivered files = ↑files

/-! ## The counters -/

/-- The sum of the `Lines` of the DONE events of a trace. -/
def doneLinesOf (out : List Event) : Int := (out.map Event.doneLines).sum

/-- The sum of the `Matches` of the DONE events of a trace. -/
def doneMatchesOf (out : List Event) : Int := (out.map Event.doneMatches).sum

/-- The number of DONE and FAIL events of a trace. -/
def reportCountOf (out : List Event) : Int := (out.map Event.reportCount).sum

/-- The counters agree with the trace, up to the reports not added yet and
modulo `2^64`; and they are `int64` values. -/
structure SumsOn (out : List Event) (filesDone linesTotal matchesTotal : Int)
    (workers : List WorkerPc) : Prop where
  lines : (linesTotal + (workers.map WorkerPc.pendLines).sum - doneLinesOf out)
    % 18446744073709551616 = 0
  matched : (matchesTotal + (workers.map WorkerPc.pendMatches).sum - doneMatchesOf out)
    % 18446744073709551616 = 0
  files : (filesDone + (workers.map WorkerPc.pendFiles).sum - reportCountOf out)
    % 18446744073709551616 = 0
  linesR : -9223372036854775808 ≤ linesTotal ∧ linesTotal < 9223372036854775808
  matchedR : -9223372036854775808 ≤ matchesTotal ∧ matchesTotal < 9223372036854775808
  filesR : -9223372036854775808 ≤ filesDone ∧ filesDone < 9223372036854775808

/-! ## The terminal `Totals` -/

/-- Whether the terminal `Totals` has been sent. -/
def MainPc.sentTerm : MainPc → Bool
  | .close => true
  | .finished => true
  | _ => false

/-- The values the `done` case has loaded so far are the given ones. -/
def MainPc.loaded (fd lt mt : Int) : MainPc → Prop
  | .loadLinesTotal true a => a = fd
  | .loadMatchesTotal true a b => a = fd ∧ b = lt
  | .send true a b c => a = fd ∧ b = lt ∧ c = mt
  | _ => True

/-- The `Totals` events with `Done` set of a trace. -/
def terminals (out : List Event) : List Event := out.filter Event.isTerminal

/-- The terminal `Totals` is sent once, with the final values of the counters. -/
structure TermOn (cfg : Config) (main : MainPc) (out : List Event) (fd lt mt : Int) : Prop where
  before : main.sentTerm = false → terminals out = []
  after : main.sentTerm = true → terminals out = [.totals (mkTotals cfg true fd lt mt)]
  loaded : main.loaded fd lt mt

/-! ## The pause controller -/

/-- The gate channel a worker has read from `p.ch` and not received from yet. -/
def WorkerPc.held (w : WorkerPc) : Option Nat :=
  match w.waitPc with
  | some p => p.held
  | none => none

/-- The pause controller, its gate channels and the goroutines that use them. -/
structure PauseOn (pc : PauseController) (gates : List Bool) (workers : List WorkerPc)
    (ctls : List CtlPc) : Prop where
  /-- `p.ch` is the gate made last -/
  newest : gates.length = pc.ch + 1
  /-- every gate but `p.ch` is closed -/
  older : ∀ ch, ch < pc.ch → gateClosed gates ch = true
  /-- the mutex is held by exactly the goroutines inside a critical section -/
  mutex : (workers.map WorkerPc.crit).sum + (ctls.map CtlPc.crit).sum = pc.chMu.toNat
  /-- `p.ch` is closed exactly between the `close` and the `make` of a call -/
  making : (ctls.map CtlPc.atMake).sum = (gateClosed gates pc.ch).toNat
  /-- a waiter holds a gate that exists -/
  held : ∀ w ∈ workers, ∀ ch, w.held = some ch → ch ≤ pc.ch
  /-- no waiter holds a gate made by a call that has not unlocked yet -/
  fresh : ∀ c ∈ ctls, c = .unlock → ∀ w ∈ workers, ∀ ch, w.held = some ch → ch < pc.ch
  flag : pc.paused = 0 ∨ pc.paused = 1

/-! ## What the events say -/

/-- Reference scan: the number of lines of a file, as an `int64`. -/
def refLines (L : List String) : Int := wrapInt64 L.length

/-- Reference scan: the number of lines of a file the predicate matches, as
an `int64`. -/
def refMatches (re : String → Bool) (L : List String) : Int := wrapInt64 (L.filter re).length

/-- Reference report: the `FileUpdate` a synchronous scan of `path` ends with. -/
def report (cfg : Config) (path : String) : Event :=
  match cfg.fs path with
  | .error e => .fileUpdate { File := path, Lines := 0, Matches := 0, Status := "FAIL",
                              Err := some e }
  | .ok fd =>
      match fd.readErr with
      | some e => .fileUpdate { File := path, Lines := refLines fd.lines,
                                Matches := refMatches cfg.re fd.lines, Status := "FAIL",
                                Err := some e }
      | none => .fileUpdate { File := path, Lines := refLines fd.lines,
                              Matches := refMatches cfg.re fd.lines, Status := "DONE",
                              Err := none }

/-- The `FileUpdate` a worker sends when `scanFileOnce` has returned. -/
def updateOf (path : String) (lines matched : Int) (err : Option GoError) : Event :=
  match err with
  | some e => .fileUpdate { File := path, Lines := lines, Matches := matched, Status := "FAIL",
                            Err := some e }
  | none => .fileUpdate { File := path, Lines := lines, Matches := matched, Status := "DONE",
                          Err := none }

/-- The locals of a scan of `path` that has `todo` left to read agree with the
reference scan of what it has read. -/
def Scanned (cfg : Config) (path : String) (l : ScanLocals) (todo : List String) : Prop :=
  l.path = path ∧ ∃ fd pre, cfg.fs path = .ok fd ∧ fd.lines = pre ++ todo ∧
    l.rerr = fd.readErr ∧ l.lines = refLines pre ∧ l.matched = refMatches cfg.re pre

/-- The line a worker is about to report as a match is a matching line of its
file. -/
def Matching (cfg : Config) (path txt : String) : Prop :=
  cfg.re txt = true ∧ ∃ fd, cfg.fs path = .ok fd ∧ txt ∈ fd.lines

/-- A worker's locals agree with the reference scan. -/
def WorkerOk (cfg : Config) : WorkerPc → Prop
  | .scanning path (.openFile p) => p = path
  | .scanning path (.scan l) => Scanned cfg path l l.rest
  | .scanning path (.wait l txt _) => Scanned cfg path l (txt :: l.rest)
  | .scanning path (.addSeq l txt) => Scanned cfg path l l.rest ∧ Matching cfg path txt
  | .scanning path (.send l txt _) => Scanned cfg path l l.rest ∧ Matching cfg path txt
  | .scanning path (.ret lines matched err) => updateOf path lines matched err = report cfg path
  | _ => True

/-- An event agrees with the reference scan. -/
def Event.okFor (cfg : Config) : Event → Prop
  | .fileUpdate u => u.Status = "WAIT" ∨ .fileUpdate u = report cfg u.File
  | .matchLine m => Matching cfg m.File m.Line
  | .totals _ => True

/-- Every event of the trace and the locals of every worker agree with the
reference scan. -/
structure EventsOn (cfg : Config) (out : List Event) (workers : List WorkerPc) : Prop where
  events : ∀ e ∈ out, e.okFor cfg
  locals : ∀ w ∈ workers, WorkerOk cfg w

/-! ## The reports of a finished run -/

/-- The file an event is about. -/
def Event.file : Event → String
  | .fileUpdate u => u.File
  | .matchLine m => m.File
  | .totals _ => ""

/-- The DONE and FAIL events of a trace, in trace order. -/
def reports (out : List Event) : List Event := out.filter Event.isReport

/-- The WAIT events of a trace, in trace order. -/
def announcements (out : List Event) : List Event := out.filter Event.isQueued

/-! ## The state at the close of `out` -/

/-- The terminal `Totals` of a trace, as the counters of the trace give it. -/
def terminalOf (cfg : Config) (out : List Event) : Totals :=
  mkTotals cfg true (wrapInt64 (reports out).length) (wrapInt64 (doneLinesOf out))
    (wrapInt64 (doneMatchesOf out))

/-! ## Concrete runs -/

/-- The state a schedule leads to (the initial state when the schedule cannot
run). -/
def runOf (cfg : Config) (ls : List Label) : State :=
  (exec cfg (Start cfg) ls).getD (Start cfg)

/-- Three readable files with 10, 0 and 5 matching lines, two workers. -/
def cfgThree : Config :=
  { files := ["a.log", "b.log", "c.log"], re := fun s => decide (s = "hit"), concurrent := 2,
    fs := fun p =>
      if p = "a.log" then .ok { lines := List.replicate 10 "hit", readErr := none }
      else if p = "b.log" then .ok { lines := ["miss", "miss"], readErr := none }
      else if p = "c.log" then .ok { lines := List.replicate 5 "hit", readErr := none }
      else .error "open: no such file" }

/-- A complete run of `cfgThree`: worker 0 scans `a.log` and `c.log`, worker 1
scans `b.log`. -/
def schedThree : List Label :=
  [.main, .main, .disp, .handoff 0, .disp, .handoff 1, .disp] ++
  List.replicate 47 (.worker 0) ++ List.replicate 11 (.worker 1) ++ [.handoff 0, .disp] ++
  List.replicate 27 (.worker 0) ++ [.worker 0, .worker 1, .join] ++ List.replicate 6 .main

/-- The final state of `schedThree`. -/
def sThree : State := runOf cfgThree schedThree

/-- Two files with one matching line each, two workers. -/
def cfgTwo : Config :=
  { files := ["a.log", "b.log"], re := fun s => decide (s = "hit"), concurrent := 2,
    fs := fun p =>
      if p = "a.log" then .ok { lines := ["hit"], readErr := none }
      else if p = "b.log" then .ok { lines := ["hit"], readErr := none }
      else .error "open: no such file" }

/-- A complete run of `cfgTwo` in which worker 0 draws sequence number 1,
worker 1 draws 2 and sends it first. -/
def schedTwo : List Label :=
  [.main, .main, .disp, .handoff 0, .disp, .handoff 1, .disp] ++
  List.replicate 5 (.worker 0) ++ List.replicate 6 (.worker 1) ++
  List.replicate 6 (.worker 0) ++ List.replicate 5 (.worker 1) ++
  [.worker 0, .worker 1, .join] ++ List.replicate 6 .main

/-- The final state of `schedTwo`. -/
def sTwo : State := runOf cfgTwo schedTwo

/-- A readable file, a file that does not exist and a file with a read error
after three lines; one worker. -/
def cfgFail : Config :=
  { files := ["ok.log", "missing.log", "broken.log"], re := fun s => decide (s = "hit"),
    concurrent := 1,
    fs := fun p =>
      if p = "ok.log" then .ok { lines := ["hit", "miss"], readErr := none }
      else if p = "broken.log" then
        .ok { lines := ["hit", "hit", "miss"], readErr := some "bufio.Scanner: token too long" }
      else .error "open: no such file" }

/-- A complete run of `cfgFail`. -/
def schedFail : List Label :=
  [.main, .main, .disp, .handoff 0, .disp] ++ List.replicate 13 (.worker 0) ++
  [.handoff 0, .disp] ++ List.replicate 4 (.worker 0) ++ [.handoff 0, .disp] ++
  List.replicate 15 (.worker 0) ++ [.worker 0, .join] ++ List.replicate 6 .main

/-- The final state of `schedFail`. -/
def sFail : State := runOf cfgFail schedFail

/-- A negative worker count. -/
def cfgNegative : Config :=
  { files := ["a.log"], re := fun s => decide (s = "hit"), concurrent := -1,
    fs := fun _ => .ok { lines := ["hit"], readErr := none } }

/-- The run of `cfgNegative`: the initial `Totals` is sent, `wg.Add(-1)` panics
and the deferred call closes `out`. -/
def sNegative : State := runOf cfgNegative [.main, .main]

/-- One file and no worker. -/
def cfgNoWorker : Config :=
  { files := ["a.log"], re := fun s => decide (s = "hit"), concurrent := 0,
    fs := fun _ => .ok { lines := ["hit"], readErr := none } }

/-- A complete run of `cfgNoWorker`: the dispatcher announces the file and
stays blocked on `jobs`, the join finds the wait group at zero. -/
def schedNoWorker : List Label := [.main, .main, .disp, .join] ++ List.replicate 6 .main

/-- The final state of `schedNoWorker`. -/
def sNoWorker : State := runOf cfgNoWorker schedNoWorker

/-- The same file listed twice, one worker. -/
def cfgTwice : Config :=
  { files := ["a.log", "a.log"], re := fun s => decide (s = "hit"), concurrent := 1,
    fs := fun _ => .ok { lines := ["hit"], readErr := none } }

/-- A complete run of `cfgTwice` in which the dispatcher announces the second
occurrence while the worker scans the first. -/
def schedTwice : List Label :=
  [.main, .main, .disp, .handoff 0, .disp] ++ List.replicate 11 (.worker 0) ++
  [.handoff 0, .disp] ++ List.replicate 11 (.worker 0) ++ [.worker 0, .join] ++
  List.replicate 6 .main

/-- The final state of `schedTwice`. -/
def sTwice : State := runOf cfgTwice schedTwice

/-- Whether an event is a DONE `FileUpdate`. -/
def Event.isDone : Event → Bool
  | .fileUpdate u => u.Status = "DONE"
  | _ => false

/-! ## The pause controller: claims -/

/-- One file with two lines, one of them matching; one worker. -/
def cfgOne : Config :=
  { files := ["a.log"], re := fun s => decide (s = "hit"), concurrent := 1,
    fs := fun _ => .ok { lines := ["hit", "miss"], readErr := none } }

/-- The lost wake-up.  The worker, in the `WaitIfPaused` of line 74, loads
`paused = 1`; the call `pauseFn(false)` then runs from its store to its
return; only then does the worker read `p.ch`, which is the fresh gate. -/
def schedLost : List Label :=
  [.main, .main, .disp, .handoff 0, .setPaused true, .worker 0, .setPaused false,
   .ctl 0, .ctl 0, .ctl 0, .ctl 0, .ctl 0, .worker 0, .worker 0, .worker 0]

/-- The state the lost wake-up ends in. -/
def sLost : State := runOf cfgOne schedLost

/-- The lost wake-up inside `scanFileOnce`: the worker is in the
`WaitIfPaused` of line 147 for the first line of the file when the pause and
the resume happen. -/
def schedLostScan : List Label :=
  [.main, .main, .disp, .handoff 0, .worker 0, .worker 0, .worker 0, .setPaused true,
   .worker 0, .setPaused false, .ctl 0, .ctl 0, .ctl 0, .ctl 0, .ctl 0, .worker 0, .worker 0,
   .worker 0]

/-- The state the lost wake-up inside `scanFileOnce` ends in. -/
def sLostScan : State := runOf cfgOne schedLostScan

/-- Whether a worker is inside `scanFileOnce` and has not returned from it. -/
def WorkerPc.inScan : WorkerPc → Bool
  | .scanning _ (.ret _ _ _) => false
  | .scanning _ _ => true
  | _ => false

/-- Two workers, both blocked on gate 0 while the run is paused, and a
`SetPaused(false)` call that stands before its `Unlock`. -/
def schedGate : List Label :=
  [.main, .main, .setPaused true, .disp, .handoff 0, .disp, .handoff 1,
   .worker 0, .worker 0, .worker 0, .worker 0, .worker 1, .worker 1, .worker 1, .worker 1,
   .setPaused false, .ctl 0, .ctl 0, .ctl 0, .ctl 0]

/-- The state `schedGate` ends in. -/
def sGate : State := runOf cfgTwo schedGate

/-! ## `SetPaused` as a whole call -/

/-- Run a `SetPaused(false)` call from a point past its store to its return,
no other goroutine moving; `none` when it blocks, panics or runs out of
fuel. -/
def runCall : Nat → Shared → CtlPc → Option Shared
  | _, sh, .returned => some sh
  | 0, _, _ => none
  | n + 1, sh, c =>
      match SetPaused sh c with
      | none => none
      | some (sh1, c1) => if sh1.panicked then none else runCall n sh1 c1

/-- A whole call `SetPaused(v)`, no other goroutine moving: the store, and for
`v = false` the five steps of lines 29-36. -/
def SetPausedCall (sh : Shared) (v : Bool) : Option Shared :=
  if v then some (storePaused sh true) else runCall 5 (storePaused sh false) .lock

/-- A sequence of calls of `SetPaused`, one after the other. -/
def SetPausedCalls (sh : Shared) : List Bool → Option Shared
  | [] => some sh
  | v :: vs =>
      match SetPausedCall sh v with
      | none => none
      | some sh1 => SetPausedCalls sh1 vs

/-- The pause controller at rest: no panic, the mutex free, `p.ch` the newest
gate and open. -/
def AtRest (sh : Shared) : Prop :=
  sh.panicked = false ∧ sh.pc.chMu = false ∧ gateClosed sh.gates sh.pc.ch = false ∧
    sh.gates.length = sh.pc.ch + 1

/-- The run counters and the trace of two shared states agree. -/
def SameCounters (sh sh1 : Shared) : Prop :=
  sh1.filesDone = sh.filesDone ∧ sh1.linesTotal = sh.linesTotal ∧
    sh1.matchesTotal = sh.matchesTotal ∧ sh1.seq = sh.seq ∧ sh1.out = sh.out

/-! ## What a paused run still sends -/

/-- One when the waiter holds a closed gate, so that its receive of line 46
succeeds. -/
def WaitPc.passes (gates : List Bool) : WaitPc → Nat
  | .unlock ch => (gateClosed gates ch).toNat
  | .recv ch => (gateClosed gates ch).toNat
  | _ => 0

/-- The `MatchLine` events a worker can send before its next load of the
paused flag: one when it is past the pause check of a line and has not sent
the line's event yet. -/
def WorkerPc.creditMatch (gates : List Bool) : WorkerPc → Nat
  | .scanning _ (.wait _ _ w) => w.passes gates
  | .scanning _ (.addSeq _ _) => 1
  | .scanning _ (.send _ _ _) => 1
  | _ => 0

/-- The DONE and FAIL events a worker can send before its next load of the
paused flag: one when it is past the pause check of a job or of a line and has
not reported the job yet. -/
def WorkerPc.creditReport (gates : List Bool) : WorkerPc → Nat
  | .waitJob _ w => w.passes gates
  | .scanning _ (.wait _ _ w) => w.passes gates
  | .scanning _ _ => 1
  | _ => 0

/-- The number of `MatchLine` events of a trace. -/
def matchCountOf (out : List Event) : Nat := (out.filter Event.isMatch).length

/-- The `MatchLine` events the workers of a state can send without loading the
paused flag. -/
def creditsMatch (s : State) : Nat := (s.workers.map (WorkerPc.creditMatch s.sh.gates)).sum

/-- The DONE and FAIL events the workers of a state can send without loading
the paused flag. -/
def creditsReport (s : State) : Nat := (s.workers.map (WorkerPc.creditReport s.sh.gates)).sum

/-- A paused run between two calls: the flag is set and no `SetPaused(false)`
call is in progress. -/
structure PausedOn (s : State) : Prop where
  flag : s.sh.pc.paused = 1
  idle : ∀ c ∈ s.ctls, c = .returned

/-- One file with a single, matching line; one worker. -/
def cfgHit : Config :=
  { files := ["a.log"], re := fun s => decide (s = "hit"), concurrent := 1,
    fs := fun _ => .ok { lines := ["hit"], readErr := none } }

/-- The worker passes the pause check of the only line of the file while the
run is running; the consumer empties the buffer of `out`; then `pauseFn(true)`
is called and returns. -/
def schedPaused : List Label :=
  [.main, .main, .disp, .handoff 0, .disp, .worker 0, .worker 0, .worker 0, .worker 0,
   .consume, .consume, .setPaused true]

/-- The state in which `pauseFn(true)` has returned. -/
def sPaused : State := runOf cfgHit schedPaused

/-- What the worker does next, without any call of `pauseFn`: it draws the
sequence number, sends the `MatchLine`, finds the end of the file and sends
the DONE `FileUpdate`. -/
def schedAfterPause : List Label := [.worker 0, .worker 0, .worker 0, .worker 0]

/-- The state after `schedAfterPause`. -/
def sAfterPause : State := (exec cfgHit sPaused schedAfterPause).getD sPaused

/-! ## The work a run has left -/

/-- A bound on the steps left in a call of `scanFileOnce` and in the report
that follows it; a send counts twice, once for the receive by the consumer. -/
def ScanPc.cost (cfg : Config) : ScanPc → Nat
  | .openFile path =>
      match cfg.fs path with
      | .error _ => 8
      | .ok fd => 10 * fd.lines.length + 9
  | .scan l => 10 * l.rest.length + 8
  | .wait l _ _ => 10 * l.rest.length + 12
  | .addSeq l _ => 10 * l.rest.length + 11
  | .send l _ _ => 10 * l.rest.length + 10
  | .ret _ _ _ => 7

/-- A bound on the steps a worker has left with the job it holds, and to its
exit. -/
def WorkerPc.cost (cfg : Config) : WorkerPc → Nat
  | .recvJob => 1
  | .waitJob path _ => (ScanPc.openFile path).cost cfg + 1
  | .scanning _ p => p.cost cfg
  | .addLines _ _ => 4
  | .addMatches _ => 3
  | .addFilesDone => 2
  | .exited => 0

/-- A bound on the steps the files of a list cost: the announcement, the
rendezvous on `jobs`, the scan and the report. -/
def jobsCost (cfg : Config) (files : List String) : Nat :=
  (files.map (fun f => (ScanPc.openFile f).cost cfg + 4)).sum

/-- A bound on the steps left for the dispatcher and for the jobs it has yet
to hand out. -/
def DispPc.cost (cfg : Config) : DispPc → Nat
  | .idle => 0
  | .loop rest => jobsCost cfg rest + 1
  | .sendJob f rest => (ScanPc.openFile f).cost cfg + 2 + jobsCost cfg rest + 1
  | .finished => 0

/-- The step the goroutine of lines 101-104 has left. -/
def JoinPc.cost : JoinPc → Nat
  | .waiting => 1
  | _ => 0

/-- A bound on the steps left for the goroutine that owns `out`; before the
`go` statements it includes what the goroutines it starts will cost. -/
def MainPc.cost (cfg : Config) : MainPc → Nat
  | .start => jobsCost cfg cfg.files + cfg.concurrent.toNat + 14
  | .spawn => jobsCost cfg cfg.files + cfg.concurrent.toNat + 11
  | .select => 8
  | .loadFilesDone term => if term then 7 else 13
  | .loadLinesTotal term _ => if term then 6 else 12
  | .loadMatchesTotal term _ _ => if term then 5 else 11
  | .send term _ _ _ => if term then 4 else 10
  | .close => 1
  | .finished => 0

/-- A bound on the steps a run has left when nobody pauses it and the ticker
stays silent: the events the consumer has yet to receive and the work of the
goroutines. -/
def workLeft (cfg : Config) (s : State) : Nat :=
  (s.sh.out.length - s.sh.outRecv) + s.main.cost cfg + s.disp.cost cfg + s.join.cost +
    (s.workers.map (WorkerPc.cost cfg)).sum

/-- No pause is in the way: the flag is 0, no `SetPaused` call is in progress,
and a worker inside `WaitIfPaused` stands before the load of the flag or before
the receive from a closed gate. -/
structure Settled (s : State) : Prop where
  flag : s.sh.pc.paused = 0
  calls : ∀ c ∈ s.ctls, c = .returned
  waits : ∀ w ∈ s.workers, ∀ p, w.waitPc = some p →
    p = .load ∨ ∃ ch, p = .recv ch ∧ gateClosed s.sh.gates ch = true

/-! ## Settling the pause controller -/

/-- Steps a waiter that has seen the flag set has left to the receive of
line 46. -/
def WaitPc.lockRem : WaitPc → Nat
  | .lock => 3
  | .read => 2
  | .unlock _ => 1
  | _ => 0

/-- Steps a worker has left to the receive of line 46, when it is inside
`WaitIfPaused` and past the load of the flag. -/
def WorkerPc.lockRem (w : WorkerPc) : Nat :=
  match w.waitPc with
  | some p => p.lockRem
  | none => 0

/-- Steps a call of `SetPaused(false)` has left to its return. -/
def CtlPc.cost : CtlPc → Nat
  | .lock => 5
  | .select => 4
  | .close => 3
  | .make => 2
  | .unlock => 1
  | .returned => 0

/-- Steps left until no `SetPaused` call is in progress and no worker stands
between the load of the flag and the receive from the gate. -/
def pauseLeft (s : State) : Nat :=
  (s.ctls.map CtlPc.cost).sum + (s.workers.map WorkerPc.lockRem).sum

/-! ## Blocked workers -/

/-- Whether a worker stands in the receive of line 46 before a gate that is
open. -/
def WorkerPc.blockedOn (gates : List Bool) (w : WorkerPc) : Bool :=
  match w.waitPc with
  | some (.recv ch) => !gateClosed gates ch
  | _ => false

/-- Every worker of the run is blocked on an open gate, and no `SetPaused` call
is in progress. -/
def AllBlocked (s : State) : Prop :=
  s.workers ≠ [] ∧ s.workers.all (WorkerPc.blockedOn s.sh.gates) = true ∧
    s.ctls.all (fun c => decide (c = .returned)) = true

/-! ## One blocked worker holds up the run -/

/-- Worker `i` stands in the receive of line 46 before a gate that is open, and
no `SetPaused` call is in progress. -/
def StuckAt (s : State) (i : Nat) : Prop :=
  (s.workers[i]?).map (WorkerPc.blockedOn s.sh.gates) = some true ∧
    s.ctls.all (fun c => decide (c = .returned)) = true

/-! ## Runs that a lost wake-up holds up -/

/-- A pause and a resume while worker 0 is in the `WaitIfPaused` of line 74 for
`a.log`: the worker loads `paused = 1`, the call `pauseFn(false)` runs from its
store to its return, and only then does the worker read `p.ch`.  Worker 1 scans
`b.log`, reports it and exits. -/
def schedHang : List Label :=
  [.main, .main, .disp, .handoff 0, .disp, .handoff 1, .disp, .setPaused true, .worker 0,
   .setPaused false, .ctl 0, .ctl 0, .ctl 0, .ctl 0, .ctl 0, .worker 0, .worker 0, .worker 0] ++
  List.replicate 12 (.worker 1)

/-- The state `schedHang` ends in. -/
def sHang : State := runOf cfgTwo schedHang

/-- A file that does not exist and a readable one; one worker. -/
def cfgMissing : Config :=
  { files := ["missing.log", "a.log"], re := fun s => decide (s = "hit"), concurrent := 1,
    fs := fun p =>
      if p = "a.log" then .ok { lines := ["hit"], readErr := none }
      else .error "open: no such file" }

/-- The worker fails to open `missing.log` and reports it; then, while it is in
the `WaitIfPaused` of line 74 for `a.log`, a pause and a resume: the worker
loads `paused = 1`, the call `pauseFn(false)` runs from its store to its
return, and only then does the worker read `p.ch`. -/
def schedMissing : List Label :=
  [.main, .main, .disp, .handoff 0, .disp, .worker 0, .worker 0, .worker 0, .worker 0,
   .handoff 0, .disp, .setPaused true, .worker 0, .setPaused false, .ctl 0, .ctl 0, .ctl 0,
   .ctl 0, .ctl 0, .worker 0, .worker 0, .worker 0]

/-- The state `schedMissing` ends in. -/
def sMissing : State := runOf cfgMissing schedMissing

/-! ## Sums over the goroutines -/

/-- Replacing entry `i` of a list changes a sum over it by the difference of
the two entries. -/
theorem sum_map_set {α β : Type} [AddCommMonoid β] (f : α → β) (l : List α) (i : Nat)
    (a b : α) (h : l[i]? = some a) :
    ((l.set i b).map f).sum + f a = (l.map f).sum + f b := by
  induction l generalizing i with
  | nil => simp at h
  | cons x xs ih =>
    cases i with
    | zero =>
      simp at h
      subst h
      simp [add_comm, add_left_comm]
    | succ n =>
      simp at h
      have := ih n h
      simp only [List.set_cons_succ, List.map_cons, List.sum_cons]
      rw [add_assoc, this, add_assoc]

/-- Entries of a list with a zero sum of naturals are zero. -/
theorem sum_map_eq_zero {α : Type} (f : α → Nat) (l : List α) (h : (l.map f).sum = 0)
    (a : α) (ha : a ∈ l) : f a = 0 := by
  induction l with
  | nil => simp at ha
  | cons x xs ih =>
    simp only [List.map_cons, List.sum_cons] at h
    rcases List.mem_cons.1 ha with rfl | h1
    · omega
    · exact ih (by omega) h1

/-- An entry of a list is at most the sum of the list. -/
theorem le_sum_map {α : Type} (f : α → Nat) (l : List α) (a : α) (ha : a ∈ l) :
    f a ≤ (l.map f).sum := by
  induction l with
  | nil => simp at ha
  | cons x xs ih =>
    simp only [List.map_cons, List.sum_cons]
    rcases List.mem_cons.1 ha with rfl | h1
    · omega
    · have := ih h1
      omega

theorem mem_of_getElem? {α : Type} {l : List α} {i : Nat} {a : α} (h : l[i]? = some a) :
    a ∈ l := by
  rw [List.getElem?_eq_some] at h
  obtain ⟨hi, rfl⟩ := h
  exact List.getElem_mem hi

/-! ## The steps of the goroutines as relations -/

theorem sendOut_sent {sh sh1 : Shared} {e : Event} (h : sendOut sh e = some sh1) :
    Sent sh e sh1 := by
  unfold sendOut at h
  split at h
  · simp at h
    subst h
    exact .crash _ _ (by assumption)
  · split at h
    · simp at h
      subst h
      exact .ok _ _ (by simp_all) (by assumption)
    · simp at h

theorem WaitIfPaused_trans {sh sh1 : Shared} {w : WaitPc} {r : Option WaitPc}
    (h : WaitIfPaused sh w = some (sh1, r)) : WaitTrans sh w sh1 r := by
  cases w with
  | load =>
    simp only [WaitIfPaused] at h
    split at h
    · simp at h
      obtain ⟨rfl, rfl⟩ := h
      exact .running _ (by assumption)
    · simp at h
      obtain ⟨rfl, rfl⟩ := h
      exact .paused _ (by assumption)
  | lock =>
    simp only [WaitIfPaused] at h
    split at h
    · simp at h
    · simp at h
      obtain ⟨rfl, rfl⟩ := h
      exact .lock _ (by simp_all)
  | read =>
    simp only [WaitIfPaused] at h
    simp at h
    obtain ⟨rfl, rfl⟩ := h
    exact .read _
  | unlock ch =>
    simp only [WaitIfPaused] at h
    simp at h
    obtain ⟨rfl, rfl⟩ := h
    exact .unlock _ _
  | recv ch =>
    simp only [WaitIfPaused] at h
    split at h
    · simp at h
      obtain ⟨rfl, rfl⟩ := h
      exact .recv _ _ (by assumption)
    · simp at h

theorem SetPaused_trans {sh sh1 : Shared} {c c1 : CtlPc}
    (h : SetPaused sh c = some (sh1, c1)) : CtlTrans sh c sh1 c1 := by
  cases c with
  | lock =>
    simp only [SetPaused] at h
    split at h
    · simp at h
    · simp at h
      obtain ⟨rfl, rfl⟩ := h
      exact .lock _ (by simp_all)
  | select =>
    simp only [SetPaused] at h
    split at h
    · simp at h
      obtain ⟨rfl, rfl⟩ := h
      exact .closed _ (by assumption)
    · simp at h
      obtain ⟨rfl, rfl⟩ := h
      exact .dflt _ (by simp_all)
  | close =>
    simp only [SetPaused, closeGate] at h
    by_cases hg : gateClosed sh.gates sh.pc.ch = true
    · simp [hg] at h
      obtain ⟨rfl, rfl⟩ := h
      exact .crash _ hg
    · simp [hg] at h
      obtain ⟨rfl, rfl⟩ := h
      exact .close _ (by simpa using hg)
  | make =>
    simp only [SetPaused] at h
    simp at h
    obtain ⟨rfl, rfl⟩ := h
    exact .make _
  | unlock =>
    simp only [SetPaused] at h
    simp at h
    obtain ⟨rfl, rfl⟩ := h
    exact .unlock _
  | returned => simp [SetPaused] at h

theorem workerStep_trans {cfg : Config} {sh sh1 : Shared} {w w1 : WorkerPc}
    (h : workerStep cfg sh w = some (sh1, w1)) : WorkerTrans cfg sh w sh1 w1 := by
  cases w with
  | recvJob =>
    simp only [workerStep] at h
    split at h
    · simp at h
      obtain ⟨rfl, rfl⟩ := h
      exact .exit _ (by assumption)
    · simp at h
  | waitJob path w =>
    simp only [workerStep] at h
    split at h
    · simp at h
    · next sh2 w2 heq =>
      simp at h
      obtain ⟨rfl, rfl⟩ := h
      exact .waitJob _ _ _ _ _ (WaitIfPaused_trans heq)
    · next sh2 heq =>
      simp at h
      obtain ⟨rfl, rfl⟩ := h
      exact .startScan _ _ _ _ (WaitIfPaused_trans heq)
  | scanning path p =>
    cases p with
    | openFile p =>
      simp only [workerStep, scanFileOnce] at h
      cases hfs : cfg.fs p with
      | error e =>
        simp [hfs] at h
        obtain ⟨rfl, rfl⟩ := h
        exact .openErr _ _ _ _ hfs
      | ok fd =>
        simp [hfs] at h
        obtain ⟨rfl, rfl⟩ := h
        exact .openOk _ _ _ _ hfs
    | scan l =>
      simp only [workerStep, scanFileOnce] at h
      cases hr : l.rest with
      | nil =>
        simp [hr] at h
        obtain ⟨rfl, rfl⟩ := h
        exact .scanEnd _ _ _ hr
      | cons txt rest =>
        simp [hr] at h
        obtain ⟨rfl, rfl⟩ := h
        exact .scanNext _ _ _ _ _ hr
    | wait l txt w =>
      simp only [workerStep, scanFileOnce] at h
      cases hw : WaitIfPaused sh w with
      | none => simp [hw] at h
      | some r =>
        obtain ⟨sh2, r2⟩ := r
        cases r2 with
        | none =>
          simp [hw] at h
          obtain ⟨rfl, rfl⟩ := h
          exact .lineDone _ _ _ _ _ _ (WaitIfPaused_trans hw)
        | some w2 =>
          simp [hw] at h
          obtain ⟨rfl, rfl⟩ := h
          exact .waitLine _ _ _ _ _ _ _ (WaitIfPaused_trans hw)
    | addSeq l txt =>
      simp only [workerStep, scanFileOnce] at h
      simp at h
      obtain ⟨rfl, rfl⟩ := h
      exact .addSeq _ _ _ _
    | send l txt id =>
      simp only [workerStep, scanFileOnce] at h
      cases hs : sendOut sh (.matchLine { Seq := id, File := l.path, Line := txt }) with
      | none => simp [hs] at h
      | some sh2 =>
        simp [hs] at h
        obtain ⟨rfl, rfl⟩ := h
        exact .sendMatch _ _ _ _ _ _ (sendOut_sent hs)
    | ret lines matched err =>
      cases err with
      | none =>
        simp only [workerStep] at h
        split at h
        · simp at h
        · next sh2 hs =>
          simp at h
          obtain ⟨rfl, rfl⟩ := h
          exact .sendDone _ _ _ _ _ (sendOut_sent hs)
      | some e =>
        simp only [workerStep] at h
        split at h
        · simp at h
        · next sh2 hs =>
          simp at h
          obtain ⟨rfl, rfl⟩ := h
          exact .sendFail _ _ _ _ _ _ (sendOut_sent hs)
  | addLines lines matched =>
    simp only [workerStep] at h
    simp at h
    obtain ⟨rfl, rfl⟩ := h
    exact .addLines _ _ _
  | addMatches matched =>
    simp only [workerStep] at h
    simp at h
    obtain ⟨rfl, rfl⟩ := h
    exact .addMatches _ _
  | addFilesDone =>
    simp only [workerStep] at h
    simp at h
    obtain ⟨rfl, rfl⟩ := h
    exact .addFilesDone _
  | exited => simp [workerStep] at h

theorem mainStep_trans {cfg : Config} {s s1 : State} {b : Bool}
    (h : mainStep cfg s b = some s1) :
    Trans cfg s (if b then .tick else .main) s1 := by
  unfold mainStep at h
  split at h
  · next hm =>
    split at h
    · simp at h
    · next sh1 hs =>
      cases b
      · simp at h
        subst h
        exact .start _ _ hm (sendOut_sent hs)
      · simp at h
  · next hm =>
    cases b
    · simp only [Bool.false_eq_true, if_false] at h
      split at h
      · simp at h
        subst h
        exact .spawnCrash _ hm (by assumption)
      · simp at h
        subst h
        exact .spawn _ hm (by omega)
    · simp at h
  · next hm =>
    cases b
    · simp only [Bool.false_eq_true, if_false] at h
      split at h
      · simp at h
        subst h
        exact .joined _ hm (by assumption)
      · simp at h
    · simp at h
      subst h
      exact .tick _ hm
  · next term hm =>
    cases b
    · simp at h
      subst h
      exact .loadFilesDone _ _ hm
    · simp at h
  · next term fd hm =>
    cases b
    · simp at h
      subst h
      exact .loadLinesTotal _ _ _ hm
    · simp at h
  · next term fd lt hm =>
    cases b
    · simp at h
      subst h
      exact .loadMatchesTotal _ _ _ _ hm
    · simp at h
  · next term fd lt mt hm =>
    cases b
    · simp only [Bool.false_eq_true, if_false] at h
      split at h
      · simp at h
      · next sh1 hs =>
        simp at h
        subst h
        exact .sendTotals _ _ _ _ _ _ hm (sendOut_sent hs)
    · simp at h
  · next hm =>
    cases b
    · simp only [Bool.false_eq_true, if_false] at h
      split at h
      · simp at h
        subst h
        exact .closeCrash _ hm (by assumption)
      · simp at h
        subst h
        exact .close _ hm (by simp_all)
    · simp at h
  · simp at h

/-- Every step of the model is one of the listed transitions, taken from a
state that has not panicked. -/
theorem step_trans {cfg : Config} {s s1 : State} {l : Label} (h : step cfg s l = some s1) :
    s.sh.panicked = false ∧ Trans cfg s l s1 := by
  unfold step at h
  split at h
  · simp at h
  · next hp =>
    refine ⟨by simpa using hp, ?_⟩
    cases l with
    | main => exact mainStep_trans h
    | tick => exact mainStep_trans h
    | disp =>
      simp only at h
      split at h
      · simp at h
      · next sh1 d1 hd =>
        simp at h
        subst h
        unfold dispStep at hd
        split at hd
        · next f rest hdp =>
          split at hd
          · simp at hd
          · next sh2 hs =>
            simp at hd
            obtain ⟨rfl, rfl⟩ := hd
            exact .announce _ _ _ _ hdp (sendOut_sent hs)
        · next hdp =>
          simp at hd
          obtain ⟨rfl, rfl⟩ := hd
          exact .closeJobs _ hdp
        · simp at hd
    | handoff i =>
      simp only at h
      split at h
      · next f rest hd hw =>
        split at h
        · simp at h
        · simp at h
          subst h
          exact .handoff _ _ _ _ hd hw (by simp_all)
      · simp at h
    | join =>
      simp only at h
      split at h
      · next hj =>
        split at h
        · simp at h
          subst h
          exact .join _ hj (by assumption)
        · simp at h
      · simp at h
    | worker i =>
      simp only at h
      split at h
      · simp at h
      · next w hw =>
        split at h
        · simp at h
        · next sh1 w1 hws =>
          simp at h
          subst h
          exact .worker _ _ _ _ _ hw (workerStep_trans hws)
    | setPaused v =>
      simp only at h
      cases v
      · simp at h
        subst h
        exact .resume _
      · simp at h
        subst h
        exact .pause _
    | ctl j =>
      simp only at h
      split at h
      · simp at h
      · next c hc =>
        split at h
        · simp at h
        · next sh1 c1 hcs =>
          simp at h
          subst h
          exact .ctl _ _ _ _ _ hc (SetPaused_trans hcs)
    | consume =>
      simp only at h
      split at h
      · simp at h
        subst h
        exact .consume _ (by assumption)
      · simp at h

/-! ## Reachability -/

theorem exec_append (cfg : Config) (s : State) (l1 l2 : List Label) :
    exec cfg s (l1 ++ l2) = (exec cfg s l1).bind (fun s1 => exec cfg s1 l2) := by
  induction l1 generalizing s with
  | nil => simp [exec]
  | cons l ls ih =>
    simp only [List.cons_append, exec]
    cases step cfg s l with
    | none => simp
    | some s1 => simpa using ih s1

theorem reachable_start (cfg : Config) : Reachable cfg (Start cfg) := ⟨[], rfl⟩

theorem reachable_step {cfg : Config} {s s1 : State} {l : Label} (h : Reachable cfg s)
    (hs : step cfg s l = some s1) : Reachable cfg s1 := by
  obtain ⟨ls, hl⟩ := h
  refine ⟨ls ++ [l], ?_⟩
  rw [exec_append, hl]
  simp [exec, hs]

theorem reachable_exec {cfg : Config} {s s1 : State} {ls : List Label}
    (h : Reachable cfg s) (hs : exec cfg s ls = some s1) : Reachable cfg s1 := by
  obtain ⟨l0, hl⟩ := h
  refine ⟨l0 ++ ls, ?_⟩
  rw [exec_append, hl]
  simpa using hs

/-- Induction over the runs: a property of the state `Start` returns in that
every step from a reachable state preserves holds of every reachable state. -/
theorem reachable_induct {cfg : Config} {P : State → Prop} (h0 : P (Start cfg))
    (hs : ∀ s l s1, Reachable cfg s → P s → step cfg s l = some s1 → P s1) :
    ∀ s, Reachable cfg s → P s := by
  intro s ⟨ls, hl⟩
  induction ls using List.reverseRecOn generalizing s with
  | nil =>
    simp [exec] at hl
    subst hl
    exact h0
  | append_singleton ls l ih =>
    rw [exec_append] at hl
    cases hm : exec cfg (Start cfg) ls with
    | none => simp [hm] at hl
    | some s0 =>
      simp only [hm, Option.some_bind, exec] at hl
      cases hst : step cfg s0 l with
      | none => simp [hst] at hl
      | some s2 =>
        simp [hst] at hl
        subst hl
        exact hs s0 l _ ⟨ls, hm⟩ (ih s0 hm) hst

/-- Induction over the runs that have not panicked. -/
theorem invariant {cfg : Config} {I : State → Prop} (h0 : I (Start cfg))
    (hs : ∀ s l s1, Reachable cfg s → I s → s.sh.panicked = false → Trans cfg s l s1 →
      s1.sh.panicked = false → I s1) :
    ∀ s, Reachable cfg s → s.sh.panicked = false → I s := by
  intro s hr
  refine reachable_induct (P := fun s => s.sh.panicked = false → I s) (fun _ => h0) ?_ s hr
  intro s l s1 hr ih hst hp1
  obtain ⟨hp, ht⟩ := step_trans hst
  exact hs s l s1 hr (ih hp) hp ht hp1

/-- What a worker step leaves alone. -/
theorem WorkerTrans.wframe {cfg : Config} {sh sh1 : Shared} {w w1 : WorkerPc}
    (h : WorkerTrans cfg sh w sh1 w1) :
    sh1.outRecv = sh.outRecv ∧ sh1.outClosed = sh.outClosed ∧ sh1.pc.paused = sh.pc.paused ∧
    sh1.pc.ch = sh.pc.ch ∧ sh1.gates = sh.gates ∧ sh1.jobsClosed = sh.jobsClosed ∧
    sh1.doneClosed = sh.doneClosed := by
  cases h <;> (try cases ‹Sent _ _ _›) <;> (try cases ‹WaitTrans _ _ _ _›) <;> simp

/-- What a step of a `SetPaused(false)` call leaves alone. -/
theorem CtlTrans.cframe {sh sh1 : Shared} {c c1 : CtlPc} (h : CtlTrans sh c sh1 c1) :
    sh1.out = sh.out ∧ sh1.outRecv = sh.outRecv ∧ sh1.outClosed = sh.outClosed ∧
    sh1.pc.paused = sh.pc.paused ∧ sh1.jobsClosed = sh.jobsClosed ∧
    sh1.doneClosed = sh.doneClosed ∧ sh1.wg = sh.wg ∧ sh1.seq = sh.seq ∧
    sh1.filesDone = sh.filesDone ∧ sh1.linesTotal = sh.linesTotal ∧
    sh1.matchesTotal = sh.matchesTotal := by
  cases h <;> simp

/-- The control facts of one worker step. -/
theorem WorkerTrans.wctrl {cfg : Config} {sh sh1 : Shared} {w w1 : WorkerPc}
    (h : WorkerTrans cfg sh w sh1 w1) :
    sh1.wg + w.live = sh.wg + w1.live ∧ w.live = 1 ∧ (w1 = .exited → sh.jobsClosed = true) := by
  cases h <;> (try cases ‹Sent _ _ _›) <;> (try cases ‹WaitTrans _ _ _ _›) <;>
    simp_all [WorkerPc.live]

theorem ctrl_start (cfg : Config) : Ctrl cfg (Start cfg) := by
  constructor <;> simp [Start, MainPc.isPre, MainPc.isTerm, NewPauseController]

theorem ctrl_inv {cfg : Config} {s : State} (hr : Reachable cfg s)
    (hp : s.sh.panicked = false) : Ctrl cfg s := by
  refine invariant (ctrl_start cfg) ?_ s hr hp
  intro s l s1 _ hI hp ht hp1
  cases ht with
  | worker i w w1 sh1 hw h =>
    obtain ⟨hf1, hf2, hf3, hf4, hf5, hf6, hf7⟩ := h.wframe
    obtain ⟨hc1, hc2, hc3⟩ := h.wctrl
    have hsum := sum_map_set WorkerPc.live s.workers i w w1 hw
    have hle := le_sum_map WorkerPc.live s.workers w (mem_of_getElem? hw)
    obtain ⟨h1, h2, h3, h4, h5, h6, h7, h8, h9⟩ := hI
    refine ⟨?_, ?_, ?_, ?_, ?_, ?_, ?_, ?_, ?_⟩
    · intro hm
      have := List.length_eq_zero.2 (h1 hm).1
      have := (List.getElem?_eq_some.1 hw).1
      omega
    · intro hm
      simpa using h2 hm
    · show sh1.wg = ((List.map WorkerPc.live (s.workers.set i w1)).sum : Nat)
      omega
    · show sh1.doneClosed = true ↔ _
      rw [hf7]
      exact h4
    · show sh1.doneClosed = true → sh1.wg = 0
      rw [hf7]
      intro hd
      have := h5 hd
      omega
    · show _ → sh1.doneClosed = true
      rw [hf7]
      exact h6
    · show sh1.outClosed = true ↔ _
      rw [hf2]
      exact h7
    · show sh1.jobsClosed = true ↔ _
      rw [hf6]
      exact h8
    · intro x hx hxe
      show sh1.jobsClosed = true
      rw [hf6]
      rcases List.mem_or_eq_of_mem_set hx with hm | hm
      · exact h9 x hm hxe
      · exact hc3 (hm ▸ hxe)
  | handoff i f rest h hw hj =>
    have hsum := sum_map_set WorkerPc.live s.workers i _ (.waitJob f .load) hw
    simp only [WorkerPc.live] at hsum
    obtain ⟨h1, h2, h3, h4, h5, h6, h7, h8, h9⟩ := hI
    refine ⟨?_, ?_, ?_, h4, h5, h6, h7, ?_, ?_⟩
    · intro hm
      have := (h1 hm).2.1
      simp [h] at this
    · intro hm
      have := h2 hm
      simp_all
    · show s.sh.wg = ((List.map WorkerPc.live (s.workers.set i (.waitJob f .load))).sum : Nat)
      omega
    · simp [hj]
    · intro x hx hxe
      rcases List.mem_or_eq_of_mem_set hx with hm | hm
      · exact h9 x hm hxe
      · simp [hm] at hxe
  | ctl j c c1 sh1 hc h =>
    obtain ⟨-, -, hf3, -, hf5, hf6, hf7, -⟩ := h.cframe
    have hI1 : Ctrl cfg s := hI
    unfold Ctrl at hI1 ⊢
    show CtrlOn cfg s.main s.disp s.join s.workers sh1.wg sh1.jobsClosed sh1.doneClosed
      sh1.outClosed
    rw [hf3, hf5, hf6, hf7]
    exact hI1
  | start sh1 h hs =>
    cases hs with
    | crash => simp at hp1
    | ok =>
      obtain ⟨h1, h2, h3, h4, h5, h6, h7, h8, h9⟩ := hI
      have hpre := h1 (by simp [h, MainPc.isPre])
      refine ⟨fun _ => hpre, ?_, h3, h4, h5, ?_, ?_, h8, h9⟩ <;>
        simp_all [MainPc.isPre, MainPc.isTerm]
  | spawnCrash h hc => simp at hp1
  | spawn h hc =>
    obtain ⟨h1, h2, h3, h4, h5, h6, h7, h8, h9⟩ := hI
    have hpre := h1 (by simp [h, MainPc.isPre])
    constructor <;> simp_all [MainPc.isPre, MainPc.isTerm, WorkerPc.live]
  | tick h =>
    obtain ⟨h1, h2, h3, h4, h5, h6, h7, h8, h9⟩ := hI
    have hpost := h2 (by simp [h, MainPc.isPre])
    refine ⟨?_, fun _ => hpost, h3, h4, h5, ?_, ?_, h8, h9⟩ <;>
      simp_all [MainPc.isPre, MainPc.isTerm]
  | joined h hd =>
    obtain ⟨h1, h2, h3, h4, h5, h6, h7, h8, h9⟩ := hI
    have hpost := h2 (by simp [h, MainPc.isPre])
    refine ⟨?_, fun _ => hpost, h3, h4, h5, ?_, ?_, h8, h9⟩ <;>
      simp_all [MainPc.isPre, MainPc.isTerm]
  | loadFilesDone term h =>
    obtain ⟨h1, h2, h3, h4, h5, h6, h7, h8, h9⟩ := hI
    have hpost := h2 (by simp [h, MainPc.isPre])
    refine ⟨?_, fun _ => hpost, h3, h4, h5, ?_, ?_, h8, h9⟩ <;>
      simp_all [MainPc.isPre, MainPc.isTerm]
  | loadLinesTotal term fd h =>
    obtain ⟨h1, h2, h3, h4, h5, h6, h7, h8, h9⟩ := hI
    have hpost := h2 (by simp [h, MainPc.isPre])
    refine ⟨?_, fun _ => hpost, h3, h4, h5, ?_, ?_, h8, h9⟩ <;>
      simp_all [MainPc.isPre, MainPc.isTerm]
  | loadMatchesTotal term fd lt h =>
    obtain ⟨h1, h2, h3, h4, h5, h6, h7, h8, h9⟩ := hI
    have hpost := h2 (by simp [h, MainPc.isPre])
    refine ⟨?_, fun _ => hpost, h3, h4, h5, ?_, ?_, h8, h9⟩ <;>
      simp_all [MainPc.isPre, MainPc.isTerm]
  | sendTotals term fd lt mt sh1 h hs =>
    obtain ⟨h1, h2, h3, h4, h5, h6, h7, h8, h9⟩ := hI
    have hpost := h2 (by simp [h, MainPc.isPre])
    cases hs with
    | crash => simp at hp1
    | ok =>
      refine ⟨?_, fun _ => hpost, h3, h4, h5, ?_, ?_, h8, h9⟩ <;>
        cases term <;> simp_all [MainPc.isPre, MainPc.isTerm]
  | closeCrash h hc => simp at hp1
  | close h hc =>
    obtain ⟨h1, h2, h3, h4, h5, h6, h7, h8, h9⟩ := hI
    have hpost := h2 (by simp [h, MainPc.isPre])
    refine ⟨?_, fun _ => hpost, h3, h4, h5, ?_, ?_, h8, h9⟩ <;>
      simp_all [MainPc.isPre, MainPc.isTerm]
  | announce f rest sh1 h hs =>
    obtain ⟨h1, h2, h3, h4, h5, h6, h7, h8, h9⟩ := hI
    cases hs with
    | crash => simp at hp1
    | ok =>
      refine ⟨?_, ?_, h3, h4, h5, h6, h7, ?_, ?_⟩
      · intro hm
        have := (h1 hm).2.1
        simp [h] at this
      · intro hm
        have := h2 hm
        simp_all
      · have := h8
        simp_all
      · intro x hx hxe
        have := h9 x hx hxe
        simp_all
  | closeJobs h =>
    obtain ⟨h1, h2, h3, h4, h5, h6, h7, h8, h9⟩ := hI
    refine ⟨?_, ?_, h3, h4, h5, h6, h7, ?_, ?_⟩
    · intro hm
      have := (h1 hm).2.1
      simp [h] at this
    · intro hm
      have := h2 hm
      simp_all
    · simp
    · intro x hx hxe
      rfl
  | join h hw =>
    obtain ⟨h1, h2, h3, h4, h5, h6, h7, h8, h9⟩ := hI
    refine ⟨?_, ?_, h3, ?_, ?_, ?_, h7, h8, h9⟩
    · intro hm
      have := (h1 hm).2.2.1
      simp [h] at this
    · intro hm
      have := h2 hm
      simp_all
    · simp
    · intro _
      exact hw
    · intro _
      rfl
  | pause => exact hI
  | resume => exact hI
  | consume h => exact hI

/-! ## Consequences of the control skeleton -/

/-- Once `done` is closed every worker has exited. -/
theorem workers_exited_of_done {cfg : Config} {s : State} (hr : Reachable cfg s)
    (hp : s.sh.panicked = false) (hd : s.sh.doneClosed = true) :
    ∀ w ∈ s.workers, w = .exited := by
  have hI := ctrl_inv hr hp
  intro w hw
  have h0 := hI.doneZero hd
  have h1 := hI.count
  have h2 : (s.workers.map WorkerPc.live).sum = 0 := by omega
  have h3 := sum_map_eq_zero WorkerPc.live s.workers h2 w hw
  cases w <;> simp [WorkerPc.live] at h3
  rfl

/-- Once the goroutine that owns `out` has taken the `done` case every worker
has exited. -/
theorem workers_exited_of_term {cfg : Config} {s : State} (hr : Reachable cfg s)
    (hp : s.sh.panicked = false) (hd : s.main.isTerm = true) :
    ∀ w ∈ s.workers, w = .exited :=
  workers_exited_of_done hr hp ((ctrl_inv hr hp).term hd)

/-- No worker moves once the goroutine that owns `out` has taken the `done`
case. -/
theorem no_worker_step_of_term {cfg : Config} {s : State} (hr : Reachable cfg s)
    (hp : s.sh.panicked = false) (hd : s.main.isTerm = true) {i : Nat} {w w1 : WorkerPc}
    {sh1 : Shared} (hw : s.workers[i]? = some w) (h : WorkerTrans cfg s.sh w sh1 w1) :
    False := by
  have := workers_exited_of_term hr hp hd w (mem_of_getElem? hw)
  subst this
  cases h

/-- With at least one worker, the dispatcher has finished once the goroutine
that owns `out` has taken the `done` case. -/
theorem disp_finished_of_term {cfg : Config} {s : State} (hr : Reachable cfg s)
    (hp : s.sh.panicked = false) (hc : 1 ≤ cfg.concurrent) (hd : s.main.isTerm = true) :
    s.disp = .finished := by
  have hI := ctrl_inv hr hp
  have hpost := hI.post (by cases hm : s.main <;> simp_all [MainPc.isTerm, MainPc.isPre])
  have hlen : 0 < s.workers.length := by omega
  obtain ⟨w, hw⟩ := List.exists_mem_of_length_pos hlen
  have := workers_exited_of_term hr hp hd w hw
  exact hI.jobs.1 (hI.exited w hw this)

/-! ## How a step changes the trace -/

theorem WorkerTrans.wout {cfg : Config} {sh sh1 : Shared} {w w1 : WorkerPc}
    (h : WorkerTrans cfg sh w sh1 w1) (hp : sh.panicked = false) :
    (sh1.out = sh.out ∧ sh1.outClosed = sh.outClosed) ∨
    (∃ e, sh1.out = sh.out ++ [e] ∧ sh1.panicked = false ∧ sh.outClosed = false ∧
      sh1.outClosed = false) := by
  cases h <;> (try cases ‹Sent _ _ _›) <;> (try cases ‹WaitTrans _ _ _ _›) <;> simp_all

/-- A step leaves the trace alone or appends one event to it; a step that
appends an event does not panic and finds `out` open. -/
theorem Trans.tout {cfg : Config} {s s1 : State} {l : Label} (h : Trans cfg s l s1)
    (hp : s.sh.panicked = false) :
    (s1.sh.out = s.sh.out ∧ (s.sh.outClosed = true → s1.sh.outClosed = true)) ∨
    (∃ e, s1.sh.out = s.sh.out ++ [e] ∧ s1.sh.panicked = false ∧ s.sh.outClosed = false ∧
      s1.sh.outClosed = false) := by
  cases h with
  | worker i w w1 sh1 hw h =>
    rcases h.wout hp with h1 | h1
    · left
      simp [h1]
    · right
      exact h1
  | ctl j c c1 sh1 hc h =>
    left
    have := h.cframe
    simp [this.1, this.2.2.1]
  | start sh1 h hs => cases hs <;> simp_all
  | sendTotals term fd lt mt sh1 h hs => cases hs <;> simp_all
  | announce f rest sh1 h hs => cases hs <;> simp_all
  | _ => simp_all [storePaused]

/-- After the close of `out` the trace does not change any more. -/
theorem exec_out_of_closed {cfg : Config} {s s1 : State} {ls : List Label}
    (h : exec cfg s ls = some s1) (hc : s.sh.outClosed = true) :
    s1.sh.out = s.sh.out ∧ s1.sh.outClosed = true := by
  induction ls generalizing s with
  | nil =>
    simp [exec] at h
    subst h
    exact ⟨rfl, hc⟩
  | cons l ls ih =>
    simp only [exec] at h
    cases hst : step cfg s l with
    | none => simp [hst] at h
    | some s2 =>
      simp only [hst] at h
      obtain ⟨hp, ht⟩ := step_trans hst
      rcases ht.tout hp with h1 | ⟨e, -, -, h1, -⟩
      · have := ih h (h1.2 hc)
        exact ⟨this.1.trans h1.1, this.2⟩
      · simp [hc] at h1

/-- A reachable state has the trace of a reachable state that has not
panicked, and its `out` flag as well, unless it is the state the panic of
`wg.Add` ends in. -/
theorem reachable_calm {cfg : Config} {s : State} (hr : Reachable cfg s) :
    ∃ s0, Reachable cfg s0 ∧ s0.sh.panicked = false ∧ s0.sh.out = s.sh.out ∧
      (s0.sh.outClosed = s.sh.outClosed ∨ (s0.main = .spawn ∧ cfg.concurrent < 0)) := by
  refine reachable_induct (P := fun s => ∃ s0, Reachable cfg s0 ∧ s0.sh.panicked = false ∧
    s0.sh.out = s.sh.out ∧
      (s0.sh.outClosed = s.sh.outClosed ∨ (s0.main = .spawn ∧ cfg.concurrent < 0)))
    ⟨Start cfg, reachable_start cfg, rfl, rfl, Or.inl rfl⟩ ?_ s hr
  intro s l s1 hr _ hst
  obtain ⟨hp, ht⟩ := step_trans hst
  cases hp1 : s1.sh.panicked with
  | false => exact ⟨s1, reachable_step hr hst, hp1, rfl, Or.inl rfl⟩
  | true =>
    refine ⟨s, hr, hp, ?_⟩
    rcases ht.tout hp with h1 | ⟨e, -, h1, -⟩
    · refine ⟨h1.1.symm, ?_⟩
      cases ht with
      | worker i w w1 sh1 hw h => exact Or.inl (h.wframe.2.1).symm
      | ctl j c c1 sh1 hc h => exact Or.inl (h.cframe.2.2.1).symm
      | start sh1 h hs => cases hs <;> simp_all
      | sendTotals term fd lt mt sh1 h hs => cases hs <;> simp_all
      | announce f rest sh1 h hs => cases hs <;> simp_all
      | spawnCrash h hc => exact Or.inr ⟨h, hc⟩
      | _ => simp_all [storePaused]
    · simp [hp1] at h1

/-- Every prefix of the trace of a reachable state is the trace of a reachable
state that has not panicked. -/
theorem reachable_prefix {cfg : Config} {s : State} (hr : Reachable cfg s) :
    ∀ p, p <+: s.sh.out → ∃ s0, Reachable cfg s0 ∧ s0.sh.panicked = false ∧ s0.sh.out = p := by
  refine reachable_induct (P := fun s => ∀ p, p <+: s.sh.out →
    ∃ s0, Reachable cfg s0 ∧ s0.sh.panicked = false ∧ s0.sh.out = p) ?_ ?_ s hr
  · intro p hp
    have : p = [] := by simpa [Start] using hp
    exact ⟨Start cfg, reachable_start cfg, rfl, this ▸ rfl⟩
  · intro s l s1 hr ih hst p hpre
    obtain ⟨hp, ht⟩ := step_trans hst
    rcases ht.tout hp with h1 | ⟨e, h1, h2, -⟩
    · exact ih p (h1.1 ▸ hpre)
    · rw [h1, List.prefix_concat_iff] at hpre
      rcases hpre with rfl | hpre
      · exact ⟨s1, reachable_step hr hst, h2, h1⟩
      · exact ih p hpre

/-! ## Sequence numbers -/

theorem seqsOf_eq_matchSeqs (out : List Event) : seqsOf out = ↑(matchSeqs out) := by
  induction out with
  | nil => rfl
  | cons e es ih =>
    unfold seqsOf at ih ⊢
    cases e <;> simp [matchSeqs, Event.seqs, ih]

theorem seqsOf_append (out : List Event) (e : Event) :
    seqsOf (out ++ [e]) = seqsOf out + e.seqs := by
  simp [seqsOf]

theorem wrapUint64_succ (k : Nat) : wrapUint64 (wrapUint64 k + 1) = wrapUint64 (k + 1) := by
  unfold wrapUint64
  omega

theorem firstSeqs_succ (k : Nat) : firstSeqs (k + 1) = firstSeqs k + {wrapUint64 (k + 1)} := by
  simp [firstSeqs, Multiset.range_succ, add_comm]

theorem pendSeqs_replicate (n : Nat) : pendSeqs (List.replicate n .recvJob) = 0 := by
  induction n with
  | zero => rfl
  | succ n ih =>
    unfold pendSeqs at ih ⊢
    simp [List.replicate_succ, WorkerPc.pendSeq, ih]

theorem pendSeq_afterWait (re : String → Bool) (path : String) (l : ScanLocals) (txt : String) :
    (WorkerPc.scanning path (afterWait re l txt)).pendSeq = 0 := by
  unfold afterWait
  simp only
  split <;> rfl

/-- What one worker step does to the sequence numbers. -/
theorem WorkerTrans.wseq {cfg : Config} {sh sh1 : Shared} {w w1 : WorkerPc}
    (h : WorkerTrans cfg sh w sh1 w1) (hp : sh1.panicked = false) :
    (sh1.seq = sh.seq ∧ seqsOf sh1.out + w1.pendSeq = seqsOf sh.out + w.pendSeq) ∨
    (sh1.seq = wrapUint64 (sh.seq + 1) ∧
      seqsOf sh1.out + w1.pendSeq = seqsOf sh.out + w.pendSeq + {wrapUint64 (sh.seq + 1)}) := by
  cases h <;> (try cases ‹Sent _ _ _›) <;> (try cases ‹WaitTrans _ _ _ _›) <;>
    (try simp only [pendSeq_afterWait]) <;>
    simp_all [WorkerPc.pendSeq, seqsOf_append, Event.seqs]

theorem seq_inv {cfg : Config} {s : State} (hr : Reachable cfg s)
    (hp : s.sh.panicked = false) : SeqOn s.sh.out s.sh.seq s.workers := by
  refine invariant (I := fun s => SeqOn s.sh.out s.sh.seq s.workers) ?_ ?_ s hr hp
  · exact ⟨0, rfl, rfl⟩
  intro s l s1 _ hI hp ht hp1
  cases ht with
  | worker i w w1 sh1 hw h =>
    obtain ⟨k, hk, hs⟩ := hI
    have hsum := sum_map_set WorkerPc.pendSeq s.workers i w w1 hw
    show SeqOn sh1.out sh1.seq (s.workers.set i w1)
    unfold pendSeqs at hs
    rcases h.wseq hp1 with ⟨h1, h2⟩ | ⟨h1, h2⟩
    · refine ⟨k, h1.trans hk, ?_⟩
      unfold pendSeqs
      apply add_right_cancel (b := w.pendSeq)
      rw [add_assoc, hsum, ← hs, add_comm _ w1.pendSeq, ← add_assoc, h2]
      abel
    · refine ⟨k + 1, by rw [h1, hk, wrapUint64_succ], ?_⟩
      unfold pendSeqs
      apply add_right_cancel (b := w.pendSeq)
      rw [add_assoc, hsum, firstSeqs_succ, ← hs, add_comm _ w1.pendSeq, ← add_assoc, h2, hk,
        wrapUint64_succ]
      abel
  | handoff i f rest h hw hj =>
    obtain ⟨k, hk, hs⟩ := hI
    have hsum := sum_map_set WorkerPc.pendSeq s.workers i _ (.waitJob f .load) hw
    simp only [WorkerPc.pendSeq, add_zero] at hsum
    refine ⟨k, hk, ?_⟩
    show seqsOf s.sh.out + pendSeqs (s.workers.set i (.waitJob f .load)) = _
    unfold pendSeqs at hs ⊢
    rw [hsum]
    exact hs
  | ctl j c c1 sh1 hc h =>
    have hf := h.cframe
    show SeqOn sh1.out sh1.seq s.workers
    rw [hf.1, hf.2.2.2.2.2.2.2.1]
    exact hI
  | start sh1 h hs =>
    cases hs with
    | crash => simp at hp1
    | ok =>
      obtain ⟨k, hk, hs⟩ := hI
      exact ⟨k, hk, by simpa [seqsOf_append, initialTotals, Event.seqs] using hs⟩
  | sendTotals term fd lt mt sh1 h hs =>
    cases hs with
    | crash => simp at hp1
    | ok =>
      obtain ⟨k, hk, hs⟩ := hI
      exact ⟨k, hk, by simpa [seqsOf_append, Event.seqs] using hs⟩
  | announce f rest sh1 h hs =>
    cases hs with
    | crash => simp at hp1
    | ok =>
      obtain ⟨k, hk, hs⟩ := hI
      exact ⟨k, hk, by simpa [seqsOf_append, queuedUpdate, Event.seqs] using hs⟩
  | spawn h hc =>
    obtain ⟨k, hk, hs⟩ := hI
    have hw := (ctrl_inv ‹_› hp).pre (by simp [h, MainPc.isPre])
    refine ⟨k, hk, ?_⟩
    show seqsOf s.sh.out + pendSeqs (List.replicate cfg.concurrent.toNat .recvJob) = _
    rw [pendSeqs_replicate]
    rw [hw.1] at hs
    exact hs
  | spawnCrash h hc => simp at hp1
  | closeCrash h hc => simp at hp1
  | _ => exact hI

theorem firstSeqs_eq (k : Nat) : firstSeqs k = ↑(seqRange k) := by
  unfold firstSeqs seqRange
  rw [Multiset.range, Multiset.map_coe, List.range'_eq_map_range, List.map_map]
  congr 1
  apply List.map_congr_left
  intro a _
  simp [add_comm]

theorem seqRange_small (n : Nat) (h : n < 18446744073709551616) :
    seqRange n = List.range' 1 n := by
  unfold seqRange
  conv_rhs => rw [← List.map_id (List.range' 1 n)]
  apply List.map_congr_left
  intro a ha
  rw [List.mem_range'_1] at ha
  simp only [wrapUint64, id]
  omega

/-- A sum of zeros is zero. -/
theorem sum_map_zero {α β : Type} [AddCommMonoid β] (f : α → β) (l : List α)
    (h : ∀ a ∈ l, f a = 0) : (l.map f).sum = 0 := by
  induction l with
  | nil => rfl
  | cons x xs ih =>
    simp only [List.map_cons, List.sum_cons]
    rw [h x (List.mem_cons_self _ _), ih (fun a ha => h a (List.mem_cons_of_mem _ ha)), add_zero]

/-- At the close of `out` the sequence numbers on the trace are the first
ones. -/
theorem seqs_of_closed {cfg : Config} {s : State} (hr : Reachable cfg s)
    (hc : s.sh.outClosed = true) :
    (matchSeqs s.sh.out).Perm (seqRange (matchSeqs s.sh.out).length) := by
  obtain ⟨s0, hr0, hp0, ho, hcl⟩ := reachable_calm hr
  rw [← ho]
  have hI := ctrl_inv hr0 hp0
  have hex : ∀ w ∈ s0.workers, w = .exited := by
    rcases hcl with hcl | ⟨hm, -⟩
    · rw [← hcl] at hc
      have hm := hI.closed.1 hc
      exact workers_exited_of_term hr0 hp0 (by simp [hm, MainPc.isTerm])
    · intro w hw
      rw [(hI.pre (by simp [hm, MainPc.isPre])).1] at hw
      cases hw
  obtain ⟨k, -, hk⟩ := seq_inv hr0 hp0
  have hz : pendSeqs s0.workers = 0 :=
    sum_map_zero _ _ (fun w hw => by rw [hex w hw]; rfl)
  rw [hz, add_zero, seqsOf_eq_matchSeqs, firstSeqs_eq, Multiset.coe_eq_coe] at hk
  have hl : (matchSeqs s0.sh.out).length = k := by
    rw [hk.length_eq]
    simp [seqRange]
  rw [hl]
  exact hk

/-! ## Every job is announced once and reported once -/

theorem queuedOf_append (out : List Event) (e : Event) :
    queuedOf (out ++ [e]) = queuedOf out + e.queued := by
  simp [queuedOf]

theorem reportedOf_append (out : List Event) (e : Event) :
    reportedOf (out ++ [e]) = reportedOf out + e.reported := by
  simp [reportedOf]

theorem inflightOf_replicate (n : Nat) : inflightOf (List.replicate n .recvJob) = 0 :=
  sum_map_zero _ _ (fun a ha => by rw [List.eq_of_mem_replicate ha]; rfl)

/-- What one worker step does to the jobs. -/
theorem WorkerTrans.wjobs {cfg : Config} {sh sh1 : Shared} {w w1 : WorkerPc}
    (h : WorkerTrans cfg sh w sh1 w1) (hp : sh1.panicked = false) :
    queuedOf sh1.out = queuedOf sh.out ∧
    reportedOf sh1.out + w1.inflight = reportedOf sh.out + w.inflight := by
  cases h <;> (try cases ‹Sent _ _ _›) <;> (try cases ‹WaitTrans _ _ _ _›) <;>
    simp_all [WorkerPc.inflight, queuedOf_append, reportedOf_append, Event.queued,
      Event.reported]

theorem jobs_inv {cfg : Config} {s : State} (hr : Reachable cfg s)
    (hp : s.sh.panicked = false) : JobsOn cfg.files s.sh.out s.disp s.workers := by
  refine invariant (I := fun s => JobsOn cfg.files s.sh.out s.disp s.workers) ?_ ?_ s hr hp
  · constructor <;> simp [Start, queuedOf, reportedOf, inflightOf, DispPc.unannounced,
      DispPc.undelivered]
  intro s l s1 hr hI hp ht hp1
  cases ht with
  | worker i w w1 sh1 hw h =>
    obtain ⟨h1, h2⟩ := hI
    obtain ⟨hq, hrep⟩ := h.wjobs hp1
    have hsum := sum_map_set WorkerPc.inflight s.workers i w w1 hw
    constructor
    · show queuedOf sh1.out + _ = _
      rw [hq]
      exact h1
    · show reportedOf sh1.out + inflightOf (s.workers.set i w1) + s.disp.undelivered cfg.files = _
      rw [← h2]
      unfold inflightOf at h2 ⊢
      apply add_right_cancel (b := w.inflight)
      calc reportedOf sh1.out + (List.map WorkerPc.inflight (s.workers.set i w1)).sum +
            s.disp.undelivered cfg.files + w.inflight
          = reportedOf sh1.out + ((List.map WorkerPc.inflight (s.workers.set i w1)).sum +
            w.inflight) + s.disp.undelivered cfg.files := by abel
        _ = (reportedOf sh1.out + w1.inflight) + (List.map WorkerPc.inflight s.workers).sum +
            s.disp.undelivered cfg.files := by rw [hsum]; abel
        _ = _ := by rw [hrep]; abel
  | handoff i f rest h hw hj =>
    obtain ⟨h1, h2⟩ := hI
    have hsum := sum_map_set WorkerPc.inflight s.workers i _ (.waitJob f .load) hw
    simp only [WorkerPc.inflight, add_zero] at hsum
    rw [h] at h1 h2
    constructor
    · exact h1
    · show reportedOf s.sh.out + inflightOf (s.workers.set i (.waitJob f .load)) + ↑rest = _
      rw [← h2]
      unfold inflightOf
      rw [hsum]
      simp only [DispPc.undelivered]
      rw [← Multiset.singleton_add]
      abel
  | ctl j c c1 sh1 hc h =>
    have hf := h.cframe
    show JobsOn cfg.files sh1.out s.disp s.workers
    rw [hf.1]
    exact hI
  | start sh1 h hs =>
    cases hs with
    | crash => simp at hp1
    | ok =>
      obtain ⟨h1, h2⟩ := hI
      constructor
      · simpa [queuedOf_append, initialTotals, Event.queued] using h1
      · simpa [reportedOf_append, initialTotals, Event.reported] using h2
  | sendTotals term fd lt mt sh1 h hs =>
    cases hs with
    | crash => simp at hp1
    | ok =>
      obtain ⟨h1, h2⟩ := hI
      constructor
      · simpa [queuedOf_append, Event.queued] using h1
      · simpa [reportedOf_append, Event.reported] using h2
  | announce f rest sh1 h hs =>
    cases hs with
    | crash => simp at hp1
    | ok =>
      obtain ⟨h1, h2⟩ := hI
      rw [h] at h1 h2
      constructor
      · show queuedOf (s.sh.out ++ [queuedUpdate f]) + ↑rest = _
        rw [← h1, queuedOf_append]
        simp only [queuedUpdate, Event.queued, DispPc.unannounced, if_true]
        rw [← Multiset.cons_coe, ← Multiset.singleton_add]
        abel
      · show reportedOf (s.sh.out ++ [queuedUpdate f]) + inflightOf s.workers + f ::ₘ ↑rest = _
        rw [← h2, reportedOf_append]
        simp [queuedUpdate, Event.reported, DispPc.undelivered]
  | closeJobs h =>
    obtain ⟨h1, h2⟩ := hI
    rw [h] at h1 h2
    exact ⟨h1, h2⟩
  | spawn h hc =>
    obtain ⟨h1, h2⟩ := hI
    have hw := (ctrl_inv hr hp).pre (by simp [h, MainPc.isPre])
    rw [hw.2.1] at h1 h2
    rw [hw.1] at h2
    constructor
    · exact h1
    · show reportedOf s.sh.out + inflightOf (List.replicate cfg.concurrent.toNat .recvJob) +
        ↑cfg.files = _
      rw [inflightOf_replicate]
      exact h2
  | spawnCrash h hc => simp at hp1
  | closeCrash h hc => simp at hp1
  | _ => exact hI

/-! ## The counters -/

theorem doneLinesOf_append (out : List Event) (e : Event) :
    doneLinesOf (out ++ [e]) = doneLinesOf out + e.doneLines := by
  simp [doneLinesOf]

theorem doneMatchesOf_append (out : List Event) (e : Event) :
    doneMatchesOf (out ++ [e]) = doneMatchesOf out + e.doneMatches := by
  simp [doneMatchesOf]

theorem reportCountOf_append (out : List Event) (e : Event) :
    reportCountOf (out ++ [e]) = reportCountOf out + e.reportCount := by
  simp [reportCountOf]

theorem wrapInt64_range (x : Int) :
    -9223372036854775808 ≤ wrapInt64 x ∧ wrapInt64 x < 9223372036854775808 := by
  unfold wrapInt64
  omega

theorem wrapInt64_mod (x : Int) :
    (wrapInt64 x - x) % 18446744073709551616 = 0 := by
  unfold wrapInt64
  omega

/-- An `int64` value congruent to `x` modulo `2^64` is `wrapInt64 x`. -/
theorem eq_wrapInt64 (a x : Int) (h : (a - x) % 18446744073709551616 = 0)
    (hr : -9223372036854775808 ≤ a ∧ a < 9223372036854775808) : a = wrapInt64 x := by
  unfold wrapInt64
  omega

/-- What one worker step does to the counters. -/
theorem WorkerTrans.wsums {cfg : Config} {sh sh1 : Shared} {w w1 : WorkerPc}
    (h : WorkerTrans cfg sh w sh1 w1) (hp : sh1.panicked = false) :
    (sh1.linesTotal + w1.pendLines - doneLinesOf sh1.out
      - (sh.linesTotal + w.pendLines - doneLinesOf sh.out)) % 18446744073709551616 = 0 ∧
    (sh1.matchesTotal + w1.pendMatches - doneMatchesOf sh1.out
      - (sh.matchesTotal + w.pendMatches - doneMatchesOf sh.out)) % 18446744073709551616 = 0 ∧
    (sh1.filesDone + w1.pendFiles - reportCountOf sh1.out
      - (sh.filesDone + w.pendFiles - reportCountOf sh.out)) % 18446744073709551616 = 0 ∧
    (sh1.linesTotal = sh.linesTotal ∨ ∃ x, sh1.linesTotal = wrapInt64 x) ∧
    (sh1.matchesTotal = sh.matchesTotal ∨ ∃ x, sh1.matchesTotal = wrapInt64 x) ∧
    (sh1.filesDone = sh.filesDone ∨ ∃ x, sh1.filesDone = wrapInt64 x) := by
  cases h <;> (try cases ‹Sent _ _ _›) <;> (try cases ‹WaitTrans _ _ _ _›) <;>
    simp_all [WorkerPc.pendLines, WorkerPc.pendMatches, WorkerPc.pendFiles,
      doneLinesOf_append, doneMatchesOf_append, reportCountOf_append, Event.doneLines,
      Event.doneMatches, Event.reportCount]
  all_goals exact Int.dvd_of_emod_eq_zero (wrapInt64_mod _)

theorem pend_replicate (g : WorkerPc → Int) (hg : g .recvJob = 0) (n : Nat) :
    (List.map g (List.replicate n WorkerPc.recvJob)).sum = 0 :=
  sum_map_zero _ _ (fun a ha => by rw [List.eq_of_mem_replicate ha]; exact hg)

theorem sums_inv {cfg : Config} {s : State} (hr : Reachable cfg s)
    (hp : s.sh.panicked = false) :
    SumsOn s.sh.out s.sh.filesDone s.sh.linesTotal s.sh.matchesTotal s.workers := by
  refine invariant
    (I := fun s => SumsOn s.sh.out s.sh.filesDone s.sh.linesTotal s.sh.matchesTotal s.workers)
    ?_ ?_ s hr hp
  · constructor <;> simp [Start, doneLinesOf, doneMatchesOf, reportCountOf]
  intro s l s1 hr hI hp ht hp1
  cases ht with
  | worker i w w1 sh1 hw h =>
    obtain ⟨h1, h2, h3, h4, h5, h6⟩ := hI
    obtain ⟨g1, g2, g3, g4, g5, g6⟩ := h.wsums hp1
    have s1 := sum_map_set WorkerPc.pendLines s.workers i w w1 hw
    have s2 := sum_map_set WorkerPc.pendMatches s.workers i w w1 hw
    have s3 := sum_map_set WorkerPc.pendFiles s.workers i w w1 hw
    refine ⟨?_, ?_, ?_, ?_, ?_, ?_⟩
    · show (sh1.linesTotal + (List.map WorkerPc.pendLines (s.workers.set i w1)).sum
        - doneLinesOf sh1.out) % 18446744073709551616 = 0
      omega
    · show (sh1.matchesTotal + (List.map WorkerPc.pendMatches (s.workers.set i w1)).sum
        - doneMatchesOf sh1.out) % 18446744073709551616 = 0
      omega
    · show (sh1.filesDone + (List.map WorkerPc.pendFiles (s.workers.set i w1)).sum
        - reportCountOf sh1.out) % 18446744073709551616 = 0
      omega
    · show _ ≤ sh1.linesTotal ∧ sh1.linesTotal < _
      rcases g4 with g | ⟨x, g⟩
      · rw [g]
        exact h4
      · rw [g]
        exact wrapInt64_range x
    · show _ ≤ sh1.matchesTotal ∧ sh1.matchesTotal < _
      rcases g5 with g | ⟨x, g⟩
      · rw [g]
        exact h5
      · rw [g]
        exact wrapInt64_range x
    · show _ ≤ sh1.filesDone ∧ sh1.filesDone < _
      rcases g6 with g | ⟨x, g⟩
      · rw [g]
        exact h6
      · rw [g]
        exact wrapInt64_range x
  | handoff i f rest h hw hj =>
    obtain ⟨h1, h2, h3, h4, h5, h6⟩ := hI
    have s1 := sum_map_set WorkerPc.pendLines s.workers i _ (.waitJob f .load) hw
    have s2 := sum_map_set WorkerPc.pendMatches s.workers i _ (.waitJob f .load) hw
    have s3 := sum_map_set WorkerPc.pendFiles s.workers i _ (.waitJob f .load) hw
    simp only [WorkerPc.pendLines, WorkerPc.pendMatches, WorkerPc.pendFiles, add_zero]
      at s1 s2 s3
    refine ⟨?_, ?_, ?_, h4, h5, h6⟩
    · show (s.sh.linesTotal +
        (List.map WorkerPc.pendLines (s.workers.set i (.waitJob f .load))).sum
        - doneLinesOf s.sh.out) % 18446744073709551616 = 0
      rw [s1]
      exact h1
    · show (s.sh.matchesTotal +
        (List.map WorkerPc.pendMatches (s.workers.set i (.waitJob f .load))).sum
        - doneMatchesOf s.sh.out) % 18446744073709551616 = 0
      rw [s2]
      exact h2
    · show (s.sh.filesDone +
        (List.map WorkerPc.pendFiles (s.workers.set i (.waitJob f .load))).sum
        - reportCountOf s.sh.out) % 18446744073709551616 = 0
      rw [s3]
      exact h3
  | ctl j c c1 sh1 hc h =>
    obtain ⟨f1, -, -, -, -, -, -, -, f9, f10, f11⟩ := h.cframe
    show SumsOn sh1.out sh1.filesDone sh1.linesTotal sh1.matchesTotal s.workers
    rw [f1, f9, f10, f11]
    exact hI
  | start sh1 h hs =>
    cases hs with
    | crash => simp at hp1
    | ok =>
      obtain ⟨h1, h2, h3, h4, h5, h6⟩ := hI
      refine ⟨?_, ?_, ?_, h4, h5, h6⟩
      · simpa [doneLinesOf_append, initialTotals, Event.doneLines] using h1
      · simpa [doneMatchesOf_append, initialTotals, Event.doneMatches] using h2
      · simpa [reportCountOf_append, initialTotals, Event.reportCount] using h3
  | sendTotals term fd lt mt sh1 h hs =>
    cases hs with
    | crash => simp at hp1
    | ok =>
      obtain ⟨h1, h2, h3, h4, h5, h6⟩ := hI
      refine ⟨?_, ?_, ?_, h4, h5, h6⟩
      · simpa [doneLinesOf_append, Event.doneLines] using h1
      · simpa [doneMatchesOf_append, Event.doneMatches] using h2
      · simpa [reportCountOf_append, Event.reportCount] using h3
  | announce f rest sh1 h hs =>
    cases hs with
    | crash => simp at hp1
    | ok =>
      obtain ⟨h1, h2, h3, h4, h5, h6⟩ := hI
      refine ⟨?_, ?_, ?_, h4, h5, h6⟩
      · simpa [doneLinesOf_append, queuedUpdate, Event.doneLines] using h1
      · simpa [doneMatchesOf_append, queuedUpdate, Event.doneMatches] using h2
      · simpa [reportCountOf_append, queuedUpdate, Event.reportCount] using h3
  | spawn h hc =>
    obtain ⟨h1, h2, h3, h4, h5, h6⟩ := hI
    have hw := (ctrl_inv hr hp).pre (by simp [h, MainPc.isPre])
    rw [hw.1] at h1 h2 h3
    have z1 := pend_replicate WorkerPc.pendLines rfl cfg.concurrent.toNat
    have z2 := pend_replicate WorkerPc.pendMatches rfl cfg.concurrent.toNat
    have z3 := pend_replicate WorkerPc.pendFiles rfl cfg.concurrent.toNat
    refine ⟨?_, ?_, ?_, h4, h5, h6⟩
    · show (s.sh.linesTotal + (List.map WorkerPc.pendLines
        (List.replicate cfg.concurrent.toNat WorkerPc.recvJob)).sum
        - doneLinesOf s.sh.out) % 18446744073709551616 = 0
      rw [z1]
      exact h1
    · show (s.sh.matchesTotal + (List.map WorkerPc.pendMatches
        (List.replicate cfg.concurrent.toNat WorkerPc.recvJob)).sum
        - doneMatchesOf s.sh.out) % 18446744073709551616 = 0
      rw [z2]
      exact h2
    · show (s.sh.filesDone + (List.map WorkerPc.pendFiles
        (List.replicate cfg.concurrent.toNat WorkerPc.recvJob)).sum
        - reportCountOf s.sh.out) % 18446744073709551616 = 0
      rw [z3]
      exact h3
  | spawnCrash h hc => simp at hp1
  | closeCrash h hc => simp at hp1
  | _ => exact hI

/-! ## The terminal `Totals` -/

theorem terminals_append (out : List Event) (e : Event) :
    terminals (out ++ [e]) = terminals out ++ (if e.isTerminal then [e] else []) := by
  unfold terminals
  rw [List.filter_append]
  congr 1
  simp only [List.filter]
  split <;> simp_all

theorem loaded_of_not_term {m : MainPc} (h : m.isTerm = false) (fd lt mt : Int) :
    m.loaded fd lt mt := by
  cases m <;> simp_all [MainPc.isTerm, MainPc.loaded]

theorem sentTerm_isTerm {m : MainPc} (h : m.sentTerm = true) : m.isTerm = true := by
  cases m <;> simp_all [MainPc.isTerm, MainPc.sentTerm]

/-- A worker sends no terminal `Totals`. -/
theorem WorkerTrans.wterm {cfg : Config} {sh sh1 : Shared} {w w1 : WorkerPc}
    (h : WorkerTrans cfg sh w sh1 w1) : terminals sh1.out = terminals sh.out := by
  cases h <;> (try cases ‹Sent _ _ _›) <;> (try cases ‹WaitTrans _ _ _ _›) <;>
    simp [terminals_append, Event.isTerminal]

theorem term_inv {cfg : Config} {s : State} (hr : Reachable cfg s)
    (hp : s.sh.panicked = false) :
    TermOn cfg s.main s.sh.out s.sh.filesDone s.sh.linesTotal s.sh.matchesTotal := by
  refine invariant
    (I := fun s => TermOn cfg s.main s.sh.out s.sh.filesDone s.sh.linesTotal s.sh.matchesTotal)
    ?_ ?_ s hr hp
  · constructor <;> simp [Start, MainPc.sentTerm, MainPc.loaded, terminals]
  intro s l s1 hr hI hp ht hp1
  cases ht with
  | worker i w w1 sh1 hw h =>
    cases hm : s.main.isTerm with
    | true => exact (no_worker_step_of_term hr hp hm hw h).elim
    | false =>
      have hs : s.main.sentTerm = false := by
        cases hs : s.main.sentTerm with
        | false => rfl
        | true => rw [sentTerm_isTerm hs] at hm; cases hm
      refine ⟨fun _ => ?_, fun hc => ?_, loaded_of_not_term hm _ _ _⟩
      · show terminals sh1.out = []
        rw [h.wterm]
        exact hI.before hs
      · have hc1 : s.main.sentTerm = true := hc
        rw [hs] at hc1
        cases hc1
  | ctl j c c1 sh1 hc h =>
    obtain ⟨f1, -, -, -, -, -, -, -, f9, f10, f11⟩ := h.cframe
    show TermOn cfg s.main sh1.out sh1.filesDone sh1.linesTotal sh1.matchesTotal
    rw [f1, f9, f10, f11]
    exact hI
  | start sh1 h hs =>
    cases hs with
    | crash => simp at hp1
    | ok =>
      obtain ⟨h1, h2, h3⟩ := hI
      refine ⟨fun _ => ?_, fun hc => by simp [MainPc.sentTerm] at hc, by simp [MainPc.loaded]⟩
      have := h1 (by simp [h, MainPc.sentTerm])
      simp [terminals_append, initialTotals, Event.isTerminal, this]
  | spawn h hc =>
    obtain ⟨h1, h2, h3⟩ := hI
    refine ⟨fun _ => ?_, fun hc => by simp [MainPc.sentTerm] at hc, by simp [MainPc.loaded]⟩
    exact h1 (by simp [h, MainPc.sentTerm])
  | tick h =>
    obtain ⟨h1, h2, h3⟩ := hI
    refine ⟨fun _ => ?_, fun hc => by simp [MainPc.sentTerm] at hc, by simp [MainPc.loaded]⟩
    exact h1 (by simp [h, MainPc.sentTerm])
  | joined h hd =>
    obtain ⟨h1, h2, h3⟩ := hI
    refine ⟨fun _ => ?_, fun hc => by simp [MainPc.sentTerm] at hc, by simp [MainPc.loaded]⟩
    exact h1 (by simp [h, MainPc.sentTerm])
  | loadFilesDone term h =>
    obtain ⟨h1, h2, h3⟩ := hI
    refine ⟨fun _ => ?_, fun hc => by simp [MainPc.sentTerm] at hc, ?_⟩
    · exact h1 (by simp [h, MainPc.sentTerm])
    · cases term <;> simp [MainPc.loaded]
  | loadLinesTotal term fd h =>
    obtain ⟨h1, h2, h3⟩ := hI
    refine ⟨fun _ => ?_, fun hc => by simp [MainPc.sentTerm] at hc, ?_⟩
    · exact h1 (by simp [h, MainPc.sentTerm])
    · rw [h] at h3
      cases term <;> simp_all [MainPc.loaded]
  | loadMatchesTotal term fd lt h =>
    obtain ⟨h1, h2, h3⟩ := hI
    refine ⟨fun _ => ?_, fun hc => by simp [MainPc.sentTerm] at hc, ?_⟩
    · exact h1 (by simp [h, MainPc.sentTerm])
    · rw [h] at h3
      cases term <;> simp_all [MainPc.loaded]
  | sendTotals term fd lt mt sh1 h hs =>
    cases hs with
    | crash => simp at hp1
    | ok =>
      obtain ⟨h1, h2, h3⟩ := hI
      have hb := h1 (by simp [h, MainPc.sentTerm])
      rw [h] at h3
      cases term with
      | false =>
        refine ⟨fun _ => ?_, fun hc => by simp [MainPc.sentTerm] at hc, by simp [MainPc.loaded]⟩
        simp [terminals_append, Event.isTerminal, mkTotals, hb]
      | true =>
        simp only [MainPc.loaded] at h3
        obtain ⟨rfl, rfl, rfl⟩ := h3
        refine ⟨fun hc => by simp [MainPc.sentTerm] at hc, fun _ => ?_, by simp [MainPc.loaded]⟩
        simp [terminals_append, Event.isTerminal, mkTotals, hb]
  | close h hc =>
    obtain ⟨h1, h2, h3⟩ := hI
    refine ⟨fun hc => by simp [MainPc.sentTerm] at hc, fun _ => ?_, by simp [MainPc.loaded]⟩
    exact h2 (by simp [h, MainPc.sentTerm])
  | announce f rest sh1 h hs =>
    cases hs with
    | crash => simp at hp1
    | ok =>
      obtain ⟨h1, h2, h3⟩ := hI
      refine ⟨fun hc => ?_, fun hc => ?_, h3⟩
      · have := h1 hc
        simp [terminals_append, queuedUpdate, Event.isTerminal, this]
      · have := h2 hc
        simp [terminals_append, queuedUpdate, Event.isTerminal, this]
  | spawnCrash h hc => simp at hp1
  | closeCrash h hc => simp at hp1
  | _ => exact hI

/-- With at least one worker nothing is sent after the terminal `Totals`: it
is the last event of the trace. -/
theorem last_inv {cfg : Config} (hc : 1 ≤ cfg.concurrent) {s : State} (hr : Reachable cfg s)
    (hp : s.sh.panicked = false) (hs : s.main.sentTerm = true) :
    ∃ pre, s.sh.out = pre ++
      [.totals (mkTotals cfg true s.sh.filesDone s.sh.linesTotal s.sh.matchesTotal)] := by
  refine invariant
    (I := fun s => s.main.sentTerm = true → ∃ pre, s.sh.out = pre ++
      [.totals (mkTotals cfg true s.sh.filesDone s.sh.linesTotal s.sh.matchesTotal)])
    ?_ ?_ s hr hp hs
  · intro h
    simp [Start, MainPc.sentTerm] at h
  intro s l s1 hr hI hp ht hp1
  cases ht with
  | worker i w w1 sh1 hw h =>
    intro hs
    exact (no_worker_step_of_term hr hp (sentTerm_isTerm hs) hw h).elim
  | ctl j c c1 sh1 hc h =>
    obtain ⟨f1, -, -, -, -, -, -, -, f9, f10, f11⟩ := h.cframe
    intro hs
    show ∃ pre, sh1.out = pre ++
      [.totals (mkTotals cfg true sh1.filesDone sh1.linesTotal sh1.matchesTotal)]
    rw [f1, f9, f10, f11]
    exact hI hs
  | start sh1 h hs => intro hs; simp [MainPc.sentTerm] at hs
  | spawn h hc => intro hs; simp [MainPc.sentTerm] at hs
  | tick h => intro hs; simp [MainPc.sentTerm] at hs
  | joined h hd => intro hs; simp [MainPc.sentTerm] at hs
  | loadFilesDone term h => intro hs; simp [MainPc.sentTerm] at hs
  | loadLinesTotal term fd h => intro hs; simp [MainPc.sentTerm] at hs
  | loadMatchesTotal term fd lt h => intro hs; simp [MainPc.sentTerm] at hs
  | sendTotals term fd lt mt sh1 h hs =>
    cases hs with
    | crash => simp at hp1
    | ok =>
      have h3 := (term_inv hr hp).loaded
      rw [h] at h3
      cases term with
      | false => intro hs; simp [MainPc.sentTerm] at hs
      | true =>
        simp only [MainPc.loaded] at h3
        obtain ⟨rfl, rfl, rfl⟩ := h3
        intro _
        exact ⟨s.sh.out, rfl⟩
  | close h hc =>
    intro _
    exact hI (by simp [h, MainPc.sentTerm])
  | announce f rest sh1 h hs =>
    intro hst
    have := disp_finished_of_term hr hp hc (sentTerm_isTerm hst)
    rw [this] at h
    cases h
  | spawnCrash h hc => simp at hp1
  | closeCrash h hc => simp at hp1
  | _ => exact hI

/-! ## The pause controller -/

theorem crit_afterWait (re : String → Bool) (path : String) (l : ScanLocals) (txt : String) :
    (WorkerPc.scanning path (afterWait re l txt)).waitPc = none := by
  unfold afterWait
  simp only
  split <;> rfl

theorem crit_afterWait0 (re : String → Bool) (path : String) (l : ScanLocals) (txt : String) :
    (WorkerPc.scanning path (afterWait re l txt)).crit = 0 := by
  simp [WorkerPc.crit, crit_afterWait]

theorem held_afterWait (re : String → Bool) (path : String) (l : ScanLocals) (txt : String) :
    (WorkerPc.scanning path (afterWait re l txt)).held = none := by
  simp [WorkerPc.held, crit_afterWait]

/-- What one worker step does to the pause controller. -/
theorem WorkerTrans.wpause {cfg : Config} {sh sh1 : Shared} {w w1 : WorkerPc}
    (h : WorkerTrans cfg sh w sh1 w1) :
    sh1.gates = sh.gates ∧ sh1.pc.ch = sh.pc.ch ∧ sh1.pc.paused = sh.pc.paused ∧
    ((sh1.pc.chMu = sh.pc.chMu ∧ w1.crit = w.crit) ∨
      (sh.pc.chMu = false ∧ sh1.pc.chMu = true ∧ w.crit = 0 ∧ w1.crit = 1) ∨
      (sh1.pc.chMu = false ∧ w.crit = 1 ∧ w1.crit = 0)) ∧
    (∀ ch, w1.held = some ch → w.held = some ch ∨ (ch = sh.pc.ch ∧ w.crit = 1)) := by
  cases h <;> (try cases ‹Sent _ _ _›) <;> (try cases ‹WaitTrans _ _ _ _›) <;>
    (try simp only [crit_afterWait0, held_afterWait]) <;>
    simp_all [WorkerPc.crit, WorkerPc.held, WorkerPc.waitPc, WaitPc.crit, WaitPc.held]

theorem sum_le_sum_map {α : Type} (f g : α → Nat) (l : List α) (h : ∀ a, f a ≤ g a) :
    (l.map f).sum ≤ (l.map g).sum := by
  induction l with
  | nil => simp
  | cons x xs ih =>
    simp only [List.map_cons, List.sum_cons]
    have := h x
    omega

/-- A call at its `select` next to a call at its `make` makes two holders of
the mutex. -/
theorem two_le_crit (ctls : List CtlPc) (j : Nat) (c : CtlPc) (hc : ctls[j]? = some c)
    (hcrit : c.crit = 1) (hmake : c.atMake = 0) (h : 1 ≤ (ctls.map CtlPc.atMake).sum) :
    2 ≤ (ctls.map CtlPc.crit).sum := by
  have h1 := sum_map_set CtlPc.crit ctls j c .lock hc
  have h2 := sum_map_set CtlPc.atMake ctls j c .lock hc
  have h3 := sum_le_sum_map CtlPc.atMake CtlPc.crit (ctls.set j .lock)
    (fun a => by cases a <;> simp [CtlPc.atMake, CtlPc.crit])
  have e1 : CtlPc.crit .lock = 0 := rfl
  have e2 : CtlPc.atMake .lock = 0 := rfl
  rw [e1] at h1
  rw [e2] at h2
  omega

theorem gateClosed_set (gates : List Bool) (ch ch1 : Nat) (h : ch1 ≠ ch) :
    gateClosed (gates.set ch true) ch1 = gateClosed gates ch1 := by
  unfold gateClosed
  simp [List.getD_eq_getElem?_getD, List.getElem?_set, h.symm]

theorem gateClosed_set_self (gates : List Bool) (ch : Nat) (h : ch < gates.length) :
    gateClosed (gates.set ch true) ch = true := by
  unfold gateClosed
  simp [List.getD_eq_getElem?_getD, List.getElem?_set, h]

theorem gateClosed_append (gates : List Bool) (ch : Nat) (h : ch < gates.length) :
    gateClosed (gates ++ [false]) ch = gateClosed gates ch := by
  unfold gateClosed
  simp [List.getD_eq_getElem?_getD, List.getElem?_append_left h]

theorem gateClosed_new (gates : List Bool) :
    gateClosed (gates ++ [false]) gates.length = false := by
  unfold gateClosed
  simp [List.getD_eq_getElem?_getD]

theorem crit_lock : CtlPc.crit .lock = 0 := rfl
theorem crit_select : CtlPc.crit .select = 1 := rfl
theorem crit_close : CtlPc.crit .close = 1 := rfl
theorem crit_make : CtlPc.crit .make = 1 := rfl
theorem crit_unlock : CtlPc.crit .unlock = 1 := rfl
theorem crit_returned : CtlPc.crit .returned = 0 := rfl
theorem atMake_lock : CtlPc.atMake .lock = 0 := rfl
theorem atMake_select : CtlPc.atMake .select = 0 := rfl
theorem atMake_close : CtlPc.atMake .close = 0 := rfl
theorem atMake_make : CtlPc.atMake .make = 1 := rfl
theorem atMake_unlock : CtlPc.atMake .unlock = 0 := rfl
theorem atMake_returned : CtlPc.atMake .returned = 0 := rfl

/-- Induction over all runs, the panicking step included. -/
theorem invariant_all {cfg : Config} {I : State → Prop} (h0 : I (Start cfg))
    (hs : ∀ s l s1, Reachable cfg s → I s → s.sh.panicked = false → Trans cfg s l s1 → I s1) :
    ∀ s, Reachable cfg s → I s := by
  intro s hr
  refine reachable_induct (P := I) h0 ?_ s hr
  intro s l s1 hr ih hst
  obtain ⟨hp, ht⟩ := step_trans hst
  exact hs s l s1 hr ih hp ht

theorem set_same {α : Type} (l : List α) (i : Nat) (a : α) (h : l[i]? = some a) :
    l.set i a = l := by
  induction l generalizing i with
  | nil => rfl
  | cons x xs ih =>
    cases i with
    | zero =>
      simp at h
      simp [h]
    | succ n =>
      simp at h
      simp [ih n h]

theorem pause_inv {cfg : Config} {s : State} (hr : Reachable cfg s) :
    PauseOn s.sh.pc s.sh.gates s.workers s.ctls := by
  refine invariant_all (I := fun s => PauseOn s.sh.pc s.sh.gates s.workers s.ctls) ?_ ?_ s hr
  · constructor <;> simp [Start, NewPauseController, gateClosed]
  intro s l s1 hr hI hp ht
  cases ht with
  | worker i w w1 sh1 hw h =>
    obtain ⟨g1, g2, g3, g4, g5⟩ := h.wpause
    obtain ⟨h1, h2, h3, h4, h5, h6, h7⟩ := hI
    have hsum := sum_map_set WorkerPc.crit s.workers i w w1 hw
    have hle := le_sum_map WorkerPc.crit s.workers w (mem_of_getElem? hw)
    have hb : s.sh.pc.chMu.toNat ≤ 1 := Bool.toNat_le _
    refine ⟨?_, ?_, ?_, ?_, ?_, ?_, ?_⟩
    · show sh1.gates.length = sh1.pc.ch + 1
      rw [g1, g2]
      exact h1
    · show ∀ ch, ch < sh1.pc.ch → gateClosed sh1.gates ch = true
      rw [g1, g2]
      exact h2
    · show (List.map WorkerPc.crit (s.workers.set i w1)).sum + (s.ctls.map CtlPc.crit).sum
        = sh1.pc.chMu.toNat
      rcases g4 with ⟨a, b⟩ | ⟨a, b, c, d⟩ | ⟨a, b, c⟩
      · rw [a]
        omega
      · rw [b]
        rw [a] at h3
        simp only [Bool.toNat_false, Bool.toNat_true] at h3 ⊢
        omega
      · rw [a]
        simp only [Bool.toNat_false]
        omega
    · show (s.ctls.map CtlPc.atMake).sum = (gateClosed sh1.gates sh1.pc.ch).toNat
      rw [g1, g2]
      exact h4
    · intro x hx ch hch
      show ch ≤ sh1.pc.ch
      rw [g2]
      rcases List.mem_or_eq_of_mem_set hx with hm | hm
      · exact h5 x hm ch hch
      · subst hm
        rcases g5 ch hch with a | ⟨a, b⟩
        · exact h5 w (mem_of_getElem? hw) ch a
        · omega
    · intro c hc hcu x hx ch hch
      show ch < sh1.pc.ch
      rw [g2]
      rcases List.mem_or_eq_of_mem_set hx with hm | hm
      · exact h6 c hc hcu x hm ch hch
      · subst hm
        rcases g5 ch hch with a | ⟨a, b⟩
        · exact h6 c hc hcu w (mem_of_getElem? hw) ch a
        · have hc1 := le_sum_map CtlPc.crit s.ctls c hc
          subst hcu
          have e1 : CtlPc.crit .unlock = 1 := rfl
          omega
    · show sh1.pc.paused = 0 ∨ sh1.pc.paused = 1
      rw [g3]
      exact h7
  | handoff i f rest h hw hj =>
    obtain ⟨h1, h2, h3, h4, h5, h6, h7⟩ := hI
    have hsum := sum_map_set WorkerPc.crit s.workers i _ (.waitJob f .load) hw
    have e1 : WorkerPc.crit .recvJob = 0 := rfl
    have e2 : WorkerPc.crit (.waitJob f .load) = 0 := rfl
    refine ⟨h1, h2, ?_, h4, ?_, ?_, h7⟩
    · show (List.map WorkerPc.crit (s.workers.set i (.waitJob f .load))).sum
        + (s.ctls.map CtlPc.crit).sum = s.sh.pc.chMu.toNat
      omega
    · intro x hx ch hch
      rcases List.mem_or_eq_of_mem_set hx with hm | hm
      · exact h5 x hm ch hch
      · subst hm
        simp [WorkerPc.held, WorkerPc.waitPc, WaitPc.held] at hch
    · intro c hc hcu x hx ch hch
      rcases List.mem_or_eq_of_mem_set hx with hm | hm
      · exact h6 c hc hcu x hm ch hch
      · subst hm
        simp [WorkerPc.held, WorkerPc.waitPc, WaitPc.held] at hch
  | spawn h hc =>
    obtain ⟨h1, h2, h3, h4, h5, h6, h7⟩ := hI
    have hw := (ctrl_inv hr hp).pre (by simp [h, MainPc.isPre])
    rw [hw.1] at h3
    have z : (List.map WorkerPc.crit (List.replicate cfg.concurrent.toNat .recvJob)).sum = 0 :=
      sum_map_zero _ _ (fun a ha => by rw [List.eq_of_mem_replicate ha]; rfl)
    refine ⟨h1, h2, ?_, h4, ?_, ?_, h7⟩
    · show (List.map WorkerPc.crit (List.replicate cfg.concurrent.toNat .recvJob)).sum
        + (s.ctls.map CtlPc.crit).sum = s.sh.pc.chMu.toNat
      rw [z]
      exact h3
    · intro x hx ch hch
      rw [List.eq_of_mem_replicate hx] at hch
      simp [WorkerPc.held, WorkerPc.waitPc] at hch
    · intro c hc hcu x hx ch hch
      rw [List.eq_of_mem_replicate hx] at hch
      simp [WorkerPc.held, WorkerPc.waitPc] at hch
  | pause =>
    obtain ⟨h1, h2, h3, h4, h5, h6, h7⟩ := hI
    exact ⟨h1, h2, h3, h4, h5, h6, Or.inr rfl⟩
  | resume =>
    obtain ⟨h1, h2, h3, h4, h5, h6, h7⟩ := hI
    refine ⟨h1, h2, ?_, ?_, h5, ?_, Or.inl rfl⟩
    · show (s.workers.map WorkerPc.crit).sum + (List.map CtlPc.crit (s.ctls ++ [.lock])).sum
        = s.sh.pc.chMu.toNat
      simp only [List.map_append, List.sum_append, List.map_cons, List.map_nil, List.sum_cons,
        List.sum_nil, crit_lock]
      omega
    · show (List.map CtlPc.atMake (s.ctls ++ [.lock])).sum
        = (gateClosed s.sh.gates s.sh.pc.ch).toNat
      simp only [List.map_append, List.sum_append, List.map_cons, List.map_nil, List.sum_cons,
        List.sum_nil, atMake_lock]
      omega
    · intro c hc hcu x hx ch hch
      rcases List.mem_append.1 hc with hm | hm
      · exact h6 c hm hcu x hx ch hch
      · simp [hcu] at hm
  | ctl j c c1 sh1 hc h =>
    obtain ⟨h1, h2, h3, h4, h5, h6, h7⟩ := hI
    have hs1 := sum_map_set CtlPc.crit s.ctls j c c1 hc
    have hs2 := sum_map_set CtlPc.atMake s.ctls j c c1 hc
    have hl1 := le_sum_map CtlPc.crit s.ctls c (mem_of_getElem? hc)
    have hl2 := le_sum_map CtlPc.atMake s.ctls c (mem_of_getElem? hc)
    have hb : s.sh.pc.chMu.toNat ≤ 1 := Bool.toNat_le _
    have hfresh : ∀ c2 ∈ s.ctls.set j c1, c2 = .unlock → c1 ≠ .unlock →
        ∀ w ∈ s.workers, ∀ ch, w.held = some ch → ch < s.sh.pc.ch := by
      intro c2 hc2 hcu hne x hx ch hch
      rcases List.mem_or_eq_of_mem_set hc2 with hm | hm
      · exact h6 c2 hm hcu x hx ch hch
      · exact (hne (hm ▸ hcu)).elim
    cases h with
    | lock hmu =>
      rw [hmu] at h3
      simp only [crit_lock, crit_select, crit_close, crit_make, crit_unlock, crit_returned, atMake_lock,
        atMake_select, atMake_close, atMake_make, atMake_unlock, atMake_returned,
        Bool.toNat_false] at hs1 hs2 h3
      refine ⟨h1, h2, ?_, ?_, h5, fun c2 hc2 hcu => hfresh c2 hc2 hcu (by simp), h7⟩
      · show (s.workers.map WorkerPc.crit).sum + (List.map CtlPc.crit (s.ctls.set j .select)).sum
          = 1
        omega
      · show (List.map CtlPc.atMake (s.ctls.set j .select)).sum
          = (gateClosed s.sh.gates s.sh.pc.ch).toNat
        omega
    | closed hg =>
      rw [hg] at h4
      simp only [Bool.toNat_true] at h4
      have := two_le_crit s.ctls j .select hc rfl rfl (by omega)
      omega
    | dflt hg =>
      simp only [crit_lock, crit_select, crit_close, crit_make, crit_unlock, crit_returned, atMake_lock,
        atMake_select, atMake_close, atMake_make, atMake_unlock, atMake_returned] at hs1 hs2
      refine ⟨h1, h2, ?_, ?_, h5, fun c2 hc2 hcu => hfresh c2 hc2 hcu (by simp), h7⟩
      · show (s.workers.map WorkerPc.crit).sum + (List.map CtlPc.crit (s.ctls.set j .close)).sum
          = s.sh.pc.chMu.toNat
        omega
      · show (List.map CtlPc.atMake (s.ctls.set j .close)).sum
          = (gateClosed s.sh.gates s.sh.pc.ch).toNat
        omega
    | crash hg =>
      show PauseOn s.sh.pc s.sh.gates s.workers (s.ctls.set j .close)
      rw [set_same _ _ _ hc]
      exact ⟨h1, h2, h3, h4, h5, h6, h7⟩
    | close hg =>
      rw [hg] at h4
      simp only [crit_lock, crit_select, crit_close, crit_make, crit_unlock, crit_returned, atMake_lock,
        atMake_select, atMake_close, atMake_make, atMake_unlock, atMake_returned,
        Bool.toNat_false] at hs1 hs2 h4
      refine ⟨?_, ?_, ?_, ?_, h5, fun c2 hc2 hcu => hfresh c2 hc2 hcu (by simp), h7⟩
      · show (s.sh.gates.set s.sh.pc.ch true).length = _
        rw [List.length_set]
        exact h1
      · intro ch hch
        show gateClosed (s.sh.gates.set s.sh.pc.ch true) ch = true
        have hch1 : ch < s.sh.pc.ch := hch
        rw [gateClosed_set _ _ _ (by omega)]
        exact h2 ch hch1
      · show (s.workers.map WorkerPc.crit).sum + (List.map CtlPc.crit (s.ctls.set j .make)).sum
          = s.sh.pc.chMu.toNat
        omega
      · show (List.map CtlPc.atMake (s.ctls.set j .make)).sum
          = (gateClosed (s.sh.gates.set s.sh.pc.ch true) s.sh.pc.ch).toNat
        rw [gateClosed_set_self _ _ (by omega)]
        simp only [Bool.toNat_true]
        omega
    | make =>
      simp only [crit_lock, crit_select, crit_close, crit_make, crit_unlock, crit_returned, atMake_lock,
        atMake_select, atMake_close, atMake_make, atMake_unlock, atMake_returned] at hs1 hs2 hl2
      have hclosed : gateClosed s.sh.gates s.sh.pc.ch = true := by
        cases hg : gateClosed s.sh.gates s.sh.pc.ch with
        | true => rfl
        | false =>
          rw [hg] at h4
          simp only [Bool.toNat_false] at h4
          omega
      rw [hclosed] at h4
      simp only [Bool.toNat_true] at h4
      refine ⟨?_, ?_, ?_, ?_, ?_, ?_, h7⟩
      · show (s.sh.gates ++ [false]).length = s.sh.gates.length + 1
        simp
      · intro ch hch
        show gateClosed (s.sh.gates ++ [false]) ch = true
        have hch1 : ch < s.sh.gates.length := hch
        rw [gateClosed_append _ _ hch1]
        rcases Nat.lt_or_ge ch s.sh.pc.ch with hlt | hge
        · exact h2 ch hlt
        · have : ch = s.sh.pc.ch := by omega
          rw [this]
          exact hclosed
      · show (s.workers.map WorkerPc.crit).sum + (List.map CtlPc.crit (s.ctls.set j .unlock)).sum
          = s.sh.pc.chMu.toNat
        omega
      · show (List.map CtlPc.atMake (s.ctls.set j .unlock)).sum
          = (gateClosed (s.sh.gates ++ [false]) s.sh.gates.length).toNat
        rw [gateClosed_new]
        simp only [Bool.toNat_false]
        omega
      · intro x hx ch hch
        show ch ≤ s.sh.gates.length
        have := h5 x hx ch hch
        omega
      · intro c2 hc2 hcu x hx ch hch
        show ch < s.sh.gates.length
        have := h5 x hx ch hch
        omega
    | unlock =>
      simp only [crit_lock, crit_select, crit_close, crit_make, crit_unlock, crit_returned, atMake_lock,
        atMake_select, atMake_close, atMake_make, atMake_unlock, atMake_returned] at hs1 hs2 hl1
      refine ⟨h1, h2, ?_, ?_, h5, fun c2 hc2 hcu => hfresh c2 hc2 hcu (by simp), h7⟩
      · show (s.workers.map WorkerPc.crit).sum + (List.map CtlPc.crit (s.ctls.set j .returned)).sum
          = (false).toNat
        simp only [Bool.toNat_false]
        omega
      · show (List.map CtlPc.atMake (s.ctls.set j .returned)).sum
          = (gateClosed s.sh.gates s.sh.pc.ch).toNat
        omega
  | start sh1 h hs => cases hs <;> exact hI
  | sendTotals term fd lt mt sh1 h hs => cases hs <;> exact hI
  | announce f rest sh1 h hs => cases hs <;> exact hI
  | _ => exact hI

/-! ## No panic -/

theorem WorkerTrans.wpanic {cfg : Config} {sh sh1 : Shared} {w w1 : WorkerPc}
    (h : WorkerTrans cfg sh w sh1 w1) (hp : sh.panicked = false) (hc : sh.outClosed = false) :
    sh1.panicked = false := by
  cases h <;> (try cases ‹Sent _ _ _›) <;> (try cases ‹WaitTrans _ _ _ _›) <;> simp_all

/-- A call of `SetPaused(false)` finds the gate open when it closes it. -/
theorem gate_open_at_close {cfg : Config} {s : State} (hr : Reachable cfg s)
    {j : Nat} (hc : s.ctls[j]? = some .close) :
    gateClosed s.sh.gates s.sh.pc.ch = false := by
  have hI := pause_inv hr
  cases hg : gateClosed s.sh.gates s.sh.pc.ch with
  | false => rfl
  | true =>
    have h4 := hI.making
    rw [hg] at h4
    simp only [Bool.toNat_true] at h4
    have h2 := two_le_crit s.ctls j .close hc rfl rfl (by omega)
    have h3 := hI.mutex
    have hb : s.sh.pc.chMu.toNat ≤ 1 := Bool.toNat_le _
    omega

/-- The only panic of a run with a worker count that is not negative is the
dispatcher's send on the closed `out`, and with at least one worker there is
none. -/
theorem step_calm {cfg : Config} {s s1 : State} {l : Label} (hr : Reachable cfg s)
    (hst : step cfg s l = some s1) (hc : 0 ≤ cfg.concurrent)
    (hd : s.sh.outClosed = true → s.disp = .finished) : s1.sh.panicked = false := by
  obtain ⟨hp, ht⟩ := step_trans hst
  have hI := ctrl_inv hr hp
  cases ht with
  | worker i w w1 sh1 hw h =>
    cases hcl : s.sh.outClosed with
    | false => exact h.wpanic hp hcl
    | true =>
      have hm := hI.closed.1 hcl
      exact (no_worker_step_of_term hr hp (by simp [hm, MainPc.isTerm]) hw h).elim
  | ctl j c c1 sh1 hc h =>
    cases h with
    | crash hg =>
      have := gate_open_at_close hr hc
      rw [this] at hg
      cases hg
    | _ => exact hp
  | start sh1 h hs =>
    cases hs with
    | crash hcl =>
      have hm := hI.closed.1 hcl
      rw [h] at hm
      cases hm
    | ok => exact hp
  | sendTotals term fd lt mt sh1 h hs =>
    cases hs with
    | crash hcl =>
      have hm := hI.closed.1 hcl
      rw [h] at hm
      cases hm
    | ok => exact hp
  | announce f rest sh1 h hs =>
    cases hs with
    | crash hcl =>
      have := hd hcl
      rw [h] at this
      cases this
    | ok => exact hp
  | spawnCrash h hc1 => omega
  | closeCrash h hcl =>
    have hm := hI.closed.1 hcl
    rw [h] at hm
    cases hm
  | _ => exact hp

/-- With at least one worker no run panics. -/
theorem no_panic {cfg : Config} (hc : 1 ≤ cfg.concurrent) {s : State} (hr : Reachable cfg s) :
    s.sh.panicked = false := by
  refine reachable_induct (P := fun s => s.sh.panicked = false) rfl ?_ s hr
  intro s l s1 hr hp hst
  refine step_calm hr hst (by omega) (fun hcl => ?_)
  have hm := (ctrl_inv hr hp).closed.1 hcl
  exact disp_finished_of_term hr hp hc (by simp [hm, MainPc.isTerm])

/-- The panics of a run.  A step panics only as the `wg.Add` of a negative
`concurrent`, in the goroutine whose deferred call closes `out`, or as a send
of the dispatcher on the closed `out` in a run without workers; the dispatcher
(lines 89-95) has no deferred call. -/
theorem panic_sites {cfg : Config} {s s1 : State} {l : Label} (hr : Reachable cfg s)
    (hst : step cfg s l = some s1) (hp1 : s1.sh.panicked = true) :
    (l = .main ∧ s.main = .spawn ∧ cfg.concurrent < 0 ∧ s1.sh.outClosed = true) ∨
    (l = .disp ∧ cfg.concurrent = 0 ∧ s.sh.outClosed = true) := by
  obtain ⟨hp, ht⟩ := step_trans hst
  have hI := ctrl_inv hr hp
  have hr1 := reachable_step hr hst
  have hlt : cfg.concurrent < 1 := by
    by_contra hge
    have := no_panic (by omega) hr1
    rw [hp1] at this
    cases this
  have hnil : s.workers = [] := by
    cases hpre : s.main.isPre with
    | true => exact (hI.pre hpre).1
    | false =>
      have hpost := hI.post hpre
      have hz : cfg.concurrent.toNat = 0 := by omega
      rw [hz] at hpost
      exact List.length_eq_zero.1 hpost.2.1
  cases ht with
  | worker i w w1 sh1 hw h =>
    rw [hnil] at hw
    cases hw
  | ctl j c c1 sh1 hc h =>
    cases h with
    | crash hg =>
      have := gate_open_at_close hr hc
      rw [this] at hg
      cases hg
    | _ =>
      rw [hp] at hp1
      cases hp1
  | start sh1 h hs =>
    cases hs with
    | crash hcl =>
      have hm := hI.closed.1 hcl
      rw [h] at hm
      cases hm
    | ok =>
      rw [hp] at hp1
      cases hp1
  | sendTotals term fd lt mt sh1 h hs =>
    cases hs with
    | crash hcl =>
      have hm := hI.closed.1 hcl
      rw [h] at hm
      cases hm
    | ok =>
      rw [hp] at hp1
      cases hp1
  | announce f rest sh1 h hs =>
    cases hs with
    | crash hcl =>
      refine Or.inr ⟨rfl, ?_, hcl⟩
      have hpre : s.main.isPre = false := by
        cases hm : s.main.isPre with
        | false => rfl
        | true =>
          have := (hI.pre hm).2.1
          rw [h] at this
          cases this
      have := (hI.post hpre).1
      omega
    | ok =>
      rw [hp] at hp1
      cases hp1
  | spawnCrash h hc => exact Or.inl ⟨rfl, h, hc, rfl⟩
  | closeCrash h hcl =>
    have hm := hI.closed.1 hcl
    rw [h] at hm
    cases hm
  | _ =>
    have hq : s.sh.panicked = true := hp1
    rw [hp] at hq
    cases hq

/-! ## What the events say -/

theorem wrapInt64_succ (n : Int) : wrapInt64 (wrapInt64 n + 1) = wrapInt64 (n + 1) := by
  unfold wrapInt64
  omega

theorem refLines_snoc (pre : List String) (txt : String) :
    refLines (pre ++ [txt]) = wrapInt64 (refLines pre + 1) := by
  unfold refLines
  rw [wrapInt64_succ]
  simp

theorem refMatches_snoc (re : String → Bool) (pre : List String) (txt : String) :
    refMatches re (pre ++ [txt]) =
      if re txt then wrapInt64 (refMatches re pre + 1) else refMatches re pre := by
  unfold refMatches
  rw [wrapInt64_succ]
  by_cases h : re txt = true <;> simp [List.filter_append, List.filter, h]

theorem workerOk_afterWait {cfg : Config} {path txt : String} {l : ScanLocals}
    (h : Scanned cfg path l (txt :: l.rest)) :
    WorkerOk cfg (.scanning path (afterWait cfg.re l txt)) := by
  obtain ⟨hpath, fd, pre, hfs, hl, herr, hn, hm⟩ := h
  have hmem : txt ∈ fd.lines := by
    rw [hl]
    simp
  have hl1 : fd.lines = (pre ++ [txt]) ++ l.rest := by
    rw [hl]
    simp
  unfold afterWait
  by_cases hre : cfg.re txt = true
  · simp only [hre, if_true]
    refine ⟨⟨hpath, fd, pre ++ [txt], hfs, hl1, herr, ?_, ?_⟩, hre, fd, hfs, hmem⟩
    · show wrapInt64 (l.lines + 1) = _
      rw [refLines_snoc, hn]
    · show wrapInt64 (l.matched + 1) = _
      rw [refMatches_snoc, hm]
      simp [hre]
  · simp only [hre]
    refine ⟨hpath, fd, pre ++ [txt], hfs, hl1, herr, ?_, ?_⟩
    · show wrapInt64 (l.lines + 1) = _
      rw [refLines_snoc, hn]
    · show l.matched = _
      rw [refMatches_snoc, hm]
      simp [hre]

/-- One worker step keeps the worker's locals in agreement with the reference
scan, and what it sends agrees with it. -/
theorem WorkerTrans.wevents {cfg : Config} {sh sh1 : Shared} {w w1 : WorkerPc}
    (h : WorkerTrans cfg sh w sh1 w1) (hw : WorkerOk cfg w) :
    WorkerOk cfg w1 ∧ (sh1.out = sh.out ∨ ∃ e, sh1.out = sh.out ++ [e] ∧ e.okFor cfg) := by
  cases h with
  | exit hj => exact ⟨trivial, Or.inl rfl⟩
  | waitJob sh1 path w w1 h => cases h <;> exact ⟨trivial, Or.inl rfl⟩
  | startScan sh1 path w h => cases h <;> exact ⟨rfl, Or.inl rfl⟩
  | openErr path p e hfs =>
    refine ⟨?_, Or.inl rfl⟩
    have hp : p = path := hw
    subst hp
    show updateOf p 0 0 (some e) = report cfg p
    simp [updateOf, report, hfs]
  | openOk path p fd hfs =>
    refine ⟨?_, Or.inl rfl⟩
    have hp : p = path := hw
    subst hp
    exact ⟨rfl, fd, [], hfs, rfl, rfl, by simp [refLines, wrapInt64],
      by simp [refMatches, wrapInt64]⟩
  | scanNext path l txt rest hl =>
    refine ⟨?_, Or.inl rfl⟩
    have h1 : Scanned cfg path l l.rest := hw
    rw [hl] at h1
    exact h1
  | scanEnd path l hl =>
    refine ⟨?_, Or.inl rfl⟩
    obtain ⟨hpath, fd, pre, hfs, hlines, herr, hn, hm⟩ := (hw : Scanned cfg path l l.rest)
    rw [hl, List.append_nil] at hlines
    show updateOf path l.lines l.matched l.rerr = report cfg path
    rw [hn, hm, herr, ← hlines]
    unfold updateOf report
    rw [hfs]
  | waitLine sh1 path l txt w w1 h => cases h <;> exact ⟨hw, Or.inl rfl⟩
  | lineDone sh1 path l txt w h => cases h <;> exact ⟨workerOk_afterWait hw, Or.inl rfl⟩
  | addSeq path l txt => exact ⟨hw, Or.inl rfl⟩
  | sendMatch sh1 path l txt id h =>
    obtain ⟨h1, h2⟩ := (hw : Scanned cfg path l l.rest ∧ Matching cfg path txt)
    refine ⟨h1, ?_⟩
    cases h with
    | crash => exact Or.inl rfl
    | ok =>
      refine Or.inr ⟨_, rfl, ?_⟩
      show Matching cfg l.path txt
      rw [h1.1]
      exact h2
  | sendFail sh1 path lines matched e h =>
    refine ⟨trivial, ?_⟩
    cases h with
    | crash => exact Or.inl rfl
    | ok => exact Or.inr ⟨_, rfl, Or.inr hw⟩
  | sendDone sh1 path lines matched h =>
    refine ⟨trivial, ?_⟩
    cases h with
    | crash => exact Or.inl rfl
    | ok => exact Or.inr ⟨_, rfl, Or.inr hw⟩
  | addLines lines matched => exact ⟨trivial, Or.inl rfl⟩
  | addMatches matched => exact ⟨trivial, Or.inl rfl⟩
  | addFilesDone => exact ⟨trivial, Or.inl rfl⟩

theorem events_inv {cfg : Config} {s : State} (hr : Reachable cfg s)
    (hp : s.sh.panicked = false) : EventsOn cfg s.sh.out s.workers := by
  refine invariant (I := fun s => EventsOn cfg s.sh.out s.workers) ?_ ?_ s hr hp
  · constructor <;> simp [Start]
  intro s l s1 hr hI hp ht hp1
  cases ht with
  | worker i w w1 sh1 hw h =>
    obtain ⟨h1, h2⟩ := hI
    obtain ⟨g1, g2⟩ := h.wevents (h2 w (mem_of_getElem? hw))
    constructor
    · intro e he
      have he1 : e ∈ sh1.out := he
      rcases g2 with g | ⟨e1, g, hok⟩
      · rw [g] at he1
        exact h1 e he1
      · rw [g, List.mem_append, List.mem_singleton] at he1
        rcases he1 with he1 | rfl
        · exact h1 e he1
        · exact hok
    · intro x hx
      rcases List.mem_or_eq_of_mem_set hx with hm | hm
      · exact h2 x hm
      · rw [hm]
        exact g1
  | handoff i f rest h hw hj =>
    obtain ⟨h1, h2⟩ := hI
    refine ⟨h1, ?_⟩
    intro x hx
    rcases List.mem_or_eq_of_mem_set hx with hm | hm
    · exact h2 x hm
    · rw [hm]
      trivial
  | ctl j c c1 sh1 hc h =>
    have hf := h.cframe
    show EventsOn cfg sh1.out s.workers
    rw [hf.1]
    exact hI
  | start sh1 h hs =>
    cases hs with
    | crash => simp at hp1
    | ok =>
      obtain ⟨h1, h2⟩ := hI
      refine ⟨?_, h2⟩
      intro e he
      have he1 : e ∈ s.sh.out ++ [initialTotals cfg] := he
      rw [List.mem_append, List.mem_singleton] at he1
      rcases he1 with he1 | rfl
      · exact h1 e he1
      · trivial
  | sendTotals term fd lt mt sh1 h hs =>
    cases hs with
    | crash => simp at hp1
    | ok =>
      obtain ⟨h1, h2⟩ := hI
      refine ⟨?_, h2⟩
      intro e he
      have he1 : e ∈ s.sh.out ++ [.totals (mkTotals cfg term fd lt mt)] := he
      rw [List.mem_append, List.mem_singleton] at he1
      rcases he1 with he1 | rfl
      · exact h1 e he1
      · trivial
  | announce f rest sh1 h hs =>
    cases hs with
    | crash => simp at hp1
    | ok =>
      obtain ⟨h1, h2⟩ := hI
      refine ⟨?_, h2⟩
      intro e he
      have he1 : e ∈ s.sh.out ++ [queuedUpdate f] := he
      rw [List.mem_append, List.mem_singleton] at he1
      rcases he1 with he1 | rfl
      · exact h1 e he1
      · exact Or.inl rfl
  | spawn h hc =>
    obtain ⟨h1, h2⟩ := hI
    refine ⟨h1, ?_⟩
    intro x hx
    rw [List.eq_of_mem_replicate hx]
    trivial
  | spawnCrash h hc => simp at hp1
  | closeCrash h hc => simp at hp1
  | _ => exact hI

/-! ## The reports of a finished run -/

theorem reportedOf_eq (out : List Event) :
    reportedOf out = ↑((reports out).map Event.file) := by
  induction out with
  | nil => rfl
  | cons e es ih =>
    unfold reportedOf reports at ih ⊢
    cases e with
    | totals t => simpa [Event.reported, Event.isReport, List.filter] using ih
    | matchLine m => simpa [Event.reported, Event.isReport, List.filter] using ih
    | fileUpdate u =>
      by_cases h : (u.Status = "DONE" ∨ u.Status = "FAIL")
      · have h1 : (decide (u.Status = "DONE") || decide (u.Status = "FAIL")) = true := by
          simpa using h
        simp only [List.map_cons, List.sum_cons, Event.reported, h1, if_true, List.filter,
          Event.isReport, Event.file, ih]
        rfl
      · have h1 : (decide (u.Status = "DONE") || decide (u.Status = "FAIL")) = false := by
          simpa using h
        simp only [List.map_cons, List.sum_cons, Event.reported, h1, List.filter,
          Event.isReport, ih]
        simp

theorem queuedOf_eq (out : List Event) :
    queuedOf out = ↑((announcements out).map Event.file) := by
  induction out with
  | nil => rfl
  | cons e es ih =>
    unfold queuedOf announcements at ih ⊢
    cases e with
    | totals t => simpa [Event.queued, Event.isQueued, List.filter] using ih
    | matchLine m => simpa [Event.queued, Event.isQueued, List.filter] using ih
    | fileUpdate u =>
      by_cases h : u.Status = "WAIT"
      · simp only [List.map_cons, List.sum_cons, Event.queued, h, if_true, List.filter,
          Event.isQueued, decide_True, Event.file, ih]
        rfl
      · simp only [List.map_cons, List.sum_cons, Event.queued, h, List.filter,
          Event.isQueued, decide_False, ih]
        simp

/-! ## The state at the close of `out` -/

/-- At the close of `out` by a run whose `wg.Add` did not panic, the goroutine
that owns `out` has finished and every worker has exited; the trace is that of
a state that has not panicked. -/
theorem closed_facts {cfg : Config} (hc0 : 0 ≤ cfg.concurrent) {s : State}
    (hr : Reachable cfg s) (hc : s.sh.outClosed = true) :
    ∃ s0, Reachable cfg s0 ∧ s0.sh.panicked = false ∧ s0.sh.out = s.sh.out ∧
      s0.main = .finished ∧ ∀ w ∈ s0.workers, w = .exited := by
  obtain ⟨s0, hr0, hp0, ho, hcl⟩ := reachable_calm hr
  rcases hcl with hcl | ⟨-, hneg⟩
  · rw [← hcl] at hc
    have hm := (ctrl_inv hr0 hp0).closed.1 hc
    exact ⟨s0, hr0, hp0, ho, hm, workers_exited_of_term hr0 hp0 (by simp [hm, MainPc.isTerm])⟩
  · omega

theorem reportCountOf_eq (out : List Event) : reportCountOf out = (reports out).length := by
  induction out with
  | nil => rfl
  | cons e es ih =>
    unfold reportCountOf reports at ih ⊢
    cases e with
    | totals t => simpa [Event.reportCount, Event.isReport, List.filter] using ih
    | matchLine m => simpa [Event.reportCount, Event.isReport, List.filter] using ih
    | fileUpdate u =>
      by_cases h : (u.Status = "DONE" ∨ u.Status = "FAIL")
      · have h1 : (decide (u.Status = "DONE") || decide (u.Status = "FAIL")) = true := by
          simpa using h
        simp only [List.map_cons, List.sum_cons, Event.reportCount, h1, if_true, List.filter,
          Event.isReport, ih, List.length_cons]
        push_cast
        ring
      · have h1 : (decide (u.Status = "DONE") || decide (u.Status = "FAIL")) = false := by
          simpa using h
        simp only [List.map_cons, List.sum_cons, Event.reportCount, h1, List.filter,
          Event.isReport, ih]
        simp

/-- Once the terminal `Totals` has been sent it is the only `Totals` with `Done`
set on the trace, and its counters are those of the trace. -/
theorem sent_terminal {cfg : Config} {s : State} (hr : Reachable cfg s)
    (hp : s.sh.panicked = false) (hs : s.main.sentTerm = true) :
    terminals s.sh.out = [.totals (terminalOf cfg s.sh.out)] := by
  have hex := workers_exited_of_term hr hp (sentTerm_isTerm hs)
  have ht := (term_inv hr hp).after hs
  obtain ⟨h1, h2, h3, h4, h5, h6⟩ := sums_inv hr hp
  have z1 : (s.workers.map WorkerPc.pendLines).sum = 0 :=
    sum_map_zero _ _ (fun w hw => by rw [hex w hw]; rfl)
  have z2 : (s.workers.map WorkerPc.pendMatches).sum = 0 :=
    sum_map_zero _ _ (fun w hw => by rw [hex w hw]; rfl)
  have z3 : (s.workers.map WorkerPc.pendFiles).sum = 0 :=
    sum_map_zero _ _ (fun w hw => by rw [hex w hw]; rfl)
  rw [z1, add_zero] at h1
  rw [z2, add_zero] at h2
  rw [z3, add_zero] at h3
  rw [ht]
  unfold terminalOf
  rw [← reportCountOf_eq, ← eq_wrapInt64 _ _ h1 h4, ← eq_wrapInt64 _ _ h2 h5,
    ← eq_wrapInt64 _ _ h3 h6]

/-- In every state of a run the trace has no `Totals` with `Done` set, or
exactly one, whose counters are those of the trace; it has none when
`concurrent` is negative. -/
theorem terminal_facts {cfg : Config} {s : State} (hr : Reachable cfg s) :
    terminals s.sh.out = [] ∨
      (0 ≤ cfg.concurrent ∧ terminals s.sh.out = [.totals (terminalOf cfg s.sh.out)]) := by
  obtain ⟨s0, hr0, hp0, ho, -⟩ := reachable_calm hr
  rw [← ho]
  cases hs : s0.main.sentTerm with
  | false => exact Or.inl ((term_inv hr0 hp0).before hs)
  | true =>
    refine Or.inr ⟨?_, sent_terminal hr0 hp0 hs⟩
    have hpre : s0.main.isPre = false := by
      cases hm : s0.main <;> simp_all [MainPc.isPre, MainPc.sentTerm]
    exact ((ctrl_inv hr0 hp0).post hpre).1

/-- At the close of `out` by a run whose `wg.Add` did not panic, exactly one
terminal `Totals` has been sent, and its counters are those of the trace. -/
theorem closed_terminal {cfg : Config} (hc0 : 0 ≤ cfg.concurrent) {s : State}
    (hr : Reachable cfg s) (hc : s.sh.outClosed = true) :
    terminals s.sh.out = [.totals (terminalOf cfg s.sh.out)] := by
  obtain ⟨s0, hr0, hp0, ho, hm, -⟩ := closed_facts hc0 hr hc
  rw [← ho]
  exact sent_terminal hr0 hp0 (by simp [hm, MainPc.sentTerm])

/-- With at least one worker the terminal `Totals` is the last event of the
trace at the close of `out`, and the only one with `Done` set. -/
theorem closed_last {cfg : Config} (hc1 : 1 ≤ cfg.concurrent) {s : State}
    (hr : Reachable cfg s) (hc : s.sh.outClosed = true) :
    ∃ pre, s.sh.out = pre ++ [.totals (terminalOf cfg s.sh.out)] ∧ terminals pre = [] := by
  obtain ⟨s0, hr0, hp0, ho, hm, hex⟩ := closed_facts (by omega) hr hc
  have ht := closed_terminal (by omega) hr hc
  have ht0 := (term_inv hr0 hp0).after (by simp [hm, MainPc.sentTerm])
  obtain ⟨pre, hpre⟩ := last_inv hc1 hr0 hp0 (by simp [hm, MainPc.sentTerm])
  rw [ho] at hpre ht0
  rw [ht] at ht0
  rw [← List.singleton_inj.1 ht0] at hpre
  refine ⟨pre, hpre, ?_⟩
  have h2 := ht
  rw [hpre, terminals_append] at h2
  rw [← hpre] at h2
  have he2 : (Event.totals (terminalOf cfg s.sh.out)).isTerminal = true := rfl
  rw [he2] at h2
  simp only [if_true] at h2
  have := congrArg List.length h2
  simpa using this

/-- With at least one worker the DONE and FAIL events at the close of `out`
are the reference reports of the input files, one for each occurrence, and the
WAIT events name the input files, one for each occurrence. -/
theorem closed_reports {cfg : Config} (hc1 : 1 ≤ cfg.concurrent) {s : State}
    (hr : Reachable cfg s) (hc : s.sh.outClosed = true) :
    (reports s.sh.out).Perm (cfg.files.map (report cfg)) ∧
    ((announcements s.sh.out).map Event.file).Perm cfg.files := by
  obtain ⟨s0, hr0, hp0, ho, hm, hex⟩ := closed_facts (by omega) hr hc
  rw [← ho]
  have hd := disp_finished_of_term hr0 hp0 hc1 (by simp [hm, MainPc.isTerm])
  obtain ⟨hq, hrep⟩ := jobs_inv hr0 hp0
  have z : inflightOf s0.workers = 0 :=
    sum_map_zero _ _ (fun w hw => by rw [hex w hw]; rfl)
  rw [hd] at hq hrep
  rw [z] at hrep
  simp only [DispPc.unannounced, DispPc.undelivered, add_zero] at hq hrep
  rw [reportedOf_eq, Multiset.coe_eq_coe] at hrep
  rw [queuedOf_eq, Multiset.coe_eq_coe] at hq
  refine ⟨?_, hq⟩
  have h1 := hrep.map (report cfg)
  have h2 : ((reports s0.sh.out).map Event.file).map (report cfg) = reports s0.sh.out := by
    rw [List.map_map]
    conv_rhs => rw [← List.map_id (reports s0.sh.out)]
    apply List.map_congr_left
    intro e he
    have hmem := List.mem_filter.1 he
    have hok := (events_inv hr0 hp0).events e hmem.1
    cases e with
    | totals t => simp [Event.isReport] at hmem
    | matchLine m => simp [Event.isReport] at hmem
    | fileUpdate u =>
      rcases hok with hw | hok
      · have := hmem.2
        simp [Event.isReport, hw] at this
      · simp only [Function.comp, Event.file, id]
        exact hok.symm
  rw [h2] at h1
  exact h1

/-! ## The claims about a finished run -/

theorem wrapInt64_id (x : Int)
    (h : -9223372036854775808 ≤ x ∧ x < 9223372036854775808) : wrapInt64 x = x := by
  unfold wrapInt64
  omega

/-- C1: when `out` is closed, the `Seq` values of the `MatchLine` events sent
are, as a multiset, the `uint64` values of `1, ..., n`, where `n` is the
number of `MatchLine` events sent; with `n < 2^64` they are exactly
`1, ..., n`: none is duplicated, none is skipped, the smallest is 1. -/
theorem C1_seqs_are_one_to_n (cfg : Config) (s : State) (hr : Reachable cfg s)
    (hc : s.sh.outClosed = true) :
    (matchSeqs s.sh.out).Perm (seqRange (matchSeqs s.sh.out).length) ∧
    ((matchSeqs s.sh.out).length < 18446744073709551616 →
      (matchSeqs s.sh.out).Perm (List.range' 1 (matchSeqs s.sh.out).length)) := by
  have h := seqs_of_closed hr hc
  refine ⟨h, fun hn => ?_⟩
  rw [seqRange_small _ hn] at h
  exact h

/-- C2: in every state of a run, a `Totals` with `Done` set that has been sent
is the only one on the trace, its `LinesTotal` is the `int64` sum of the
`Lines` of the DONE `FileUpdate` events sent and its `MatchesTotal` the `int64`
sum of their `Matches` (`doneLinesOf` and `doneMatchesOf` count zero for a FAIL
event), which are the plain sums when these fit an `int64`.  When `out` is
closed the trace is final, and it has such a `Totals` unless `concurrent` is
negative: then `wg.Add` panics, the deferred call closes `out`, and no `Totals`
with `Done` set is ever sent. -/
theorem C2_terminal_totals_sum_done (cfg : Config) (s : State) (hr : Reachable cfg s) :
    (∀ t, Event.totals t ∈ s.sh.out → t.Done = true →
      terminals s.sh.out = [.totals t] ∧
      t.LinesTotal = wrapInt64 (doneLinesOf s.sh.out) ∧
      t.MatchesTotal = wrapInt64 (doneMatchesOf s.sh.out) ∧
      ((-9223372036854775808 ≤ doneLinesOf s.sh.out ∧
          doneLinesOf s.sh.out < 9223372036854775808) →
        t.LinesTotal = doneLinesOf s.sh.out) ∧
      ((-9223372036854775808 ≤ doneMatchesOf s.sh.out ∧
          doneMatchesOf s.sh.out < 9223372036854775808) →
        t.MatchesTotal = doneMatchesOf s.sh.out)) ∧
    (s.sh.outClosed = true →
      (∀ ls s1, exec cfg s ls = some s1 → s1.sh.out = s.sh.out) ∧
      (0 ≤ cfg.concurrent → ∃ t, terminals s.sh.out = [.totals t] ∧ t.Done = true)) ∧
    (cfg.concurrent < 0 → terminals s.sh.out = []) := by
  refine ⟨?_, fun hc => ⟨fun ls s1 hex => (exec_out_of_closed hex hc).1, fun hc0 => ?_⟩, ?_⟩
  · intro t ht hd
    have hmem : Event.totals t ∈ terminals s.sh.out :=
      List.mem_filter.2 ⟨ht, by simpa [Event.isTerminal] using hd⟩
    rcases terminal_facts hr with h | ⟨-, h⟩
    · rw [h] at hmem
      cases hmem
    · rw [h] at hmem
      have ht : t = terminalOf cfg s.sh.out := by simpa using hmem
      subst ht
      exact ⟨h, rfl, rfl, fun h => wrapInt64_id _ h, fun h => wrapInt64_id _ h⟩
  · exact ⟨terminalOf cfg s.sh.out, closed_terminal hc0 hr hc, rfl⟩
  · intro hneg
    rcases terminal_facts hr with h | ⟨h0, -⟩
    · exact h
    · omega

theorem unannounced_le (files : List String) (d : DispPc) (f : String) :
    Multiset.count f (d.unannounced files) ≤ Multiset.count f (d.undelivered files) := by
  cases d with
  | sendJob g rest => exact Multiset.count_le_count_cons f g _
  | _ => exact le_refl _

theorem report_file (cfg : Config) (a : String) : (report cfg a).file = a := by
  unfold report
  cases cfg.fs a with
  | error e => rfl
  | ok fd =>
    simp only
    cases fd.readErr <;> rfl

/-- C4, amended: with `concurrent >= 1`, when `out` is closed the DONE and
FAIL events are as many as the input files; for every file identifier the
DONE/FAIL events, the WAIT events and the occurrences in the input list are
equally many; and in every prefix of the trace the DONE/FAIL events of a file
are at most as many as its WAIT events, so every report comes after a WAIT
event of its own. -/
theorem C4_reports_match_files (cfg : Config) (hc1 : 1 ≤ cfg.concurrent) (s : State)
    (hr : Reachable cfg s) (hc : s.sh.outClosed = true) :
    (reports s.sh.out).length = cfg.files.length ∧
    (∀ f, ((reports s.sh.out).map Event.file).count f = cfg.files.count f ∧
      ((announcements s.sh.out).map Event.file).count f = cfg.files.count f) ∧
    (∀ p, p <+: s.sh.out → ∀ f,
      ((reports p).map Event.file).count f ≤ ((announcements p).map Event.file).count f) := by
  obtain ⟨h1, h2⟩ := closed_reports hc1 hr hc
  refine ⟨by simpa using h1.length_eq, fun f => ⟨?_, h2.count_eq f⟩, ?_⟩
  · have := (h1.map Event.file).count_eq f
    rw [this, List.map_map]
    congr 1
    conv_rhs => rw [← List.map_id cfg.files]
    apply List.map_congr_left
    intro a _
    simp only [Function.comp, report_file, id]
  · intro p hp f
    obtain ⟨s0, hr0, hp0, ho⟩ := reachable_prefix hr p hp
    obtain ⟨hq, hrep⟩ := jobs_inv hr0 hp0
    rw [ho] at hq hrep
    have e1 := congrArg (Multiset.count f) hq
    have e2 := congrArg (Multiset.count f) hrep
    rw [reportedOf_eq] at e2
    rw [queuedOf_eq] at e1
    simp only [Multiset.count_add, Multiset.coe_count] at e1 e2
    have := unannounced_le cfg.files s0.disp f
    omega

/-! ## Concrete runs -/

theorem runOf_reachable (cfg : Config) (ls : List Label)
    (h : (exec cfg (Start cfg) ls).isSome = true) : Reachable cfg (runOf cfg ls) := by
  refine ⟨ls, ?_⟩
  unfold runOf
  cases hx : exec cfg (Start cfg) ls with
  | none => simp [hx] at h
  | some s => rfl

set_option maxRecDepth 100000 in
theorem sThree_reachable : Reachable cfgThree sThree :=
  runOf_reachable _ _ (by decide)

set_option maxRecDepth 100000 in
theorem sThree_closed : sThree.sh.outClosed = true := by decide

set_option maxRecDepth 100000 in
theorem sTwo_reachable : Reachable cfgTwo sTwo :=
  runOf_reachable _ _ (by decide)

set_option maxRecDepth 100000 in
theorem sTwo_closed : sTwo.sh.outClosed = true := by decide

set_option maxRecDepth 100000 in
theorem sFail_reachable : Reachable cfgFail sFail :=
  runOf_reachable _ _ (by decide)

set_option maxRecDepth 100000 in
theorem sFail_closed : sFail.sh.outClosed = true := by decide

set_option maxRecDepth 100000 in
theorem sNoWorker_reachable : Reachable cfgNoWorker sNoWorker :=
  runOf_reachable _ _ (by decide)

set_option maxRecDepth 100000 in
theorem sTwice_reachable : Reachable cfgTwice sTwice :=
  runOf_reachable _ _ (by decide)

/-! ## Witnesses and counterexamples for the claims about a finished run -/

set_option maxRecDepth 100000 in
/-- Witness of C1: in the run `schedTwo` the sequence numbers reach the
channel in the order 2, 1. -/
theorem C1_witness :
    Reachable cfgTwo sTwo ∧ sTwo.sh.outClosed = true ∧ matchSeqs sTwo.sh.out = [2, 1] ∧
    ((matchSeqs sTwo.sh.out).Perm (seqRange (matchSeqs sTwo.sh.out).length) ∧
      ((matchSeqs sTwo.sh.out).length < 18446744073709551616 →
        (matchSeqs sTwo.sh.out).Perm (List.range' 1 (matchSeqs sTwo.sh.out).length))) :=
  ⟨sTwo_reachable, sTwo_closed, by decide,
    C1_seqs_are_one_to_n cfgTwo sTwo sTwo_reachable sTwo_closed⟩

set_option maxRecDepth 100000 in
/-- Witness of C2: the run `schedThree` of three files with 10, 0 and 5
matching lines and two workers ends with `MatchesTotal = 15` and has three
DONE events; the run of `cfgNegative` closes `out` after the initial `Totals`,
without a `Totals` that has `Done` set. -/
theorem C2_witness :
    Reachable cfgThree sThree ∧ sThree.sh.outClosed = true ∧
    terminals sThree.sh.out = [.totals { FilesTotal := 3, FilesDone := 3, LinesTotal := 17,
                                         MatchesTotal := 15, Done := true, Err := none }] ∧
    doneMatchesOf sThree.sh.out = 15 ∧ (sThree.sh.out.filter Event.isDone).length = 3 ∧
    ((∀ t, Event.totals t ∈ sThree.sh.out → t.Done = true →
        terminals sThree.sh.out = [.totals t] ∧
        t.LinesTotal = wrapInt64 (doneLinesOf sThree.sh.out) ∧
        t.MatchesTotal = wrapInt64 (doneMatchesOf sThree.sh.out) ∧
        ((-9223372036854775808 ≤ doneLinesOf sThree.sh.out ∧
            doneLinesOf sThree.sh.out < 9223372036854775808) →
          t.LinesTotal = doneLinesOf sThree.sh.out) ∧
        ((-9223372036854775808 ≤ doneMatchesOf sThree.sh.out ∧
            doneMatchesOf sThree.sh.out < 9223372036854775808) →
          t.MatchesTotal = doneMatchesOf sThree.sh.out)) ∧
      (sThree.sh.outClosed = true →
        (∀ ls s1, exec cfgThree sThree ls = some s1 → s1.sh.out = sThree.sh.out) ∧
        (0 ≤ cfgThree.concurrent →
          ∃ t, terminals sThree.sh.out = [.totals t] ∧ t.Done = true)) ∧
      (cfgThree.concurrent < 0 → terminals sThree.sh.out = [])) ∧
    (Reachable cfgNegative sNegative ∧ sNegative.sh.outClosed = true ∧
      sNegative.sh.panicked = true ∧ sNegative.sh.out.length = 1 ∧
      terminals sNegative.sh.out = []) :=
  ⟨sThree_reachable, sThree_closed, by decide, by decide, by decide,
    C2_terminal_totals_sum_done cfgThree sThree sThree_reachable,
    runOf_reachable _ _ (by decide), by decide, by decide, by decide,
    (C2_terminal_totals_sum_done cfgNegative sNegative
      (runOf_reachable _ _ (by decide))).2.2 (by decide)⟩

set_option maxRecDepth 100000 in
/-- Counterexample to C4 as stated.  With `concurrent = 0` the run
`schedNoWorker` closes `out` with one input file and no DONE or FAIL event.
With the same file listed twice the run `schedTwice` sends both WAIT events
for the identifier before the first of its two DONE events, so a DONE event
comes after two WAIT events for its identifier. -/
theorem C4_counterexample :
    (Reachable cfgNoWorker sNoWorker ∧ sNoWorker.sh.outClosed = true ∧
      cfgNoWorker.files.length = 1 ∧ (reports sNoWorker.sh.out).length = 0) ∧
    (Reachable cfgTwice sTwice ∧ sTwice.sh.outClosed = true ∧
      (sTwice.sh.out.filter (fun e => e.isQueued || e.isReport)).map
          (fun e => (e.file, e.isQueued)) =
        [("a.log", true), ("a.log", true), ("a.log", false), ("a.log", false)]) :=
  ⟨⟨sNoWorker_reachable, by decide, by decide, by decide⟩,
    ⟨sTwice_reachable, by decide, by decide⟩⟩

set_option maxRecDepth 100000 in
/-- Witness of C4 as amended, at the run `schedTwice`. -/
theorem C4_witness :
    1 ≤ cfgTwice.concurrent ∧ Reachable cfgTwice sTwice ∧ sTwice.sh.outClosed = true ∧
    ((reports sTwice.sh.out).length = cfgTwice.files.length ∧
      (∀ f, ((reports sTwice.sh.out).map Event.file).count f = cfgTwice.files.count f ∧
        ((announcements sTwice.sh.out).map Event.file).count f = cfgTwice.files.count f) ∧
      (∀ p, p <+: sTwice.sh.out → ∀ f,
        ((reports p).map Event.file).count f ≤ ((announcements p).map Event.file).count f)) :=
  ⟨by decide, sTwice_reachable, by decide,
    C4_reports_match_files cfgTwice (by decide) sTwice sTwice_reachable (by decide)⟩

/-! ## The scenario of three files, for every run -/

theorem doneMatchesOf_reports (out : List Event) :
    doneMatchesOf out = ((reports out).map Event.doneMatches).sum := by
  induction out with
  | nil => rfl
  | cons e es ih =>
    unfold doneMatchesOf reports at ih ⊢
    cases e with
    | totals t => simpa [Event.doneMatches, Event.isReport, List.filter] using ih
    | matchLine m => simpa [Event.doneMatches, Event.isReport, List.filter] using ih
    | fileUpdate u =>
      by_cases h : u.Status = "DONE"
      · simp [Event.doneMatches, Event.isReport, List.filter, h, ih]
      · by_cases h2 : u.Status = "FAIL"
        · simp [Event.doneMatches, Event.isReport, List.filter, h, h2, ih]
        · simp [Event.doneMatches, Event.isReport, List.filter, h, h2, ih]

theorem filter_isDone_reports (out : List Event) :
    out.filter Event.isDone = (reports out).filter Event.isDone := by
  unfold reports
  rw [List.filter_filter]
  apply List.filter_congr
  intro e _
  cases e with
  | totals t => rfl
  | matchLine m => rfl
  | fileUpdate u =>
    by_cases h : u.Status = "DONE" <;> simp [Event.isDone, Event.isReport, h]

set_option maxRecDepth 100000 in
/-- Every run of three readable files with 10, 0 and 5 matching lines and two
workers ends with a terminal `Totals` with `MatchesTotal = 15` and with
exactly three DONE events. -/
theorem scenario_three_files (s : State) (hr : Reachable cfgThree s)
    (hc : s.sh.outClosed = true) :
    (∃ t, terminals s.sh.out = [.totals t] ∧ t.MatchesTotal = 15) ∧
    (s.sh.out.filter Event.isDone).length = 3 := by
  have hc1 : 1 ≤ cfgThree.concurrent := by decide
  obtain ⟨h1, -⟩ := closed_reports hc1 hr hc
  constructor
  · refine ⟨terminalOf cfgThree s.sh.out, closed_terminal (by decide) hr hc, ?_⟩
    show wrapInt64 (doneMatchesOf s.sh.out) = 15
    rw [doneMatchesOf_reports, (h1.map Event.doneMatches).sum_eq]
    decide
  · rw [filter_isDone_reports, (h1.filter Event.isDone).length_eq]
    decide

/-! ## The pause controller: claims -/

/-- C6: in every reachable state, every gate channel a waiter has read from
`p.ch` is the current `p.ch` or is closed; and when a `SetPaused(false)` call
completes (its `Unlock` of line 36), every gate channel held by a waiter is
closed, so every waiter that was blocked in the receive of line 46 can go on,
however many there are. -/
theorem C6_resume_releases_all_waiters (cfg : Config) (s : State) (hr : Reachable cfg s) :
    (∀ w ∈ s.workers, ∀ ch, w.held = some ch →
      ch = s.sh.pc.ch ∨ gateClosed s.sh.gates ch = true) ∧
    (∀ j s1, s.ctls[j]? = some .unlock → step cfg s (.ctl j) = some s1 →
      s1.ctls[j]? = some .returned ∧ s1.workers = s.workers ∧
      ∀ w ∈ s1.workers, ∀ ch, w.held = some ch → gateClosed s1.sh.gates ch = true) := by
  have hI := pause_inv hr
  constructor
  · intro w hw ch hch
    have h1 := hI.held w hw ch hch
    rcases Nat.lt_or_ge ch s.sh.pc.ch with h | h
    · exact Or.inr (hI.older ch h)
    · exact Or.inl (by omega)
  · intro j s1 hj hst
    obtain ⟨hp, ht⟩ := step_trans hst
    cases ht with
    | ctl _ c c1 sh1 hc h =>
      rw [hj] at hc
      cases hc
      cases h
      refine ⟨?_, rfl, ?_⟩
      · have hlt := (List.getElem?_eq_some.1 hj).1
        simp [hlt]
      · intro w hw ch hch
        exact hI.older ch (hI.fresh .unlock (mem_of_getElem? hj) rfl w hw ch hch)

set_option maxRecDepth 100000 in
/-- Witness of C6, at the state `sGate`. -/
theorem C6_witness :
    Reachable cfgTwo sGate ∧
    sGate.workers = [.waitJob "a.log" (.recv 0), .waitJob "b.log" (.recv 0)] ∧
    sGate.ctls = [.unlock] ∧
    ((∀ w ∈ sGate.workers, ∀ ch, w.held = some ch →
        ch = sGate.sh.pc.ch ∨ gateClosed sGate.sh.gates ch = true) ∧
      (∀ j s1, sGate.ctls[j]? = some .unlock → step cfgTwo sGate (.ctl j) = some s1 →
        s1.ctls[j]? = some .returned ∧ s1.workers = sGate.workers ∧
        ∀ w ∈ s1.workers, ∀ ch, w.held = some ch → gateClosed s1.sh.gates ch = true)) :=
  ⟨runOf_reachable _ _ (by decide), by decide, by decide,
    C6_resume_releases_all_waiters cfgTwo sGate (runOf_reachable _ _ (by decide))⟩

/-! ## `SetPaused` as a whole call -/

theorem setPausedCall_atRest (sh : Shared) (v : Bool) (h : AtRest sh) :
    ∃ sh1, SetPausedCall sh v = some sh1 ∧ AtRest sh1 ∧ SameCounters sh sh1 ∧
      sh1.pc.paused = (if v then 1 else 0) := by
  obtain ⟨h1, h2, h3, h4⟩ := h
  cases v with
  | true =>
    exact ⟨storePaused sh true, rfl, ⟨h1, h2, h3, h4⟩, ⟨rfl, rfl, rfl, rfl, rfl⟩, rfl⟩
  | false =>
    have hlt : sh.pc.ch < sh.gates.length := by omega
    refine ⟨{ sh with gates := sh.gates.set sh.pc.ch true ++ [false],
                      pc := { paused := 0, chMu := false,
                              ch := (sh.gates.set sh.pc.ch true).length } }, ?_,
      ⟨h1, rfl, ?_, ?_⟩, ⟨rfl, rfl, rfl, rfl, rfl⟩, rfl⟩
    · simp [SetPausedCall, runCall, SetPaused, storePaused, closeGate, h1, h2, h3]
    · exact gateClosed_new _
    · simp

theorem setPausedCalls_atRest (sh : Shared) (vs : List Bool) (h : AtRest sh) :
    ∃ sh1, SetPausedCalls sh vs = some sh1 ∧ AtRest sh1 ∧ SameCounters sh sh1 := by
  induction vs generalizing sh with
  | nil => exact ⟨sh, rfl, h, ⟨rfl, rfl, rfl, rfl, rfl⟩⟩
  | cons v vs ih =>
    obtain ⟨sh1, e1, r1, c1, -⟩ := setPausedCall_atRest sh v h
    obtain ⟨sh2, e2, r2, c2⟩ := ih sh1 r1
    refine ⟨sh2, ?_, r2, ?_⟩
    · simp [SetPausedCalls, e1, e2]
    · obtain ⟨a1, a2, a3, a4, a5⟩ := c1
      obtain ⟨b1, b2, b3, b4, b5⟩ := c2
      exact ⟨b1.trans a1, b2.trans a2, b3.trans a3, b4.trans a4, b5.trans a5⟩

theorem start_atRest (cfg : Config) : AtRest (Start cfg).sh := by
  simp [AtRest, Start, NewPauseController, gateClosed]

/-- C7: (1) any finite sequence of `SetPaused` calls from `NewPauseController()`
runs to its end without a panic and leaves `p.ch` open and the counters and the
trace untouched; a `SetPaused(false)` on the result, when it is already
running, returns with the flag at 0, `p.ch` open and the counters untouched.
(2) In every reachable state of a run, a step of a `SetPaused` call does not
panic (the `close` of line 33 finds its gate open) and changes neither a run
counter nor the trace nor a worker; the store of a `SetPaused(false)` leaves
the flag at 0; and `p.ch` is open whenever no call is inside its critical
section. -/
theorem C7_resume_idempotent_no_panic (cfg : Config) (vs : List Bool) (s : State)
    (hr : Reachable cfg s) :
    (∃ sh, SetPausedCalls (Start cfg).sh vs = some sh ∧ sh.panicked = false ∧
      gateClosed sh.gates sh.pc.ch = false ∧ SameCounters (Start cfg).sh sh ∧
      (sh.pc.paused = 0 → ∃ sh1, SetPausedCall sh false = some sh1 ∧ sh1.panicked = false ∧
        sh1.pc.paused = 0 ∧ gateClosed sh1.gates sh1.pc.ch = false ∧ SameCounters sh sh1)) ∧
    (∀ l s1, (l = .setPaused true ∨ l = .setPaused false ∨ ∃ j, l = .ctl j) →
      step cfg s l = some s1 →
      s1.sh.panicked = false ∧ SameCounters s.sh s1.sh ∧ s1.workers = s.workers) ∧
    (∀ s1, step cfg s (.setPaused false) = some s1 → s1.sh.pc.paused = 0) ∧
    ((∀ c ∈ s.ctls, c.crit = 0) → gateClosed s.sh.gates s.sh.pc.ch = false) := by
  refine ⟨?_, ?_, ?_, ?_⟩
  · obtain ⟨sh, e, r, c⟩ := setPausedCalls_atRest (Start cfg).sh vs (start_atRest cfg)
    refine ⟨sh, e, r.1, r.2.2.1, c, fun _ => ?_⟩
    obtain ⟨sh1, e1, r1, c1, p1⟩ := setPausedCall_atRest sh false r
    exact ⟨sh1, e1, r1.1, p1, r1.2.2.1, c1⟩
  · intro l s1 hl hst
    obtain ⟨hp, ht⟩ := step_trans hst
    rcases hl with rfl | rfl | ⟨j, rfl⟩
    · cases ht
      exact ⟨hp, ⟨rfl, rfl, rfl, rfl, rfl⟩, rfl⟩
    · cases ht
      exact ⟨hp, ⟨rfl, rfl, rfl, rfl, rfl⟩, rfl⟩
    · cases ht with
      | ctl _ c c1 sh1 hc h =>
        obtain ⟨f1, -, -, -, -, -, -, f8, f9, f10, f11⟩ := h.cframe
        refine ⟨?_, ⟨f9, f10, f11, f8, f1⟩, rfl⟩
        cases h with
        | crash hg =>
          have := gate_open_at_close hr hc
          rw [this] at hg
          cases hg
        | _ => exact hp
  · intro s1 hst
    obtain ⟨hp, ht⟩ := step_trans hst
    cases ht
    rfl
  · intro hc
    have hI := pause_inv hr
    have hz : (s.ctls.map CtlPc.atMake).sum = 0 :=
      sum_map_zero _ _ (fun c hm => by
        have := hc c hm
        cases c <;> simp_all [CtlPc.crit, CtlPc.atMake])
    have := hI.making
    rw [hz] at this
    cases hg : gateClosed s.sh.gates s.sh.pc.ch with
    | false => rfl
    | true =>
      rw [hg] at this
      simp at this

set_option maxRecDepth 100000 in
/-- Witness of C7: the calls resume, pause, resume, resume from
`NewPauseController()`, and the state `sGate` of a run with two blocked
workers and a `SetPaused(false)` call before its `Unlock`. -/
theorem C7_witness :
    Reachable cfgTwo sGate ∧
    (SetPausedCalls (Start cfgTwo).sh [false, true, false, false]).isSome = true ∧
    ((∃ sh, SetPausedCalls (Start cfgTwo).sh [false, true, false, false] = some sh ∧
        sh.panicked = false ∧ gateClosed sh.gates sh.pc.ch = false ∧
        SameCounters (Start cfgTwo).sh sh ∧
        (sh.pc.paused = 0 → ∃ sh1, SetPausedCall sh false = some sh1 ∧
          sh1.panicked = false ∧ sh1.pc.paused = 0 ∧
          gateClosed sh1.gates sh1.pc.ch = false ∧ SameCounters sh sh1)) ∧
      (∀ l s1, (l = .setPaused true ∨ l = .setPaused false ∨ ∃ j, l = .ctl j) →
        step cfgTwo sGate l = some s1 →
        s1.sh.panicked = false ∧ SameCounters sGate.sh s1.sh ∧ s1.workers = sGate.workers) ∧
      (∀ s1, step cfgTwo sGate (.setPaused false) = some s1 → s1.sh.pc.paused = 0) ∧
      ((∀ c ∈ sGate.ctls, c.crit = 0) → gateClosed sGate.sh.gates sGate.sh.pc.ch = false)) :=
  ⟨runOf_reachable _ _ (by decide), by decide,
    C7_resume_idempotent_no_panic cfgTwo [false, true, false, false] sGate
      (runOf_reachable _ _ (by decide))⟩

/-! ## What a paused run still sends -/

theorem matchCountOf_append (out : List Event) (e : Event) :
    matchCountOf (out ++ [e]) = matchCountOf out + (if e.isMatch then 1 else 0) := by
  unfold matchCountOf
  rw [List.filter_append, List.length_append]
  congr 1
  simp only [List.filter]
  split <;> simp_all

theorem reports_length_append (out : List Event) (e : Event) :
    (reports (out ++ [e])).length = (reports out).length + (if e.isReport then 1 else 0) := by
  unfold reports
  rw [List.filter_append, List.length_append]
  congr 1
  simp only [List.filter]
  split <;> simp_all

theorem passes_le (gates : List Bool) (w : WaitPc) : w.passes gates ≤ 1 := by
  cases w <;> simp [WaitPc.passes, Bool.toNat_le]

theorem creditMatch_le (gates : List Bool) (w : WorkerPc) : w.creditMatch gates ≤ 1 := by
  unfold WorkerPc.creditMatch
  split <;> first | exact passes_le _ _ | omega

theorem creditReport_le (gates : List Bool) (w : WorkerPc) : w.creditReport gates ≤ 1 := by
  unfold WorkerPc.creditReport
  split <;> first | exact passes_le _ _ | omega

theorem sum_map_le_length {α : Type} (f : α → Nat) (l : List α) (h : ∀ a, f a ≤ 1) :
    (l.map f).sum ≤ l.length := by
  induction l with
  | nil => simp
  | cons x xs ih =>
    simp only [List.map_cons, List.sum_cons, List.length_cons]
    have := h x
    omega

theorem creditMatch_afterWait (gates : List Bool) (re : String → Bool) (path : String)
    (l : ScanLocals) (txt : String) :
    (WorkerPc.scanning path (afterWait re l txt)).creditMatch gates ≤ 1 :=
  creditMatch_le _ _

theorem creditReport_afterWait (gates : List Bool) (re : String → Bool) (path : String)
    (l : ScanLocals) (txt : String) :
    (WorkerPc.scanning path (afterWait re l txt)).creditReport gates = 1 := by
  unfold afterWait
  simp only
  split <;> rfl

/-- While the flag is set and `p.ch` is open, a worker step does not raise the
number of events sent plus the events the worker can still send. -/
theorem WorkerTrans.wcredit {cfg : Config} {sh sh1 : Shared} {w w1 : WorkerPc}
    (h : WorkerTrans cfg sh w sh1 w1) (hpaused : sh.pc.paused ≠ 0)
    (hopen : gateClosed sh.gates sh.pc.ch = false) :
    matchCountOf sh1.out + w1.creditMatch sh.gates ≤
      matchCountOf sh.out + w.creditMatch sh.gates ∧
    (reports sh1.out).length + w1.creditReport sh.gates ≤
      (reports sh.out).length + w.creditReport sh.gates := by
  cases h with
  | exit hj => exact ⟨le_refl _, le_refl _⟩
  | waitJob sh1 path w w1 h =>
    cases h <;> simp [WorkerPc.creditMatch, WorkerPc.creditReport, WaitPc.passes, hopen]
  | startScan sh1 path w h =>
    cases h with
    | running h0 => exact (hpaused h0).elim
    | recv ch hg => simp [WorkerPc.creditMatch, WorkerPc.creditReport, WaitPc.passes, hg]
  | openErr path p e hfs => simp [WorkerPc.creditMatch, WorkerPc.creditReport]
  | openOk path p fd hfs => simp [WorkerPc.creditMatch, WorkerPc.creditReport]
  | scanNext path l txt rest hl =>
    simp [WorkerPc.creditMatch, WorkerPc.creditReport, WaitPc.passes]
  | scanEnd path l hl => simp [WorkerPc.creditMatch, WorkerPc.creditReport]
  | waitLine sh1 path l txt w w1 h =>
    cases h <;> simp [WorkerPc.creditMatch, WorkerPc.creditReport, WaitPc.passes, hopen]
  | lineDone sh1 path l txt w h =>
    cases h with
    | running h0 => exact (hpaused h0).elim
    | recv ch hg =>
      have h1 := creditMatch_afterWait sh.gates cfg.re path l txt
      have h2 := creditReport_afterWait sh.gates cfg.re path l txt
      have e1 : (WorkerPc.scanning path (.wait l txt (.recv ch))).creditMatch sh.gates = 1 := by
        simp [WorkerPc.creditMatch, WaitPc.passes, hg]
      have e2 : (WorkerPc.scanning path (.wait l txt (.recv ch))).creditReport sh.gates = 1 := by
        simp [WorkerPc.creditReport, WaitPc.passes, hg]
      rw [e1, e2]
      constructor <;> omega
  | addSeq path l txt => simp [WorkerPc.creditMatch, WorkerPc.creditReport]
  | sendMatch sh1 path l txt id h =>
    cases h <;>
      simp [WorkerPc.creditMatch, WorkerPc.creditReport, matchCountOf_append,
        reports_length_append, Event.isMatch, Event.isReport]
  | sendFail sh1 path lines matched e h =>
    cases h <;>
      simp [WorkerPc.creditMatch, WorkerPc.creditReport, matchCountOf_append,
        reports_length_append, Event.isMatch, Event.isReport]
  | sendDone sh1 path lines matched h =>
    cases h <;>
      simp [WorkerPc.creditMatch, WorkerPc.creditReport, matchCountOf_append,
        reports_length_append, Event.isMatch, Event.isReport]
  | addLines lines matched => simp [WorkerPc.creditMatch, WorkerPc.creditReport]
  | addMatches matched => simp [WorkerPc.creditMatch, WorkerPc.creditReport]
  | addFilesDone => simp [WorkerPc.creditMatch, WorkerPc.creditReport]

theorem credits_replicate (g : WorkerPc → Nat) (hg : g .recvJob = 0) (n : Nat) :
    (List.map g (List.replicate n WorkerPc.recvJob)).sum = 0 :=
  sum_map_zero _ _ (fun a ha => by rw [List.eq_of_mem_replicate ha]; exact hg)

/-- While a run is paused and nobody calls `pauseFn(false)`, a step keeps it
paused, leaves the gates alone and does not raise the number of events sent
plus the events the workers can still send. -/
theorem paused_step {cfg : Config} {s s1 : State} {l : Label} (hr : Reachable cfg s)
    (hP : PausedOn s) (hl : l ≠ .setPaused false) (hst : step cfg s l = some s1) :
    PausedOn s1 ∧
    matchCountOf s1.sh.out + creditsMatch s1 ≤ matchCountOf s.sh.out + creditsMatch s ∧
    (reports s1.sh.out).length + creditsReport s1 ≤
      (reports s.sh.out).length + creditsReport s := by
  obtain ⟨hp, ht⟩ := step_trans hst
  obtain ⟨hflag, hidle⟩ := hP
  have hopen : gateClosed s.sh.gates s.sh.pc.ch = false := by
    have hI := pause_inv hr
    have hz : (s.ctls.map CtlPc.atMake).sum = 0 :=
      sum_map_zero _ _ (fun c hm => by rw [hidle c hm]; rfl)
    have := hI.making
    rw [hz] at this
    cases hg : gateClosed s.sh.gates s.sh.pc.ch with
    | false => rfl
    | true =>
      rw [hg] at this
      simp at this
  cases ht with
  | worker i w w1 sh1 hw h =>
    obtain ⟨g1, g2, g3, -, -⟩ := h.wpause
    obtain ⟨c1, c2⟩ := h.wcredit (by rw [hflag]; decide) hopen
    have m1 := sum_map_set (WorkerPc.creditMatch s.sh.gates) s.workers i w w1 hw
    have m2 := sum_map_set (WorkerPc.creditReport s.sh.gates) s.workers i w w1 hw
    refine ⟨⟨g3.trans hflag, hidle⟩, ?_, ?_⟩
    · show matchCountOf sh1.out + (List.map (WorkerPc.creditMatch sh1.gates)
        (s.workers.set i w1)).sum ≤ matchCountOf s.sh.out +
          (List.map (WorkerPc.creditMatch s.sh.gates) s.workers).sum
      rw [g1]
      omega
    · show (reports sh1.out).length + (List.map (WorkerPc.creditReport sh1.gates)
        (s.workers.set i w1)).sum ≤ (reports s.sh.out).length +
          (List.map (WorkerPc.creditReport s.sh.gates) s.workers).sum
      rw [g1]
      omega
  | handoff i f rest h hw hj =>
    have m1 := sum_map_set (WorkerPc.creditMatch s.sh.gates) s.workers i _
      (.waitJob f .load) hw
    have m2 := sum_map_set (WorkerPc.creditReport s.sh.gates) s.workers i _
      (.waitJob f .load) hw
    have e1 : WorkerPc.creditMatch s.sh.gates .recvJob = 0 := rfl
    have e2 : WorkerPc.creditMatch s.sh.gates (.waitJob f .load) = 0 := rfl
    have e3 : WorkerPc.creditReport s.sh.gates .recvJob = 0 := rfl
    have e4 : WorkerPc.creditReport s.sh.gates (.waitJob f .load) = 0 := rfl
    rw [e1, e2] at m1
    rw [e3, e4] at m2
    refine ⟨⟨hflag, hidle⟩, ?_, ?_⟩
    · show matchCountOf s.sh.out + (List.map (WorkerPc.creditMatch s.sh.gates)
        (s.workers.set i (.waitJob f .load))).sum ≤ matchCountOf s.sh.out +
          (List.map (WorkerPc.creditMatch s.sh.gates) s.workers).sum
      omega
    · show (reports s.sh.out).length + (List.map (WorkerPc.creditReport s.sh.gates)
        (s.workers.set i (.waitJob f .load))).sum ≤ (reports s.sh.out).length +
          (List.map (WorkerPc.creditReport s.sh.gates) s.workers).sum
      omega
  | ctl j c c1 sh1 hc h =>
    rw [hidle c (mem_of_getElem? hc)] at h
    cases h
  | start sh1 h hs =>
    cases hs with
    | crash => exact ⟨⟨hflag, hidle⟩, le_refl _, le_refl _⟩
    | ok =>
      refine ⟨⟨hflag, hidle⟩, ?_, ?_⟩
      · show matchCountOf (s.sh.out ++ [initialTotals cfg]) + creditsMatch s ≤ _
        rw [matchCountOf_append]
        simp [initialTotals, Event.isMatch]
      · show (reports (s.sh.out ++ [initialTotals cfg])).length + creditsReport s ≤ _
        rw [reports_length_append]
        simp [initialTotals, Event.isReport]
  | sendTotals term fd lt mt sh1 h hs =>
    cases hs with
    | crash => exact ⟨⟨hflag, hidle⟩, le_refl _, le_refl _⟩
    | ok =>
      refine ⟨⟨hflag, hidle⟩, ?_, ?_⟩
      · show matchCountOf (s.sh.out ++ [.totals (mkTotals cfg term fd lt mt)]) +
          creditsMatch s ≤ _
        rw [matchCountOf_append]
        simp [Event.isMatch]
      · show (reports (s.sh.out ++ [.totals (mkTotals cfg term fd lt mt)])).length +
          creditsReport s ≤ _
        rw [reports_length_append]
        simp [Event.isReport]
  | announce f rest sh1 h hs =>
    cases hs with
    | crash => exact ⟨⟨hflag, hidle⟩, le_refl _, le_refl _⟩
    | ok =>
      refine ⟨⟨hflag, hidle⟩, ?_, ?_⟩
      · show matchCountOf (s.sh.out ++ [queuedUpdate f]) + creditsMatch s ≤ _
        rw [matchCountOf_append]
        simp [queuedUpdate, Event.isMatch]
      · show (reports (s.sh.out ++ [queuedUpdate f])).length + creditsReport s ≤ _
        rw [reports_length_append]
        simp [queuedUpdate, Event.isReport]
  | spawn h hc =>
    have z1 := credits_replicate (WorkerPc.creditMatch s.sh.gates) rfl cfg.concurrent.toNat
    have z2 := credits_replicate (WorkerPc.creditReport s.sh.gates) rfl cfg.concurrent.toNat
    refine ⟨⟨hflag, hidle⟩, ?_, ?_⟩
    · show matchCountOf s.sh.out + (List.map (WorkerPc.creditMatch s.sh.gates)
        (List.replicate cfg.concurrent.toNat .recvJob)).sum ≤ _
      rw [z1]
      omega
    · show (reports s.sh.out).length + (List.map (WorkerPc.creditReport s.sh.gates)
        (List.replicate cfg.concurrent.toNat .recvJob)).sum ≤ _
      rw [z2]
      omega
  | pause => exact ⟨⟨rfl, hidle⟩, le_refl _, le_refl _⟩
  | resume => exact (hl rfl).elim
  | _ => exact ⟨⟨hflag, hidle⟩, le_refl _, le_refl _⟩

/-- The same, for a whole schedule without a call of `pauseFn(false)`. -/
theorem paused_exec {cfg : Config} {s s1 : State} {ls : List Label} (hr : Reachable cfg s)
    (hP : PausedOn s) (hl : ∀ l ∈ ls, l ≠ .setPaused false) (hex : exec cfg s ls = some s1) :
    PausedOn s1 ∧
    matchCountOf s1.sh.out + creditsMatch s1 ≤ matchCountOf s.sh.out + creditsMatch s ∧
    (reports s1.sh.out).length + creditsReport s1 ≤
      (reports s.sh.out).length + creditsReport s := by
  induction ls generalizing s with
  | nil =>
    simp [exec] at hex
    subst hex
    exact ⟨hP, le_refl _, le_refl _⟩
  | cons l ls ih =>
    simp only [exec] at hex
    cases hst : step cfg s l with
    | none => simp [hst] at hex
    | some s2 =>
      simp only [hst] at hex
      obtain ⟨p1, a1, b1⟩ := paused_step hr hP (hl l (List.mem_cons_self _ _)) hst
      obtain ⟨p2, a2, b2⟩ := ih (reachable_step hr hst) p1
        (fun x hx => hl x (List.mem_cons_of_mem _ hx)) hex
      exact ⟨p2, by omega, by omega⟩

/-- C8, amended: from a reachable state in which the paused flag is set and no
`SetPaused` call is in progress (a call `pauseFn(true)` has returned), along
any schedule without a call of `pauseFn(false)`, the run stays paused and the
`MatchLine` events sent are at most as many as the workers that were past the
pause check of a line, the DONE and FAIL events at most as many as the workers
that were past the pause check of a job or line: at most one event of each
kind for a worker. -/
theorem C8_paused_run_sends_at_most_one_each (cfg : Config) (s : State)
    (hr : Reachable cfg s) (hflag : s.sh.pc.paused = 1)
    (hidle : ∀ c ∈ s.ctls, c = .returned) (ls : List Label)
    (hl : ∀ l ∈ ls, l ≠ .setPaused false) (s1 : State) (hex : exec cfg s ls = some s1) :
    s1.sh.pc.paused = 1 ∧
    matchCountOf s1.sh.out ≤ matchCountOf s.sh.out + creditsMatch s ∧
    (reports s1.sh.out).length ≤ (reports s.sh.out).length + creditsReport s ∧
    creditsMatch s ≤ s.workers.length ∧ creditsReport s ≤ s.workers.length := by
  obtain ⟨p, a, b⟩ := paused_exec hr ⟨hflag, hidle⟩ hl hex
  exact ⟨p.flag, by omega, by omega,
    sum_map_le_length _ _ (creditMatch_le _), sum_map_le_length _ _ (creditReport_le _)⟩

theorem exec_getD (cfg : Config) (s : State) (ls : List Label)
    (h : (exec cfg s ls).isSome = true) : exec cfg s ls = some ((exec cfg s ls).getD s) := by
  cases hx : exec cfg s ls with
  | none => simp [hx] at h
  | some s1 => rfl

set_option maxRecDepth 100000 in
/-- Counterexample to C8 as stated: in the state `sPaused` the call
`pauseFn(true)` has returned, no `SetPaused` call is in progress and the
buffer of `out` is empty; without any call of `pauseFn(false)` the worker then
sends a new `MatchLine` and a new DONE `FileUpdate`. -/
theorem C8_counterexample :
    Reachable cfgHit sPaused ∧ sPaused.sh.pc.paused = 1 ∧ sPaused.ctls = [] ∧
    sPaused.sh.outRecv = sPaused.sh.out.length ∧
    exec cfgHit sPaused schedAfterPause = some sAfterPause ∧
    sAfterPause.sh.pc.paused = 1 ∧
    sAfterPause.sh.out = sPaused.sh.out ++
      [.matchLine { Seq := 1, File := "a.log", Line := "hit" },
       .fileUpdate { File := "a.log", Lines := 1, Matches := 1, Status := "DONE",
                     Err := none }] :=
  ⟨runOf_reachable _ _ (by decide), by decide, by decide, by decide,
    exec_getD _ _ _ (by decide), by decide, by decide⟩

set_option maxRecDepth 100000 in
/-- Witness of C8 as amended, at the state `sPaused` and the schedule
`schedAfterPause`: one worker, which sends one `MatchLine` and one DONE
`FileUpdate`. -/
theorem C8_witness :
    Reachable cfgHit sPaused ∧ sPaused.sh.pc.paused = 1 ∧
    (∀ c ∈ sPaused.ctls, c = .returned) ∧
    (∀ l ∈ schedAfterPause, l ≠ .setPaused false) ∧
    exec cfgHit sPaused schedAfterPause = some sAfterPause ∧
    creditsMatch sPaused = 1 ∧ creditsReport sPaused = 1 ∧
    (sAfterPause.sh.pc.paused = 1 ∧
      matchCountOf sAfterPause.sh.out ≤ matchCountOf sPaused.sh.out + creditsMatch sPaused ∧
      (reports sAfterPause.sh.out).length ≤
        (reports sPaused.sh.out).length + creditsReport sPaused ∧
      creditsMatch sPaused ≤ sPaused.workers.length ∧
      creditsReport sPaused ≤ sPaused.workers.length) :=
  ⟨runOf_reachable _ _ (by decide), by decide, by decide, by decide,
    exec_getD _ _ _ (by decide), by decide, by decide,
    C8_paused_run_sends_at_most_one_each cfgHit sPaused (runOf_reachable _ _ (by decide))
      (by decide) (by decide) schedAfterPause (by decide) sAfterPause
      (exec_getD _ _ _ (by decide))⟩

/-! ## The work a run has left -/

theorem cost_afterWait (cfg : Config) (l : ScanLocals) (txt : String) :
    (afterWait cfg.re l txt).cost cfg ≤ 10 * l.rest.length + 11 := by
  unfold afterWait
  simp only
  split <;> simp [ScanPc.cost]

/-- A worker that holds a job, or finds `jobs` closed, can take a step when no
pause is in the way and `out` has room; the step brings it nearer to its exit. -/
theorem worker_progress (cfg : Config) (sh : Shared) (w : WorkerPc)
    (hflag : sh.pc.paused = 0) (hroom : sh.out.length - sh.outRecv = 0)
    (hopen : sh.outClosed = false)
    (hw : ∀ p, w.waitPc = some p →
      p = .load ∨ ∃ ch, p = .recv ch ∧ gateClosed sh.gates ch = true)
    (hbusy : w ≠ .exited) (hjob : w = .recvJob → sh.jobsClosed = true) :
    ∃ sh1 w1, workerStep cfg sh w = some (sh1, w1) ∧
      w1.cost cfg + (sh1.out.length - sh1.outRecv) <
        w.cost cfg + (sh.out.length - sh.outRecv) ∧
      sh1.pc = sh.pc ∧ sh1.gates = sh.gates ∧ sh1.outClosed = false ∧
      (∀ p, w1.waitPc = some p → p = .load) := by
  have hlt : sh.out.length - sh.outRecv < 256 := by omega
  cases w with
  | recvJob =>
    refine ⟨{ sh with wg := sh.wg - 1 }, .exited, ?_, ?_, rfl, rfl, hopen, ?_⟩
    · simp [workerStep, hjob rfl]
    · simp only [WorkerPc.cost]
      omega
    · intro p hp
      simp [WorkerPc.waitPc] at hp
  | waitJob path wp =>
    refine ⟨sh, .scanning path (.openFile path), ?_, ?_, rfl, rfl, hopen, ?_⟩
    · rcases hw wp rfl with rfl | ⟨ch, rfl, hg⟩
      · simp [workerStep, WaitIfPaused, hflag]
      · simp [workerStep, WaitIfPaused, hg]
    · simp only [WorkerPc.cost]
      omega
    · intro p hp
      simp [WorkerPc.waitPc] at hp
  | scanning path p =>
    cases p with
    | openFile f =>
      cases hfs : cfg.fs f with
      | error e =>
        refine ⟨sh, .scanning path (.ret 0 0 (some e)), ?_, ?_, rfl, rfl, hopen, ?_⟩
        · simp [workerStep, scanFileOnce, hfs]
        · simp only [WorkerPc.cost, ScanPc.cost, hfs]
          omega
        · intro p hp
          simp [WorkerPc.waitPc] at hp
      | ok fd =>
        refine ⟨sh, .scanning path (.scan { path := f, rest := fd.lines, rerr := fd.readErr,
                                              lines := 0, matched := 0 }), ?_, ?_, rfl, rfl,
          hopen, ?_⟩
        · simp [workerStep, scanFileOnce, hfs]
        · simp only [WorkerPc.cost, ScanPc.cost, hfs]
          omega
        · intro p hp
          simp [WorkerPc.waitPc] at hp
    | scan l =>
      cases hrest : l.rest with
      | nil =>
        refine ⟨sh, .scanning path (.ret l.lines l.matched l.rerr), ?_, ?_, rfl, rfl, hopen, ?_⟩
        · simp [workerStep, scanFileOnce, hrest]
        · simp only [WorkerPc.cost, ScanPc.cost, hrest]
          omega
        · intro p hp
          simp [WorkerPc.waitPc] at hp
      | cons txt rest =>
        refine ⟨sh, .scanning path (.wait { l with rest := rest } txt .load), ?_, ?_, rfl, rfl,
          hopen, ?_⟩
        · simp [workerStep, scanFileOnce, hrest]
        · simp only [WorkerPc.cost, ScanPc.cost, hrest, List.length_cons]
          omega
        · intro p hp
          simp only [WorkerPc.waitPc, Option.some.injEq] at hp
          exact hp.symm
    | wait l txt wp =>
      refine ⟨sh, .scanning path (afterWait cfg.re l txt), ?_, ?_, rfl, rfl, hopen, ?_⟩
      · rcases hw wp rfl with rfl | ⟨ch, rfl, hg⟩
        · simp [workerStep, scanFileOnce, WaitIfPaused, hflag]
        · simp [workerStep, scanFileOnce, WaitIfPaused, hg]
      · have := cost_afterWait cfg l txt
        show (afterWait cfg.re l txt).cost cfg + _ < (10 * l.rest.length + 12) + _
        omega
      · intro p hp
        rw [crit_afterWait] at hp
        cases hp
    | addSeq l txt =>
      refine ⟨{ sh with seq := wrapUint64 (sh.seq + 1) },
        .scanning path (.send l txt (wrapUint64 (sh.seq + 1))), ?_, ?_, rfl, rfl, hopen, ?_⟩
      · simp [workerStep, scanFileOnce]
      · simp only [WorkerPc.cost, ScanPc.cost]
        omega
      · intro p hp
        simp [WorkerPc.waitPc] at hp
    | send l txt id =>
      refine ⟨{ sh with out := sh.out ++ [.matchLine { Seq := id, File := l.path, Line := txt }] },
        .scanning path (.scan l), ?_, ?_, rfl, rfl, hopen, ?_⟩
      · simp [workerStep, scanFileOnce, sendOut, hopen, hlt]
      · simp only [WorkerPc.cost, ScanPc.cost, List.length_append, List.length_singleton]
        omega
      · intro p hp
        simp [WorkerPc.waitPc] at hp
    | ret lines matched err =>
      cases err with
      | some e =>
        refine ⟨{ sh with out := sh.out ++ [.fileUpdate
                    { File := path, Lines := lines, Matches := matched, Status := "FAIL",
                      Err := some e }] },
          .addFilesDone, ?_, ?_, rfl, rfl, hopen, ?_⟩
        · simp [workerStep, sendOut, hopen, hlt]
        · simp only [WorkerPc.cost, ScanPc.cost, List.length_append, List.length_singleton]
          omega
        · intro p hp
          simp [WorkerPc.waitPc] at hp
      | none =>
        refine ⟨{ sh with out := sh.out ++ [.fileUpdate
                    { File := path, Lines := lines, Matches := matched, Status := "DONE",
                      Err := none }] },
          .addLines lines matched, ?_, ?_, rfl, rfl, hopen, ?_⟩
        · simp [workerStep, sendOut, hopen, hlt]
        · simp only [WorkerPc.cost, ScanPc.cost, List.length_append, List.length_singleton]
          omega
        · intro p hp
          simp [WorkerPc.waitPc] at hp
  | addLines lines matched =>
    refine ⟨{ sh with linesTotal := wrapInt64 (sh.linesTotal + lines) }, .addMatches matched,
      rfl, ?_, rfl, rfl, hopen, ?_⟩
    · simp only [WorkerPc.cost]
      omega
    · intro p hp
      simp [WorkerPc.waitPc] at hp
  | addMatches matched =>
    refine ⟨{ sh with matchesTotal := wrapInt64 (sh.matchesTotal + matched) }, .addFilesDone,
      rfl, ?_, rfl, rfl, hopen, ?_⟩
    · simp only [WorkerPc.cost]
      omega
    · intro p hp
      simp [WorkerPc.waitPc] at hp
  | addFilesDone =>
    refine ⟨{ sh with filesDone := wrapInt64 (sh.filesDone + 1) }, .recvJob,
      rfl, ?_, rfl, rfl, hopen, ?_⟩
    · simp only [WorkerPc.cost]
      omega
    · intro p hp
      simp [WorkerPc.waitPc] at hp
  | exited => exact absurd rfl hbusy

theorem exists_getElem?_of_mem {α : Type} {l : List α} {a : α} (h : a ∈ l) :
    ∃ i : Nat, l[i]? = some a := by
  obtain ⟨i, hi, e⟩ := List.getElem_of_mem h
  exact ⟨i, List.getElem?_eq_some.2 ⟨hi, e⟩⟩

/-- A worker step of a settled state that has room in `out`. -/
theorem settled_worker_step {cfg : Config} {s : State} (hp : s.sh.panicked = false)
    (hS : Settled s) (hopen : s.sh.outClosed = false)
    (hroom : s.sh.out.length - s.sh.outRecv = 0) {i : Nat} {w : WorkerPc}
    (hi : s.workers[i]? = some w) (hbusy : w ≠ .exited)
    (hjob : w = .recvJob → s.sh.jobsClosed = true) :
    ∃ l s1, step cfg s l = some s1 ∧ Settled s1 ∧ workLeft cfg s1 < workLeft cfg s := by
  obtain ⟨sh1, w1, hst, hcost, hpc, hg, -, hwait⟩ :=
    worker_progress cfg s.sh w hS.flag hroom hopen (hS.waits w (mem_of_getElem? hi)) hbusy hjob
  refine ⟨.worker i, { s with sh := sh1, workers := s.workers.set i w1 }, ?_, ⟨?_, hS.calls, ?_⟩,
    ?_⟩
  · simp [step, hp, hi, hst]
  · show sh1.pc.paused = 0
    rw [hpc]
    exact hS.flag
  · intro w2 hw2 q hq
    show q = .load ∨ ∃ ch, q = .recv ch ∧ gateClosed sh1.gates ch = true
    rcases List.mem_or_eq_of_mem_set hw2 with h | rfl
    · rw [hg]
      exact hS.waits w2 h q hq
    · exact Or.inl (hwait q hq)
  · have := sum_map_set (WorkerPc.cost cfg) s.workers i w w1 hi
    show (sh1.out.length - sh1.outRecv) + s.main.cost cfg + s.disp.cost cfg + s.join.cost +
        ((s.workers.set i w1).map (WorkerPc.cost cfg)).sum <
      (s.sh.out.length - s.sh.outRecv) + s.main.cost cfg + s.disp.cost cfg + s.join.cost +
        (s.workers.map (WorkerPc.cost cfg)).sum
    omega

/-- A step of the goroutine that owns `out`, away from its `select`, in a
state that has room in `out`. -/
theorem settled_main_step {cfg : Config} (hc : 0 ≤ cfg.concurrent) {s : State}
    (hp : s.sh.panicked = false) (hC : Ctrl cfg s)
    (hS : Settled s) (hopen : s.sh.outClosed = false)
    (hroom : s.sh.out.length - s.sh.outRecv = 0) (hm : s.main ≠ .select) :
    ∃ l s1, step cfg s l = some s1 ∧ Settled s1 ∧ workLeft cfg s1 < workLeft cfg s := by
  have hlt : s.sh.out.length - s.sh.outRecv < 256 := by omega
  obtain ⟨sh, main, disp, join, workers, ctls⟩ := s
  obtain ⟨hflag, hcalls, hwaits⟩ := hS
  simp only at hp hopen hroom hlt hm hflag hcalls hwaits
  unfold Ctrl at hC
  simp only at hC
  cases main with
  | start =>
    obtain ⟨rfl, rfl, rfl, -, -⟩ := hC.pre rfl
    refine ⟨.main, ⟨{ sh with out := sh.out ++ [.totals
        { FilesTotal := cfg.files.length, FilesDone := 0, LinesTotal := 0, MatchesTotal := 0,
          Done := false, Err := none }] }, .spawn, .idle, .idle, [], ctls⟩, ?_,
      ⟨hflag, hcalls, hwaits⟩, ?_⟩
    · simp [step, hp, mainStep, sendOut, hopen, hlt]
    · simp only [workLeft, MainPc.cost, List.length_append, List.length_singleton]
      omega
  | spawn =>
    obtain ⟨rfl, rfl, rfl, -, -⟩ := hC.pre rfl
    refine ⟨.main, ⟨{ sh with wg := cfg.concurrent }, .select, .loop cfg.files, .waiting,
      List.replicate cfg.concurrent.toNat .recvJob, ctls⟩, ?_, ⟨hflag, hcalls, ?_⟩, ?_⟩
    · have : ¬ cfg.concurrent < 0 := by omega
      simp [step, hp, mainStep, this]
    · intro w hw q hq
      rw [List.eq_of_mem_replicate hw] at hq
      simp [WorkerPc.waitPc] at hq
    · simp only [workLeft, MainPc.cost, DispPc.cost, JoinPc.cost, List.map_replicate,
        List.sum_replicate, WorkerPc.cost, List.map_nil, List.sum_nil, smul_eq_mul]
      omega
  | select => exact absurd rfl hm
  | loadFilesDone term =>
    refine ⟨.main, ⟨sh, .loadLinesTotal term sh.filesDone, disp, join, workers, ctls⟩, ?_,
      ⟨hflag, hcalls, hwaits⟩, ?_⟩
    · simp [step, hp, mainStep]
    · cases term <;> simp [workLeft, MainPc.cost]
  | loadLinesTotal term fd =>
    refine ⟨.main, ⟨sh, .loadMatchesTotal term fd sh.linesTotal, disp, join, workers, ctls⟩, ?_,
      ⟨hflag, hcalls, hwaits⟩, ?_⟩
    · simp [step, hp, mainStep]
    · cases term <;> simp [workLeft, MainPc.cost]
  | loadMatchesTotal term fd lt =>
    refine ⟨.main, ⟨sh, .send term fd lt sh.matchesTotal, disp, join, workers, ctls⟩, ?_,
      ⟨hflag, hcalls, hwaits⟩, ?_⟩
    · simp [step, hp, mainStep]
    · cases term <;> simp [workLeft, MainPc.cost]
  | send term fd lt mt =>
    refine ⟨.main, ⟨{ sh with out := sh.out ++ [.totals (mkTotals cfg term fd lt mt)] },
      if term then .close else .select, disp, join, workers, ctls⟩, ?_,
      ⟨hflag, hcalls, hwaits⟩, ?_⟩
    · simp [step, hp, mainStep, sendOut, hopen, hlt]
    · cases term <;>
        simp only [workLeft, MainPc.cost, List.length_append, List.length_singleton,
          if_true, if_false, Bool.false_eq_true] <;> omega
  | close =>
    refine ⟨.main, ⟨{ sh with outClosed := true }, .finished, disp, join, workers, ctls⟩, ?_,
      ⟨hflag, hcalls, hwaits⟩, ?_⟩
    · simp [step, hp, mainStep, hopen]
    · simp [workLeft, MainPc.cost]
  | finished =>
    have := hC.closed.2 rfl
    rw [hopen] at this
    cases this

/-- A settled state of a run with at least one worker, with `out` still open,
has a step that keeps it settled and leaves less work. -/
theorem settled_progress {cfg : Config} (hc1 : 1 ≤ cfg.concurrent) {s : State}
    (hr : Reachable cfg s) (hS : Settled s) (hopen : s.sh.outClosed = false) :
    ∃ l s1, step cfg s l = some s1 ∧ Settled s1 ∧ workLeft cfg s1 < workLeft cfg s := by
  have hp := no_panic hc1 hr
  have hC := ctrl_inv hr hp
  by_cases hcons : s.sh.outRecv < s.sh.out.length
  · refine ⟨.consume, { s with sh := { s.sh with outRecv := s.sh.outRecv + 1 } }, ?_,
      ⟨hS.flag, hS.calls, hS.waits⟩, ?_⟩
    · simp [step, hp, hcons]
    · simp only [workLeft]
      omega
  have hroom : s.sh.out.length - s.sh.outRecv = 0 := by omega
  by_cases hm : s.main = .select
  swap
  · exact settled_main_step (by omega) hp hC hS hopen hroom hm
  by_cases hbusy : ∃ (i : Nat) (w : WorkerPc), s.workers[i]? = some w ∧ w ≠ .exited ∧
      (w = .recvJob → s.sh.jobsClosed = true)
  · obtain ⟨i, w, hi, hw1, hw2⟩ := hbusy
    exact settled_worker_step hp hS hopen hroom hi hw1 hw2
  have hidle : ∀ w ∈ s.workers, w ≠ .exited → w = .recvJob ∧ s.sh.jobsClosed = false := by
    intro w hw hne
    obtain ⟨i, hi⟩ := exists_getElem?_of_mem hw
    by_contra hcon
    apply hbusy
    refine ⟨i, w, hi, hne, fun hrec => ?_⟩
    cases hj : s.sh.jobsClosed with
    | true => rfl
    | false => exact absurd ⟨hrec, hj⟩ hcon
  have hlt : s.sh.out.length - s.sh.outRecv < 256 := by omega
  obtain ⟨sh, main, disp, join, workers, ctls⟩ := s
  obtain ⟨hflag, hcalls, hwaits⟩ := hS
  simp only at hp hopen hroom hlt hm hflag hcalls hwaits hidle
  subst hm
  unfold Ctrl at hC
  simp only at hC
  obtain ⟨-, hlen, hdisp, hjoin⟩ := hC.post rfl
  cases disp with
  | idle => exact absurd rfl hdisp
  | loop rest =>
    cases rest with
    | nil =>
      refine ⟨.disp, ⟨{ sh with jobsClosed := true }, .select, .finished, join, workers, ctls⟩,
        ?_, ⟨hflag, hcalls, hwaits⟩, ?_⟩
      · simp [step, hp, dispStep]
      · simp [workLeft, DispPc.cost, jobsCost]
    | cons f rest =>
      refine ⟨.disp, ⟨{ sh with out := sh.out ++ [.fileUpdate
          { File := f, Lines := 0, Matches := 0, Status := "WAIT", Err := none }] }, .select,
          .sendJob f rest, join, workers, ctls⟩, ?_, ⟨hflag, hcalls, hwaits⟩, ?_⟩
      · simp [step, hp, dispStep, sendOut, hopen, hlt]
      · simp only [workLeft, DispPc.cost, jobsCost, List.map_cons, List.sum_cons,
          List.length_append, List.length_singleton]
        omega
  | sendJob f rest =>
    have hjc : sh.jobsClosed = false := by
      cases hj : sh.jobsClosed with
      | false => rfl
      | true => exact absurd (hC.jobs.1 hj) (by simp)
    cases workers with
    | nil =>
      simp only [List.length_nil] at hlen
      omega
    | cons w0 ws =>
      have hw0 : w0 = .recvJob := by
        by_cases he : w0 = .exited
        · have := hC.exited w0 (List.mem_cons_self _ _) he
          rw [hjc] at this
          cases this
        · exact (hidle w0 (List.mem_cons_self _ _) he).1
      subst hw0
      refine ⟨.handoff 0, ⟨sh, .select, .loop rest, join, .waitJob f .load :: ws, ctls⟩, ?_,
        ⟨hflag, hcalls, ?_⟩, ?_⟩
      · simp [step, hp, hjc]
      · intro w hw q hq
        rcases List.mem_cons.1 hw with rfl | h
        · simp only [WorkerPc.waitPc, Option.some.injEq] at hq
          exact Or.inl hq.symm
        · exact hwaits w (List.mem_cons_of_mem _ h) q hq
      · simp only [workLeft, DispPc.cost, WorkerPc.cost, List.map_cons, List.sum_cons]
        omega
  | finished =>
    have hjc : sh.jobsClosed = true := hC.jobs.2 rfl
    have hex : ∀ w ∈ workers, w = .exited := by
      intro w hw
      by_contra hne
      have := (hidle w hw hne).2
      rw [hjc] at this
      cases this
    have hwg : sh.wg = 0 := by
      have h0 : (workers.map WorkerPc.live).sum = 0 :=
        sum_map_zero _ _ (fun w hw => by rw [hex w hw]; rfl)
      rw [hC.count, h0]
      rfl
    cases join with
    | idle => exact absurd rfl hjoin
    | waiting =>
      refine ⟨.join, ⟨{ sh with doneClosed := true }, .select, .finished, .finished, workers,
        ctls⟩, ?_, ⟨hflag, hcalls, hwaits⟩, ?_⟩
      · simp [step, hp, hwg]
      · simp [workLeft, JoinPc.cost]
    | finished =>
      have hdc : sh.doneClosed = true := hC.joinFin.2 rfl
      refine ⟨.main, ⟨sh, .loadFilesDone true, .finished, .finished, workers, ctls⟩, ?_,
        ⟨hflag, hcalls, hwaits⟩, ?_⟩
      · simp [step, hp, mainStep, hdc]
      · simp [workLeft, MainPc.cost]

/-- From a settled state of a run with at least one worker, some schedule
closes `out`. -/
theorem settled_finish {cfg : Config} (hc1 : 1 ≤ cfg.concurrent) (n : Nat) :
    ∀ s, Reachable cfg s → Settled s → workLeft cfg s ≤ n →
      ∃ ls s1, exec cfg s ls = some s1 ∧ s1.sh.outClosed = true := by
  induction n with
  | zero =>
    intro s hr hS hn
    cases hopen : s.sh.outClosed with
    | true => exact ⟨[], s, rfl, hopen⟩
    | false =>
      obtain ⟨l, s1, -, -, hlt⟩ := settled_progress hc1 hr hS hopen
      omega
  | succ n ih =>
    intro s hr hS hn
    cases hopen : s.sh.outClosed with
    | true => exact ⟨[], s, rfl, hopen⟩
    | false =>
      obtain ⟨l, s1, hst, hS1, hlt⟩ := settled_progress hc1 hr hS hopen
      obtain ⟨ls, s2, hex, hcl⟩ := ih s1 (reachable_step hr hst) hS1 (by omega)
      exact ⟨l :: ls, s2, by simp [exec, hst, hex], hcl⟩

theorem start_settled (cfg : Config) : Settled (Start cfg) := by
  constructor <;> simp [Start, NewPauseController]

/-! ## Settling the pause controller -/

theorem exists_pos_of_sum_pos {α : Type} (f : α → Nat) (l : List α)
    (h : 0 < (l.map f).sum) : ∃ (i : Nat) (a : α), l[i]? = some a ∧ 0 < f a := by
  by_contra hcon
  have hz : (l.map f).sum = 0 := by
    apply sum_map_zero
    intro a ha
    obtain ⟨i, hi⟩ := exists_getElem?_of_mem ha
    by_contra hne
    exact hcon ⟨i, a, hi, by omega⟩
  omega

theorem crit_le_lockRem (w : WorkerPc) : w.crit ≤ w.lockRem := by
  unfold WorkerPc.crit WorkerPc.lockRem
  cases w.waitPc with
  | none => exact le_refl _
  | some p => cases p <;> simp [WaitPc.crit, WaitPc.lockRem]

theorem crit_le_cost (c : CtlPc) : c.crit ≤ c.cost := by
  cases c <;> simp [CtlPc.crit, CtlPc.cost]

/-- A worker between the load of the flag and the receive from the gate can
take a step when the mutex is free or its own. -/
theorem waiter_step (cfg : Config) (sh : Shared) (w : WorkerPc) (hpos : 0 < w.lockRem)
    (hmu : sh.pc.chMu = false ∨ 0 < w.crit) :
    ∃ sh1 w1, workerStep cfg sh w = some (sh1, w1) ∧ w1.lockRem + 1 = w.lockRem := by
  cases w with
  | waitJob path wp =>
    cases wp with
    | load => simp [WorkerPc.lockRem, WorkerPc.waitPc, WaitPc.lockRem] at hpos
    | lock =>
      have hfree : sh.pc.chMu = false := by
        rcases hmu with h | h
        · exact h
        · simp [WorkerPc.crit, WorkerPc.waitPc, WaitPc.crit] at h
      exact ⟨{ sh with pc := { sh.pc with chMu := true } }, .waitJob path .read,
        by simp [workerStep, WaitIfPaused, hfree], rfl⟩
    | read =>
      exact ⟨sh, .waitJob path (.unlock sh.pc.ch), by simp [workerStep, WaitIfPaused], rfl⟩
    | unlock ch =>
      exact ⟨{ sh with pc := { sh.pc with chMu := false } }, .waitJob path (.recv ch),
        by simp [workerStep, WaitIfPaused], rfl⟩
    | recv ch => simp [WorkerPc.lockRem, WorkerPc.waitPc, WaitPc.lockRem] at hpos
  | scanning path p =>
    cases p with
    | wait l txt wp =>
      cases wp with
      | load => simp [WorkerPc.lockRem, WorkerPc.waitPc, WaitPc.lockRem] at hpos
      | lock =>
        have hfree : sh.pc.chMu = false := by
          rcases hmu with h | h
          · exact h
          · simp [WorkerPc.crit, WorkerPc.waitPc, WaitPc.crit] at h
        exact ⟨{ sh with pc := { sh.pc with chMu := true } }, .scanning path (.wait l txt .read),
          by simp [workerStep, scanFileOnce, WaitIfPaused, hfree], rfl⟩
      | read =>
        exact ⟨sh, .scanning path (.wait l txt (.unlock sh.pc.ch)),
          by simp [workerStep, scanFileOnce, WaitIfPaused], rfl⟩
      | unlock ch =>
        exact ⟨{ sh with pc := { sh.pc with chMu := false } },
          .scanning path (.wait l txt (.recv ch)),
          by simp [workerStep, scanFileOnce, WaitIfPaused], rfl⟩
      | recv ch => simp [WorkerPc.lockRem, WorkerPc.waitPc, WaitPc.lockRem] at hpos
    | _ => simp [WorkerPc.lockRem, WorkerPc.waitPc] at hpos
  | _ => simp [WorkerPc.lockRem, WorkerPc.waitPc] at hpos

/-- A call of `SetPaused(false)` that has not returned can take a step when
the mutex is free or its own; the `close` of line 33 needs its gate open. -/
theorem call_step (sh : Shared) (c : CtlPc) (hpos : 0 < c.cost)
    (hmu : sh.pc.chMu = false ∨ 0 < c.crit)
    (hopen : c = .close → gateClosed sh.gates sh.pc.ch = false) :
    ∃ sh1 c1, SetPaused sh c = some (sh1, c1) ∧ c1.cost < c.cost ∧
      sh1.pc.paused = sh.pc.paused ∧ (c1 = .returned → c = .unlock ∧ sh1.gates = sh.gates) := by
  cases c with
  | lock =>
    have hfree : sh.pc.chMu = false := by
      rcases hmu with h | h
      · exact h
      · simp [CtlPc.crit] at h
    exact ⟨{ sh with pc := { sh.pc with chMu := true } }, .select, by simp [SetPaused, hfree],
      by simp [CtlPc.cost], rfl, by simp⟩
  | select =>
    cases hg : gateClosed sh.gates sh.pc.ch with
    | true => exact ⟨sh, .make, by simp [SetPaused, hg], by simp [CtlPc.cost], rfl, by simp⟩
    | false => exact ⟨sh, .close, by simp [SetPaused, hg], by simp [CtlPc.cost], rfl, by simp⟩
  | close =>
    exact ⟨{ sh with gates := sh.gates.set sh.pc.ch true }, .make,
      by simp [SetPaused, closeGate, hopen rfl], by simp [CtlPc.cost], rfl, by simp⟩
  | make =>
    exact ⟨{ sh with gates := sh.gates ++ [false], pc := { sh.pc with ch := sh.gates.length } },
      .unlock, by simp [SetPaused], by simp [CtlPc.cost], rfl, by simp⟩
  | unlock =>
    exact ⟨{ sh with pc := { sh.pc with chMu := false } }, .returned, by simp [SetPaused],
      by simp [CtlPc.cost], rfl, by simp⟩
  | returned => simp [CtlPc.cost] at hpos

/-- While a `SetPaused` call is in progress or a worker stands between the
load of the flag and the receive from the gate, one of them can take a step. -/
theorem drain_progress {cfg : Config} (hc1 : 1 ≤ cfg.concurrent) {s : State}
    (hr : Reachable cfg s) (hpos : 0 < pauseLeft s) :
    ∃ l s1, step cfg s l = some s1 ∧ pauseLeft s1 < pauseLeft s := by
  have hp := no_panic hc1 hr
  have hI := pause_inv hr
  have hpick : (∃ (i : Nat) (w : WorkerPc), s.workers[i]? = some w ∧ 0 < w.lockRem ∧
        (s.sh.pc.chMu = false ∨ 0 < w.crit)) ∨
      (∃ (j : Nat) (c : CtlPc), s.ctls[j]? = some c ∧ 0 < c.cost ∧
        (s.sh.pc.chMu = false ∨ 0 < c.crit)) := by
    cases hmu : s.sh.pc.chMu with
    | true =>
      have hm := hI.mutex
      rw [hmu] at hm
      simp only [Bool.toNat_true] at hm
      by_cases hw : 0 < (s.workers.map WorkerPc.crit).sum
      · obtain ⟨i, w, hi, hc⟩ := exists_pos_of_sum_pos _ _ hw
        have := crit_le_lockRem w
        exact Or.inl ⟨i, w, hi, by omega, Or.inr hc⟩
      · have hc : 0 < (s.ctls.map CtlPc.crit).sum := by omega
        obtain ⟨j, c, hj, hc⟩ := exists_pos_of_sum_pos _ _ hc
        have := crit_le_cost c
        exact Or.inr ⟨j, c, hj, by omega, Or.inr hc⟩
    | false =>
      by_cases hw : 0 < (s.workers.map WorkerPc.lockRem).sum
      · obtain ⟨i, w, hi, hc⟩ := exists_pos_of_sum_pos _ _ hw
        exact Or.inl ⟨i, w, hi, hc, Or.inl rfl⟩
      · have hc : 0 < (s.ctls.map CtlPc.cost).sum := by
          unfold pauseLeft at hpos
          omega
        obtain ⟨j, c, hj, hc⟩ := exists_pos_of_sum_pos _ _ hc
        exact Or.inr ⟨j, c, hj, hc, Or.inl rfl⟩
  rcases hpick with ⟨i, w, hi, hpos1, hmu⟩ | ⟨j, c, hj, hpos1, hmu⟩
  · obtain ⟨sh1, w1, hst, hrem⟩ := waiter_step cfg s.sh w hpos1 hmu
    refine ⟨.worker i, { s with sh := sh1, workers := s.workers.set i w1 }, ?_, ?_⟩
    · simp [step, hp, hi, hst]
    · have := sum_map_set WorkerPc.lockRem s.workers i w w1 hi
      show (s.ctls.map CtlPc.cost).sum + ((s.workers.set i w1).map WorkerPc.lockRem).sum <
        (s.ctls.map CtlPc.cost).sum + (s.workers.map WorkerPc.lockRem).sum
      omega
  · obtain ⟨sh1, c1, hst, hlt, -, -⟩ := call_step s.sh c hpos1 hmu
      (fun hc => gate_open_at_close hr (hc ▸ hj))
    refine ⟨.ctl j, { s with sh := sh1, ctls := s.ctls.set j c1 }, ?_, ?_⟩
    · simp [step, hp, hj, hst]
    · have := sum_map_set CtlPc.cost s.ctls j c c1 hj
      show ((s.ctls.set j c1).map CtlPc.cost).sum + (s.workers.map WorkerPc.lockRem).sum <
        (s.ctls.map CtlPc.cost).sum + (s.workers.map WorkerPc.lockRem).sum
      omega

/-- From every state of a run with at least one worker some schedule leads to
a state in which no `SetPaused` call is in progress and no worker stands
between the load of the flag and the receive from the gate. -/
theorem drain {cfg : Config} (hc1 : 1 ≤ cfg.concurrent) (n : Nat) :
    ∀ s, Reachable cfg s → pauseLeft s ≤ n →
      ∃ ls s1, exec cfg s ls = some s1 ∧ pauseLeft s1 = 0 := by
  induction n with
  | zero =>
    intro s _ hn
    exact ⟨[], s, rfl, by omega⟩
  | succ n ih =>
    intro s hr hn
    by_cases hz : pauseLeft s = 0
    · exact ⟨[], s, rfl, hz⟩
    · obtain ⟨l, s1, hst, hlt⟩ := drain_progress hc1 hr (by omega)
      obtain ⟨ls, s2, hex, h0⟩ := ih s1 (reachable_step hr hst) (by omega)
      exact ⟨l :: ls, s2, by simp [exec, hst, hex], h0⟩

theorem cost_pos_of_ne_returned (c : CtlPc) (h : c ≠ .returned) : 0 < c.cost := by
  cases c <;> simp [CtlPc.cost] at h ⊢

theorem exec_trans {cfg : Config} {s s1 s2 : State} {l1 l2 : List Label}
    (h1 : exec cfg s l1 = some s1) (h2 : exec cfg s1 l2 = some s2) :
    exec cfg s (l1 ++ l2) = some s2 := by
  rw [exec_append, h1]
  exact h2

/-- A call of `SetPaused(false)` that is alone with workers none of which
stands between the load of the flag and the receive from the gate runs to its
return; after it every gate a worker holds is closed. -/
theorem call_finish {cfg : Config} (hc1 : 1 ≤ cfg.concurrent) (n : Nat) :
    ∀ (s : State) (j : Nat) (c : CtlPc), Reachable cfg s → s.ctls[j]? = some c →
      c.cost ≤ n → 0 < c.cost → (∀ c1 ∈ s.ctls.set j .returned, c1 = .returned) →
      (∀ w ∈ s.workers, w.lockRem = 0) →
      ∃ ls s1, exec cfg s ls = some s1 ∧ (∀ c1 ∈ s1.ctls, c1 = .returned) ∧
        s1.workers = s.workers ∧ s1.sh.pc.paused = s.sh.pc.paused ∧
        ∀ w ∈ s1.workers, ∀ ch, w.held = some ch → gateClosed s1.sh.gates ch = true := by
  induction n with
  | zero =>
    intro s j c _ _ h1 h2
    omega
  | succ n ih =>
    intro s j c hr hj hn hpos hothers hwk
    have hp := no_panic hc1 hr
    have hI := pause_inv hr
    have hmu : s.sh.pc.chMu = false ∨ 0 < c.crit := by
      by_cases hc : 0 < c.crit
      · exact Or.inr hc
      · left
        have h1 : (s.workers.map WorkerPc.crit).sum = 0 :=
          sum_map_zero _ _ (fun w hw => by
            have := crit_le_lockRem w
            have := hwk w hw
            omega)
        have h2 : ((s.ctls.set j .returned).map CtlPc.crit).sum = 0 :=
          sum_map_zero _ _ (fun c1 hc1 => by rw [hothers c1 hc1]; rfl)
        have h3 := sum_map_set CtlPc.crit s.ctls j c .returned hj
        have h4 := hI.mutex
        have h5 : CtlPc.crit .returned = 0 := rfl
        cases hm : s.sh.pc.chMu with
        | false => rfl
        | true =>
          rw [hm] at h4
          simp only [Bool.toNat_true] at h4
          omega
    obtain ⟨sh1, c1, hst, hlt, hpa, hret⟩ := call_step s.sh c hpos hmu
      (fun hc => gate_open_at_close hr (hc ▸ hj))
    have hstep : step cfg s (.ctl j) = some { s with sh := sh1, ctls := s.ctls.set j c1 } := by
      simp [step, hp, hj, hst]
    by_cases hc1r : c1 = .returned
    · obtain ⟨hcu, hg⟩ := hret hc1r
      subst hc1r
      refine ⟨[.ctl j], { s with sh := sh1, ctls := s.ctls.set j .returned },
        by simp [exec, hstep], hothers, rfl, hpa, ?_⟩
      intro w hw ch hch
      show gateClosed sh1.gates ch = true
      rw [hg]
      exact hI.older ch (hI.fresh c (mem_of_getElem? hj) hcu w hw ch hch)
    · have hjlt := (List.getElem?_eq_some.1 hj).1
      obtain ⟨ls, s2, hex, h1, h2, h3, h4⟩ :=
        ih { s with sh := sh1, ctls := s.ctls.set j c1 } j c1 (reachable_step hr hstep)
          (by simp [hjlt]) (by omega) (cost_pos_of_ne_returned c1 hc1r)
          (by simpa using hothers) hwk
      exact ⟨.ctl j :: ls, s2, by simp [exec, hstep, hex], h1, h2, h3.trans hpa, h4⟩

/-- From every state of a run with at least one worker some schedule leads to
a settled state: the calls in progress and the workers past the load of the
flag run on, then one call of `pauseFn(false)` runs from its store to its
return. -/
theorem settle {cfg : Config} (hc1 : 1 ≤ cfg.concurrent) {s : State} (hr : Reachable cfg s) :
    ∃ ls s1, exec cfg s ls = some s1 ∧ Settled s1 := by
  obtain ⟨ls1, s1, hex1, h0⟩ := drain hc1 _ s hr (le_refl _)
  have hr1 := reachable_exec hr hex1
  have hp1 := no_panic hc1 hr1
  unfold pauseLeft at h0
  have hctl : ∀ c ∈ s1.ctls, c = .returned := by
    intro c hc
    have := sum_map_eq_zero CtlPc.cost s1.ctls (by omega) c hc
    by_contra hne
    have := cost_pos_of_ne_returned c hne
    omega
  have hwk : ∀ w ∈ s1.workers, w.lockRem = 0 :=
    fun w hw => sum_map_eq_zero WorkerPc.lockRem s1.workers (by omega) w hw
  have hstep : step cfg s1 (.setPaused false) =
      some { s1 with sh := storePaused s1.sh false, ctls := s1.ctls ++ [.lock] } := by
    simp [step, hp1]
  obtain ⟨ls3, s3, hex3, h1, h2, h3, h4⟩ :=
    call_finish hc1 5 { s1 with sh := storePaused s1.sh false, ctls := s1.ctls ++ [.lock] }
      s1.ctls.length .lock (reachable_step hr1 hstep) (by simp) (by simp [CtlPc.cost])
      (by simp [CtlPc.cost])
      (by
        intro c hc
        simp only [List.set_append_right _ _ (le_refl _), Nat.sub_self, List.set_cons_zero,
          List.mem_append, List.mem_singleton] at hc
        rcases hc with h | h
        · exact hctl c h
        · exact h)
      hwk
  refine ⟨ls1 ++ .setPaused false :: ls3, s3, exec_trans hex1 (by simp [exec, hstep, hex3]),
    ⟨?_, h1, ?_⟩⟩
  · rw [h3]
    rfl
  · intro w hw p hp
    have hw1 : w ∈ s1.workers := by
      rw [h2] at hw
      exact hw
    have hrem := hwk w hw1
    unfold WorkerPc.lockRem at hrem
    rw [hp] at hrem
    cases p with
    | load => exact Or.inl rfl
    | recv ch =>
      refine Or.inr ⟨ch, rfl, h4 w hw ch ?_⟩
      unfold WorkerPc.held
      rw [hp]
      rfl
    | _ => simp [WaitPc.lockRem] at hrem

/-- No state of a run with at least one worker is a dead end: from every
reachable state some schedule, in which the consumer receives the events and
calls `pauseFn(false)` once more, closes `out`. -/
theorem can_finish {cfg : Config} (hc1 : 1 ≤ cfg.concurrent) {s : State}
    (hr : Reachable cfg s) : ∃ ls s1, exec cfg s ls = some s1 ∧ s1.sh.outClosed = true := by
  obtain ⟨ls1, s1, hex1, hS⟩ := settle hc1 hr
  obtain ⟨ls2, s2, hex2, hcl⟩ :=
    settled_finish hc1 _ s1 (reachable_exec hr hex1) hS (le_refl _)
  exact ⟨ls1 ++ ls2, s2, exec_trans hex1 hex2, hcl⟩

/-! ## Blocked workers -/

theorem blocked_no_step (cfg : Config) (sh : Shared) (w : WorkerPc)
    (h : w.blockedOn sh.gates = true) : workerStep cfg sh w = none := by
  unfold WorkerPc.blockedOn at h
  cases w with
  | waitJob path wp =>
    cases wp <;> simp [WorkerPc.waitPc] at h
    simp [workerStep, WaitIfPaused, h]
  | scanning path p =>
    cases p with
    | wait l txt wp =>
      cases wp <;> simp [WorkerPc.waitPc] at h
      simp [workerStep, scanFileOnce, WaitIfPaused, h]
    | _ => simp [WorkerPc.waitPc] at h
  | _ => simp [WorkerPc.waitPc] at h

theorem blocked_live (gates : List Bool) (w : WorkerPc) (h : w.blockedOn gates = true) :
    w.live = 1 ∧ w ≠ .recvJob := by
  unfold WorkerPc.blockedOn at h
  cases w <;> simp [WorkerPc.waitPc, WorkerPc.live] at h ⊢

theorem matchSeqs_snoc (out : List Event) (e : Event) (h : e.isMatch = false) :
    matchSeqs (out ++ [e]) = matchSeqs out := by
  induction out with
  | nil => cases e <;> simp [matchSeqs, Event.isMatch] at h ⊢
  | cons x xs ih => cases x <;> simp [matchSeqs, ih]

theorem reports_snoc (out : List Event) (e : Event) (h : e.isReport = false) :
    reports (out ++ [e]) = reports out := by
  simp [reports, List.filter_append, h]

/-- While every worker is blocked and nobody calls `pauseFn(false)`, a step
leaves the workers where they are and sends neither a `MatchLine` nor a DONE or
FAIL event. -/
theorem blocked_step {cfg : Config} {s s1 : State} {l : Label} (hr : Reachable cfg s)
    (hB : AllBlocked s) (hl : l ≠ .setPaused false) (hst : step cfg s l = some s1) :
    AllBlocked s1 ∧ s1.workers = s.workers ∧ matchSeqs s1.sh.out = matchSeqs s.sh.out ∧
      reports s1.sh.out = reports s.sh.out := by
  obtain ⟨hne, hall, hctl⟩ := hB
  obtain ⟨hp, ht⟩ := step_trans hst
  have hC := ctrl_inv hr hp
  have hpre : s.main.isPre = false := by
    cases hm : s.main.isPre with
    | false => rfl
    | true => exact absurd (hC.pre hm).1 hne
  rw [List.all_eq_true] at hall hctl
  cases ht with
  | start sh1 h hs => simp [h, MainPc.isPre] at hpre
  | spawnCrash h hc => simp [h, MainPc.isPre] at hpre
  | spawn h hc => simp [h, MainPc.isPre] at hpre
  | sendTotals term fd lt mt sh1 h hs =>
    cases hs with
    | crash hcl => exact ⟨⟨hne, List.all_eq_true.2 hall, List.all_eq_true.2 hctl⟩, rfl, rfl, rfl⟩
    | ok hcl hroom =>
      exact ⟨⟨hne, List.all_eq_true.2 hall, List.all_eq_true.2 hctl⟩, rfl,
        matchSeqs_snoc _ _ rfl, reports_snoc _ _ rfl⟩
  | announce f rest sh1 h hs =>
    cases hs with
    | crash hcl => exact ⟨⟨hne, List.all_eq_true.2 hall, List.all_eq_true.2 hctl⟩, rfl, rfl, rfl⟩
    | ok hcl hroom =>
      exact ⟨⟨hne, List.all_eq_true.2 hall, List.all_eq_true.2 hctl⟩, rfl,
        matchSeqs_snoc _ _ rfl, reports_snoc _ _ rfl⟩
  | handoff i f rest h hw hj =>
    exact absurd rfl (blocked_live _ _ (hall _ (mem_of_getElem? hw))).2
  | worker i w w1 sh1 hw h =>
    have hb := blocked_no_step cfg s.sh w (hall _ (mem_of_getElem? hw))
    simp [step, hp, hw, hb] at hst
  | resume => exact absurd rfl hl
  | ctl j c c1 sh1 hc h =>
    have := hctl c (mem_of_getElem? hc)
    simp only [decide_eq_true_eq] at this
    subst this
    cases h
  | _ => exact ⟨⟨hne, List.all_eq_true.2 hall, List.all_eq_true.2 hctl⟩, rfl, rfl, rfl⟩

/-- While every worker is blocked on an open gate, the run makes no progress
until somebody calls `pauseFn(false)` again: the workers stay where they are, no
`MatchLine` and no DONE or FAIL event is sent, and `out` is not closed. -/
theorem blocked_exec {cfg : Config} (hc1 : 1 ≤ cfg.concurrent) (ls : List Label) :
    ∀ s, Reachable cfg s → AllBlocked s → (∀ l ∈ ls, l ≠ .setPaused false) →
      ∀ s1, exec cfg s ls = some s1 →
        s1.workers = s.workers ∧ matchSeqs s1.sh.out = matchSeqs s.sh.out ∧
          reports s1.sh.out = reports s.sh.out ∧ s1.sh.outClosed = false := by
  induction ls with
  | nil =>
    intro s hr hB _ s1 hex
    simp only [exec, Option.some.injEq] at hex
    subst hex
    refine ⟨rfl, rfl, rfl, ?_⟩
    have hp := no_panic hc1 hr
    have hC := ctrl_inv hr hp
    obtain ⟨hne, hall, -⟩ := hB
    rw [List.all_eq_true] at hall
    cases hcl : s.sh.outClosed with
    | false => rfl
    | true =>
      have hm := hC.closed.1 hcl
      have hd := hC.term (by rw [hm]; rfl)
      have hz := hC.doneZero hd
      have hcount := hC.count
      rw [hz] at hcount
      have hsum : (s.workers.map WorkerPc.live).sum = 0 := by
        have : ((0 : Int)) = (((s.workers.map WorkerPc.live).sum : Nat) : Int) := hcount
        omega
      cases hws : s.workers with
      | nil => exact absurd hws hne
      | cons w ws =>
        have hw : w ∈ s.workers := by rw [hws]; exact List.mem_cons_self _ _
        have h0 := sum_map_eq_zero _ _ hsum w hw
        have h1 := (blocked_live _ _ (hall w hw)).1
        omega
  | cons l ls ih =>
    intro s hr hB hl s1 hex
    simp only [exec] at hex
    cases hst : step cfg s l with
    | none => simp [hst] at hex
    | some s2 =>
      simp only [hst] at hex
      obtain ⟨hB2, hw2, hm2, hr2⟩ := blocked_step hr hB (hl l (List.mem_cons_self _ _)) hst
      obtain ⟨a, b, c, d⟩ := ih s2 (reachable_step hr hst) hB2
        (fun x hx => hl x (List.mem_cons_of_mem _ hx)) s1 hex
      exact ⟨a.trans hw2, b.trans hm2, c.trans hr2, d⟩

/-! ## One blocked worker holds up the run -/

theorem stuckAt_worker {s : State} {i : Nat} (h : StuckAt s i) :
    ∃ w, s.workers[i]? = some w ∧ w.blockedOn s.sh.gates = true := by
  obtain ⟨h1, -⟩ := h
  cases hw : s.workers[i]? with
  | none => simp [hw] at h1
  | some w =>
    rw [hw] at h1
    exact ⟨w, rfl, by simpa using h1⟩

/-- While a worker is blocked the terminal `Totals` has not been sent and `out`
is open. -/
theorem stuck_open {cfg : Config} {s : State} (hr : Reachable cfg s)
    (hp : s.sh.panicked = false) {i : Nat} (hS : StuckAt s i) :
    terminals s.sh.out = [] ∧ s.sh.outClosed = false := by
  obtain ⟨w, hw, hb⟩ := stuckAt_worker hS
  have hC := ctrl_inv hr hp
  have hterm : s.main.isTerm = false := by
    cases ht : s.main.isTerm with
    | false => rfl
    | true =>
      have := workers_exited_of_term hr hp ht w (mem_of_getElem? hw)
      subst this
      simp [WorkerPc.blockedOn, WorkerPc.waitPc] at hb
  constructor
  · apply (term_inv hr hp).before
    cases hs : s.main.sentTerm with
    | false => rfl
    | true =>
      rw [sentTerm_isTerm hs] at hterm
      cases hterm
  · cases hcl : s.sh.outClosed with
    | false => rfl
    | true =>
      have hm := hC.closed.1 hcl
      rw [hm] at hterm
      cases hterm

/-- A blocked worker stays blocked over every step that is not a call of
`pauseFn(false)`. -/
theorem stuck_step {cfg : Config} {s s1 : State} {l : Label} {i : Nat}
    (hr : Reachable cfg s) (hS : StuckAt s i) (hl : l ≠ .setPaused false) (hst : step cfg s l = some s1) :
    StuckAt s1 i ∧ s1.workers[i]? = s.workers[i]? := by
  obtain ⟨w, hw, hb⟩ := stuckAt_worker hS
  obtain ⟨hS1, hctl⟩ := hS
  obtain ⟨hp, ht⟩ := step_trans hst
  have hall := List.all_eq_true.1 hctl
  cases ht with
  | start sh1 h hs => cases hs <;> exact ⟨⟨hS1, hctl⟩, rfl⟩
  | sendTotals term fd lt mt sh1 h hs => cases hs <;> exact ⟨⟨hS1, hctl⟩, rfl⟩
  | announce f rest sh1 h hs => cases hs <;> exact ⟨⟨hS1, hctl⟩, rfl⟩
  | spawn h hc =>
    have hnil := ((ctrl_inv hr hp).pre (by simp [h, MainPc.isPre])).1
    rw [hnil] at hw
    cases hw
  | handoff k f rest h hk hj =>
    have hki : k ≠ i := by
      intro e
      subst e
      rw [hw] at hk
      cases hk
      simp [WorkerPc.blockedOn, WorkerPc.waitPc] at hb
    have hget : (s.workers.set k (.waitJob f .load))[i]? = s.workers[i]? :=
      List.getElem?_set_ne hki
    refine ⟨⟨?_, hctl⟩, hget⟩
    show ((s.workers.set k (.waitJob f .load))[i]?).map (WorkerPc.blockedOn s.sh.gates) = _
    rw [hget]
    exact hS1
  | worker k w0 w1 sh1 hk h =>
    have hki : k ≠ i := by
      intro e
      subst e
      rw [hw] at hk
      cases hk
      have hno := blocked_no_step cfg s.sh w hb
      simp [step, hp, hw, hno] at hst
    have hget : (s.workers.set k w1)[i]? = s.workers[i]? := List.getElem?_set_ne hki
    have hg : sh1.gates = s.sh.gates := h.wframe.2.2.2.2.1
    refine ⟨⟨?_, hctl⟩, hget⟩
    show ((s.workers.set k w1)[i]?).map (WorkerPc.blockedOn sh1.gates) = _
    rw [hget, hg]
    exact hS1
  | resume => exact absurd rfl hl
  | ctl j c c1 sh1 hc h =>
    have := hall c (mem_of_getElem? hc)
    simp only [decide_eq_true_eq] at this
    subst this
    cases h
  | _ => exact ⟨⟨hS1, hctl⟩, rfl⟩

/-- While a worker is blocked on an open gate and nobody calls `pauseFn(false)`
again, the worker stays where it is, the terminal `Totals` is not sent and `out`
is not closed. -/
theorem stuck_exec {cfg : Config} (hc1 : 1 ≤ cfg.concurrent) (i : Nat) (ls : List Label) :
    ∀ s, Reachable cfg s → StuckAt s i → (∀ l ∈ ls, l ≠ .setPaused false) →
      ∀ s1, exec cfg s ls = some s1 →
        s1.workers[i]? = s.workers[i]? ∧ terminals s1.sh.out = [] ∧
          s1.sh.outClosed = false := by
  induction ls with
  | nil =>
    intro s hr hS _ s1 hex
    simp only [exec, Option.some.injEq] at hex
    subst hex
    exact ⟨rfl, stuck_open hr (no_panic hc1 hr) hS⟩
  | cons l ls ih =>
    intro s hr hS hl s1 hex
    simp only [exec] at hex
    cases hst : step cfg s l with
    | none => simp [hst] at hex
    | some s2 =>
      simp only [hst] at hex
      obtain ⟨hS2, hw2⟩ := stuck_step hr hS (hl l (List.mem_cons_self _ _)) hst
      obtain ⟨a, b, c⟩ := ih s2 (reachable_step hr hst) hS2
        (fun x hx => hl x (List.mem_cons_of_mem _ hx)) s1 hex
      exact ⟨a.trans hw2, b, c⟩

/-! ## The end of a run -/

/-- The end of a run with `concurrent >= 1` (and a file list of a length Go
allows): from every state some schedule, which may hold a further call of
`pauseFn(false)`, closes `out`; and when `out` is closed the trace ends with a
`Totals` that has `Done` set and `FilesDone = FilesTotal = len(files)`, no
earlier event is a `Totals` with `Done` set, and whatever runs afterwards
sends nothing more and does not panic. -/
theorem terminal_totals_last (cfg : Config) (hc1 : 1 ≤ cfg.concurrent)
    (hlen : cfg.files.length < 9223372036854775808) (s : State) (hr : Reachable cfg s) :
    (∃ ls s1, exec cfg s ls = some s1 ∧ s1.sh.outClosed = true) ∧
    (s.sh.outClosed = true →
      ∃ pre t, s.sh.out = pre ++ [.totals t] ∧ terminals pre = [] ∧ t.Done = true ∧
        t.FilesDone = (cfg.files.length : Int) ∧ t.FilesTotal = (cfg.files.length : Int) ∧
        ∀ ls s1, exec cfg s ls = some s1 →
          s1.sh.out = s.sh.out ∧ s1.sh.panicked = false) := by
  refine ⟨can_finish hc1 hr, fun hc => ?_⟩
  obtain ⟨pre, hpre, hnone⟩ := closed_last hc1 hr hc
  refine ⟨pre, terminalOf cfg s.sh.out, hpre, hnone, rfl, ?_, rfl, ?_⟩
  · have hl := (closed_reports hc1 hr hc).1.length_eq
    rw [List.length_map] at hl
    show wrapInt64 (reports s.sh.out).length = _
    rw [hl]
    apply wrapInt64_id
    omega
  · intro ls s1 hex
    exact ⟨(exec_out_of_closed hex hc).1, no_panic hc1 (reachable_exec hr hex)⟩

/-- A file that fails does not touch the rest of the run.  With
`concurrent >= 1`, a file that cannot be opened makes `scanFileOnce` return
`(0, 0, err)`, its report is FAIL with the open error and `Lines = Matches = 0`,
which counts zero in the sums of the DONE events, and no `MatchLine` names it;
the report of a file with a read error is FAIL with that error and the counts
of the lines read before it; from every state some schedule, which may hold a
further call of `pauseFn(false)`, closes `out`; and when `out` is closed the
DONE and FAIL events are the reports of the input files, one for each
occurrence, and the trace ends with the terminal `Totals`, which counts every
file in `FilesDone` and sums only the DONE events into `LinesTotal` and
`MatchesTotal`. -/
theorem file_failure_is_local (cfg : Config) (hc1 : 1 ≤ cfg.concurrent)
    (hlen : cfg.files.length < 9223372036854775808) (s : State) (hr : Reachable cfg s) :
    (∀ f e, cfg.fs f = .error e →
      (∀ sh, scanFileOnce cfg sh (.openFile f) = some (sh, .ret 0 0 (some e))) ∧
      report cfg f = .fileUpdate { File := f, Lines := 0, Matches := 0, Status := "FAIL",
                                   Err := some e } ∧
      (report cfg f).doneLines = 0 ∧ (report cfg f).doneMatches = 0 ∧
      ∀ m, Event.matchLine m ∈ s.sh.out → m.File ≠ f) ∧
    (∀ f fd e, cfg.fs f = .ok fd → fd.readErr = some e →
      report cfg f = .fileUpdate { File := f, Lines := refLines fd.lines,
                                   Matches := refMatches cfg.re fd.lines, Status := "FAIL",
                                   Err := some e }) ∧
    (∃ ls s1, exec cfg s ls = some s1 ∧ s1.sh.outClosed = true) ∧
    (s.sh.outClosed = true →
      (reports s.sh.out).Perm (cfg.files.map (report cfg)) ∧
      ∃ pre t, s.sh.out = pre ++ [.totals t] ∧ t.Done = true ∧
        t.FilesDone = (cfg.files.length : Int) ∧
        t.LinesTotal = wrapInt64 (doneLinesOf s.sh.out) ∧
        t.MatchesTotal = wrapInt64 (doneMatchesOf s.sh.out)) := by
  have hp := no_panic hc1 hr
  refine ⟨?_, ?_, can_finish hc1 hr, fun hc => ?_⟩
  · intro f e hfs
    refine ⟨fun sh => by simp [scanFileOnce, hfs], by simp [report, hfs],
      by simp [report, hfs, Event.doneLines], by simp [report, hfs, Event.doneMatches], ?_⟩
    intro m hm hf
    obtain ⟨-, fd, hfd, -⟩ := (events_inv hr hp).events _ hm
    rw [hf, hfs] at hfd
    cases hfd
  · intro f fd e hfs herr
    simp [report, hfs, herr]
  · obtain ⟨h1, -⟩ := closed_reports hc1 hr hc
    obtain ⟨pre, hpre, -⟩ := closed_last hc1 hr hc
    refine ⟨h1, pre, terminalOf cfg s.sh.out, hpre, rfl, ?_, rfl, rfl⟩
    have hl := h1.length_eq
    rw [List.length_map] at hl
    show wrapInt64 (reports s.sh.out).length = _
    rw [hl]
    apply wrapInt64_id
    omega

set_option maxRecDepth 100000 in
/-- The run `schedFail`: `missing.log` cannot be opened,
`broken.log` has a read error after three lines. -/
theorem file_failure_example :
    1 ≤ cfgFail.concurrent ∧ cfgFail.files.length < 9223372036854775808 ∧
    Reachable cfgFail sFail ∧ sFail.sh.outClosed = true ∧
    reports sFail.sh.out =
      [.fileUpdate { File := "ok.log", Lines := 2, Matches := 1, Status := "DONE",
                     Err := none },
       .fileUpdate { File := "missing.log", Lines := 0, Matches := 0, Status := "FAIL",
                     Err := some "open: no such file" },
       .fileUpdate { File := "broken.log", Lines := 3, Matches := 2, Status := "FAIL",
                     Err := some "bufio.Scanner: token too long" }] ∧
    terminals sFail.sh.out = [.totals { FilesTotal := 3, FilesDone := 3, LinesTotal := 2,
                                        MatchesTotal := 1, Done := true, Err := none }] ∧
    ((∀ f e, cfgFail.fs f = .error e →
        (∀ sh, scanFileOnce cfgFail sh (.openFile f) = some (sh, .ret 0 0 (some e))) ∧
        report cfgFail f = .fileUpdate { File := f, Lines := 0, Matches := 0,
                                         Status := "FAIL", Err := some e } ∧
        (report cfgFail f).doneLines = 0 ∧ (report cfgFail f).doneMatches = 0 ∧
        ∀ m, Event.matchLine m ∈ sFail.sh.out → m.File ≠ f) ∧
      (∀ f fd e, cfgFail.fs f = .ok fd → fd.readErr = some e →
        report cfgFail f = .fileUpdate { File := f, Lines := refLines fd.lines,
                                         Matches := refMatches cfgFail.re fd.lines,
                                         Status := "FAIL", Err := some e }) ∧
      (∃ ls s1, exec cfgFail sFail ls = some s1 ∧ s1.sh.outClosed = true) ∧
      (sFail.sh.outClosed = true →
        (reports sFail.sh.out).Perm (cfgFail.files.map (report cfgFail)) ∧
        ∃ pre t, sFail.sh.out = pre ++ [.totals t] ∧ t.Done = true ∧
          t.FilesDone = (cfgFail.files.length : Int) ∧
          t.LinesTotal = wrapInt64 (doneLinesOf sFail.sh.out) ∧
          t.MatchesTotal = wrapInt64 (doneMatchesOf sFail.sh.out))) :=
  ⟨by decide, by decide, sFail_reachable, sFail_closed, by decide, by decide,
    file_failure_is_local cfgFail (by decide) (by decide) sFail sFail_reachable⟩

/-! ## Runs that a lost wake-up holds up -/

set_option maxRecDepth 100000 in
/-- C3 fails on the code: in the run `schedHang` of two files and two workers
the only pause is followed by a resume that runs to its return; worker 1 has
reported its file and exited, and worker 0 is left in the receive of line 46
before the open gate 1, with the paused flag at 0 and the mutex free.  No
`Totals` with `Done` set has been sent, neither the worker nor the goroutine of
lines 101-104 can take a step, and whatever happens next, as long as nobody
calls `pauseFn(false)` once more, the worker stays there, no `Totals` with
`Done` set is sent and `out` is not closed. -/
theorem C3_run_hangs_after_resume :
    1 ≤ cfgTwo.concurrent ∧ Reachable cfgTwo sHang ∧ sHang.sh.panicked = false ∧
    sHang.sh.pc.paused = 0 ∧ sHang.sh.pc.chMu = false ∧ sHang.ctls = [.returned] ∧
    sHang.workers = [.waitJob "a.log" (.recv 1), .exited] ∧
    gateClosed sHang.sh.gates 1 = false ∧
    (step cfgTwo sHang (.worker 0)).isNone = true ∧ (step cfgTwo sHang .join).isNone = true ∧
    (step cfgTwo sHang .main).isNone = true ∧
    (reports sHang.sh.out).length = 1 ∧ terminals sHang.sh.out = [] ∧
    sHang.sh.outClosed = false ∧
    (∀ ls s1, (∀ l ∈ ls, l ≠ .setPaused false) → exec cfgTwo sHang ls = some s1 →
      s1.workers[0]? = some (.waitJob "a.log" (.recv 1)) ∧ terminals s1.sh.out = [] ∧
      s1.sh.outClosed = false) := by
  have hr : Reachable cfgTwo sHang := runOf_reachable _ _ (by decide)
  have hw : sHang.workers[0]? = some (.waitJob "a.log" (.recv 1)) := by decide
  refine ⟨by decide, hr, by decide, by decide, by decide, by decide, by decide, by decide,
    by decide, by decide, by decide, by decide, by decide, by decide, fun ls s1 hl hex => ?_⟩
  obtain ⟨h1, h2, h3⟩ :=
    stuck_exec (by decide) 0 ls sHang hr ⟨by decide, by decide⟩ hl s1 hex
  exact ⟨h1.trans hw, h2, h3⟩

set_option maxRecDepth 100000 in
/-- C10 fails on the code: in the run `schedMissing` the file `missing.log`
cannot be opened and is reported as FAIL with `Lines = Matches = 0` and
counted in `filesDone`; the only pause is followed by a resume that runs to
its return, and the worker is left in the receive of line 46 before the open
gate 1, with the paused flag at 0, holding `a.log`.  Whatever happens next, as
long as nobody calls `pauseFn(false)` once more, the worker stays there, no
further DONE or FAIL event and no `Totals` with `Done` set is sent, and `out`
is not closed: the run does not end. -/
theorem C10_run_hangs_after_failed_file :
    1 ≤ cfgMissing.concurrent ∧ Reachable cfgMissing sMissing ∧
    sMissing.sh.panicked = false ∧ sMissing.sh.pc.paused = 0 ∧
    sMissing.sh.pc.chMu = false ∧ sMissing.ctls = [.returned] ∧
    sMissing.workers = [.waitJob "a.log" (.recv 1)] ∧
    gateClosed sMissing.sh.gates 1 = false ∧
    (step cfgMissing sMissing (.worker 0)).isNone = true ∧
    reports sMissing.sh.out =
      [.fileUpdate { File := "missing.log", Lines := 0, Matches := 0, Status := "FAIL",
                     Err := some "open: no such file" }] ∧
    sMissing.sh.filesDone = 1 ∧ terminals sMissing.sh.out = [] ∧
    sMissing.sh.outClosed = false ∧
    (∀ ls s1, (∀ l ∈ ls, l ≠ .setPaused false) → exec cfgMissing sMissing ls = some s1 →
      s1.workers = [.waitJob "a.log" (.recv 1)] ∧
      reports s1.sh.out =
        [.fileUpdate { File := "missing.log", Lines := 0, Matches := 0, Status := "FAIL",
                       Err := some "open: no such file" }] ∧
      terminals s1.sh.out = [] ∧ s1.sh.outClosed = false) := by
  have hr : Reachable cfgMissing sMissing := runOf_reachable _ _ (by decide)
  have hw : sMissing.workers = [.waitJob "a.log" (.recv 1)] := by decide
  have hrep : reports sMissing.sh.out =
      [.fileUpdate { File := "missing.log", Lines := 0, Matches := 0, Status := "FAIL",
                     Err := some "open: no such file" }] := by decide
  refine ⟨by decide, hr, by decide, by decide, by decide, by decide, hw, by decide, by decide,
    hrep, by decide, by decide, by decide, fun ls s1 hl hex => ?_⟩
  obtain ⟨h1, -, h3, h4⟩ :=
    blocked_exec (by decide) ls sMissing hr ⟨by decide, by decide, by decide⟩ hl s1 hex
  obtain ⟨-, h5, -⟩ :=
    stuck_exec (by decide) 0 ls sMissing hr ⟨by decide, by decide⟩ hl s1 hex
  exact ⟨h1.trans hw, h3.trans hrep, h5, h4⟩

/-! ## The lost wake-up -/

set_option maxRecDepth 100000 in
/-- C5 fails on the code: after the schedule `schedLost` the paused flag is 0,
the only `SetPaused` call has returned, and the worker is blocked in the
receive of line 46 on gate 1, which is open: no step of the worker is
enabled, and whatever happens next, the worker stays there and `out` stays
open until somebody calls `pauseFn(false)` once more. -/
theorem C5_lost_wakeup :
    Reachable cfgOne sLost ∧ sLost.sh.panicked = false ∧ sLost.sh.pc.paused = 0 ∧
    sLost.ctls = [.returned] ∧ sLost.sh.pc.chMu = false ∧
    sLost.workers = [.waitJob "a.log" (.recv 1)] ∧ sLost.sh.pc.ch = 1 ∧
    gateClosed sLost.sh.gates 1 = false ∧ (step cfgOne sLost (.worker 0)).isNone = true ∧
    (∀ ls s1, (∀ l ∈ ls, l ≠ .setPaused false) → exec cfgOne sLost ls = some s1 →
      s1.workers = [.waitJob "a.log" (.recv 1)] ∧ s1.sh.outClosed = false) := by
  have hr : Reachable cfgOne sLost := runOf_reachable _ _ (by decide)
  have hw : sLost.workers = [.waitJob "a.log" (.recv 1)] := by decide
  refine ⟨hr, by decide, by decide, by decide, by decide, hw, by decide, by decide, by decide,
    fun ls s1 hl hex => ?_⟩
  obtain ⟨h1, -, -, h4⟩ :=
    blocked_exec (by decide) ls sLost hr ⟨by decide, by decide, by decide⟩ hl s1 hex
  exact ⟨h1.trans hw, h4⟩

set_option maxRecDepth 100000 in
/-- C9 fails on the code: the schedule `schedLostScan` has one pause, followed
by one resume that runs to its return, and leaves the worker inside
`scanFileOnce`, before the first line of the file is counted, blocked on the
open gate 1 with the paused flag at 0; whatever happens next, as long as nobody
calls `pauseFn(false)` once more, the worker stays there: `scanFileOnce` does
not return, and no `MatchLine` is sent for the matching line, no DONE or FAIL
event for the file, and `out` is not closed. -/
theorem C9_scan_blocked_after_resume :
    Reachable cfgOne sLostScan ∧ sLostScan.sh.panicked = false ∧
    sLostScan.sh.pc.paused = 0 ∧ sLostScan.ctls = [.returned] ∧
    sLostScan.workers.map WorkerPc.inScan = [true] ∧
    sLostScan.workers.map WorkerPc.waitPc = [some (.recv 1)] ∧
    gateClosed sLostScan.sh.gates 1 = false ∧
    (step cfgOne sLostScan (.worker 0)).isNone = true ∧
    (∀ ls s1, (∀ l ∈ ls, l ≠ .setPaused false) → exec cfgOne sLostScan ls = some s1 →
      s1.workers.map WorkerPc.inScan = [true] ∧ matchSeqs s1.sh.out = [] ∧
      reports s1.sh.out = [] ∧ s1.sh.outClosed = false) := by
  have hr : Reachable cfgOne sLostScan := runOf_reachable _ _ (by decide)
  have hw : sLostScan.workers.map WorkerPc.inScan = [true] := by decide
  have hm : matchSeqs sLostScan.sh.out = [] := by decide
  have hrep : reports sLostScan.sh.out = [] := by decide
  refine ⟨hr, by decide, by decide, by decide, hw, by decide, by decide, by decide,
    fun ls s1 hl hex => ?_⟩
  obtain ⟨h1, h2, h3, h4⟩ :=
    blocked_exec (by decide) ls sLostScan hr ⟨by decide, by decide, by decide⟩ hl s1 hex
  exact ⟨by rw [h1]; exact hw, h2.trans hm, h3.trans hrep, h4⟩

end LogScanner
